import Mathlib

/-!
# cpp-typename-parser: a shallow embedding of `parser::type`

The definitions below follow `include/cpp-typename-parser.h`.

Conventions of the embedding.

* A `std::string` is a `List Char`.  A `const char*` cursor is the list of the
  characters that are still ahead of it; the terminating NUL is the end of the list,
  so `*input` is `deref input`.  The texts are ASCII, one `Char` for one `char`, and
  the character classes are those of the "C" locale.
* A `std::shared_ptr<type>` is a pair of the address of the shared object and the
  object itself.  `std::make_shared` takes the next address of a counter that is
  threaded through the parser and never reused, so that an address handed out is
  distinct from every address handed out before.  `operator==` on two
  `shared_ptr` compares the addresses, as in C++.
* The parser is recursive and has unbounded loops.  A loop over single characters is a
  recursion over the list; every other loop or recursion of the parser takes a `fuel`,
  passes `fuel - 1` on, and returns `none` when the fuel runs out.  A statement about
  `fuel = k + c` for every `k` is a statement about every fuel of at least `c`.
* Operations whose C++ behaviour is undefined (`layers.back()` on an empty vector,
  reading the uninitialised `last_layer`) return `none`.
-/

namespace parser

/-! ## Characters and C strings -/

/-- The terminating character of a C string. -/
def NUL : Char := Char.ofNat 0

/-- The character under the cursor, `*input`. -/
def deref (input : List Char) : Char :=
  match input with
  | [] => NUL
  | c :: _ => c

/-- The character `input[i]`. -/
def peek (input : List Char) (i : Nat) : Char := deref (input.drop i)

/-- The string a `const char*` denotes: the characters before the first NUL. -/
def c_str (val : List Char) : List Char := val.takeWhile (fun c => c != NUL)

/-- The function `std::isalpha` in the "C" locale. -/
def isalpha (c : Char) : Bool :=
  (65 ≤ c.toNat && c.toNat ≤ 90) || (97 ≤ c.toNat && c.toNat ≤ 122)

/-- The function `std::isspace` in the "C" locale: space, `\t`, `\n`, `\v`, `\f`, `\r`. -/
def isspace (c : Char) : Bool :=
  c.toNat == 32 || (9 ≤ c.toNat && c.toNat ≤ 13)

/-- The function `std::isdigit`: the decimal digits `0` to `9`. -/
def isdigit (c : Char) : Bool := 48 ≤ c.toNat && c.toNat ≤ 57

/-- The member `std::string::front()`; on an empty string it is the terminating NUL. -/
def front (s : List Char) : Char := deref s

/-- The member `std::string::back()`.  On the empty string the source reads the byte in
front of the buffer; the embedding takes that byte to be NUL. -/
def back (s : List Char) : Char :=
  match s.getLast? with
  | none => NUL
  | some c => c

/-- The test `strncmp( input , pat , pat.length ) == 0`. -/
def strncmp_eq : List Char → List Char → Bool
  | _, [] => true
  | [], _ :: _ => false
  | c :: input, p :: pat => c == p && strncmp_eq input pat

/-! ## `detail::to_string` -/

namespace detail

/-- The table `numbers` of `detail::to_string`. -/
def numbers : List Char := "0123456789ABCDEFGHIJKLMNOPQRSTUVWXYZ".toList

/-- The `do ... while( value != 0 )` loop of `detail::to_string`: every round puts the
digit `numbers[value % base]` in front of the text and divides `value` by `base`. -/
def to_string_loop (base : Nat) : Nat → Nat → List Char → List Char
  | 0, _, result => result
  | fuel + 1, value, result =>
    let result := numbers.getD (value % base) NUL :: result
    let value := value / base
    if value != 0 then to_string_loop base fuel value result else result

/-- The function `detail::to_string( int value , int base = 10 )`.  The loop runs at most
once per digit, so `|value| + 1` rounds are enough. -/
def to_string (value : Int) (base : Nat := 10) : List Char :=
  let is_negative := decide (value < 0)
  let value := if is_negative then -value else value
  let result := to_string_loop base (value.toNat + 1) value.toNat []
  if is_negative then '-' :: result else result

end detail

/-! ## Data model -/

/-- The enumeration `type::layer_type`, in declaration order. -/
inductive layer_type where
  | type
  | pointer
  | lvalue
  | rvalue
  | member_pointer
  | function
  | array
  deriving DecidableEq, Repr

/-- The value `(int)lt` of an enumerator. -/
def layer_type.toNat : layer_type → Nat
  | .type => 0
  | .pointer => 1
  | .lvalue => 2
  | .rvalue => 3
  | .member_pointer => 4
  | .function => 5
  | .array => 6

/-- A `std::shared_ptr<T>`: the address of the shared object and the object. -/
structure shared_ptr (T : Type) where
  addr : Nat
  pointee : T
  deriving Repr

/-- The struct `type::layer`; the defaults are those of value initialisation. -/
structure layer (T : Type) where
  layer_type : layer_type
  content : List Char := []
  is_const : Bool := false
  is_volatile : Bool := false
  arguments : List (shared_ptr T) := []
  deriving Repr

/-- The class `parser::type`: its only data member is the vector `layers`. -/
inductive type where
  | mk (layers : List (layer type))

/-- The data member `layers`. -/
def type.layers : type → List (layer type)
  | .mk ls => ls

/-- The constructor `type()`: one layer `{ layer_type::type , content : "void" }`. -/
def type.default : type := .mk [{ layer_type := .type, content := "void".toList }]

/-- The Type with no layers, as `type{nullptr}` builds it. -/
def type.invalid : type := .mk []

/-- The conversion `explicit operator bool()`. -/
def type.valid (x : type) : Bool := !x.layers.isEmpty

/-! ## Equality -/

/-- The comparison `operator==` of two `std::shared_ptr`: the stored pointers are compared. -/
def shared_ptr.eq {T : Type} (a b : shared_ptr T) : Bool := a.addr == b.addr

/-- The comparison `operator==` of two `std::vector`: same size and equal elements. -/
def vector_eq {α : Type} (elem_eq : α → α → Bool) : List α → List α → Bool
  | [], [] => true
  | a :: as, b :: bs => elem_eq a b && vector_eq elem_eq as bs
  | _, _ => false

/-- The comparison `layer::operator==`. -/
def layer.eq (a b : layer type) : Bool :=
  a.layer_type == b.layer_type
    && a.is_const == b.is_const
    && a.is_volatile == b.is_volatile
    && a.content == b.content
    && vector_eq shared_ptr.eq a.arguments b.arguments

/-- The comparison `type::operator==`. -/
def type.eq (a b : type) : Bool := vector_eq layer.eq a.layers b.layers

/-- The comparison `type::operator!=`. -/
def type.ne (a b : type) : Bool := !vector_eq layer.eq a.layers b.layers

mutual
/-- Structural equality of two Types as the specification words it: the same number
of layers, pairwise equal. -/
def type.struct_eq : type → type → Bool
  | .mk as, .mk bs => struct_eq_layers as bs
termination_by structural x => x
/-- Structural equality of two layer sequences. -/
def struct_eq_layers : List (layer type) → List (layer type) → Bool
  | [], [] => true
  | a :: as, b :: bs => struct_eq_layer a b && struct_eq_layers as bs
  | _, _ => false
termination_by structural x => x
/-- Structural equality of two layers: equal kind, cv flags and content, and argument
lists equal element-wise by the comparison of the argument Types. -/
def struct_eq_layer : layer type → layer type → Bool
  | ⟨k, c, ic, iv, args⟩, ⟨k', c', ic', iv', args'⟩ =>
    decide (k = k') && ic == ic' && iv == iv' && c == c' && struct_eq_args args args'
termination_by structural x => x
/-- Structural equality of two argument lists. -/
def struct_eq_args : List (shared_ptr type) → List (shared_ptr type) → Bool
  | [], [] => true
  | a :: as, b :: bs => struct_eq_arg a b && struct_eq_args as bs
  | _, _ => false
termination_by structural x => x
/-- Structural equality of two arguments: the Types pointed to are compared. -/
def struct_eq_arg : shared_ptr type → shared_ptr type → Bool
  | ⟨_, s⟩, ⟨_, t⟩ => type.struct_eq s t
termination_by structural x => x
end

/-! ## Mutation API -/

/-- The call `layers.back() = f( layers.back() )` on a non-empty vector. -/
def update_back {α : Type} (f : α → α) : List α → List α
  | [] => []
  | [a] => [f a]
  | a :: b :: rest => a :: update_back f (b :: rest)

/-- The kind of `layers.back()`, `none` on an empty vector. -/
def back_type (layers : List (layer type)) : Option layer_type :=
  layers.getLast?.map (fun l => l.layer_type)

/-- The method `set_datatype( type t )`. -/
def type.set_datatype (x t : type) : type :=
  let layers :=
    match x.layers with
    | [] => []
    | l :: rest => if l.layer_type = .type then rest else l :: rest
  .mk (t.layers ++ layers)

/-- The method `add_const()`. -/
def type.add_const (x : type) : type :=
  let layers :=
    if x.layers.isEmpty then
      x.layers ++ [{ layer_type := .type, content := "void".toList, is_const := true }]
    else x.layers
  match back_type layers with
  | some .type | some .pointer | some .member_pointer =>
    .mk (update_back (fun l => { l with is_const := true }) layers)
  | _ => .mk layers

/-- The method `add_volatile()`. -/
def type.add_volatile (x : type) : type :=
  let layers :=
    if x.layers.isEmpty then
      x.layers ++ [{ layer_type := .type, content := "void".toList, is_const := false,
                     is_volatile := true }]
    else x.layers
  match back_type layers with
  | some .type | some .pointer | some .member_pointer =>
    .mk (update_back (fun l => { l with is_volatile := true }) layers)
  | _ => .mk layers

/-- The method `add_array( int extent = -1 )`. -/
def type.add_array (x : type) (extent : Int := -1) : type :=
  let layers :=
    if x.layers.isEmpty then x.layers ++ [{ layer_type := .type, content := "void".toList }]
    else x.layers
  .mk (layers ++ [{ layer_type := .array,
                    content := if extent > 0 then detail.to_string extent else [] }])

/-- The method `add_function( std::vector<std::shared_ptr<type>> parameters = {} )`. -/
def type.add_function (x : type) (parameters : List (shared_ptr type) := []) : type :=
  let layers :=
    if x.layers.isEmpty then x.layers ++ [{ layer_type := .type, content := "void".toList }]
    else x.layers
  .mk (layers ++ [{ layer_type := .function, content := [], is_const := false,
                    is_volatile := false, arguments := parameters }])

/-- The method `remove_const()`. -/
def type.remove_const (x : type) : type :=
  if !x.layers.isEmpty then .mk (update_back (fun l => { l with is_const := false }) x.layers)
  else x

/-- The method `remove_volatile()`. -/
def type.remove_volatile (x : type) : type :=
  if !x.layers.isEmpty then
    .mk (update_back (fun l => { l with is_volatile := false }) x.layers)
  else x

/-- The method `remove_reference()`.  It reads `layers.back()` without a test for an
empty vector, which is undefined on an empty vector: `none`. -/
def type.remove_reference (x : type) : Option type :=
  match back_type x.layers with
  | none => none
  | some .lvalue | some .rvalue => some (.mk x.layers.dropLast)
  | some _ => some x

/-- The method `remove_pointer()`.  It reads `layers.back()` without a test for an
empty vector, which is undefined on an empty vector: `none`. -/
def type.remove_pointer (x : type) : Option type :=
  match back_type x.layers with
  | none => none
  | some .pointer | some .member_pointer | some .function | some .array =>
    some (.mk x.layers.dropLast)
  | some _ => some x

/-- The method `clear()`. -/
def type.clear (_x : type) : type := type.default

/-! ## Information retrieval -/

/-- The method `get_datatype()`. -/
def type.get_datatype (x : type) : List Char :=
  match x.layers with
  | [] => []
  | l :: _ => if l.layer_type = .type then l.content else []

/-- The method `is_plain()`. -/
def type.is_plain (x : type) : Bool :=
  match x.layers with
  | [l] => l.layer_type == .type
  | _ => false

/-- The method `is_lvalue_reference()`. -/
def type.is_lvalue_reference (x : type) : Bool := back_type x.layers == some .lvalue

/-- The method `is_rvalue_reference()`. -/
def type.is_rvalue_reference (x : type) : Bool := back_type x.layers == some .rvalue

/-- The method `is_array()`. -/
def type.is_array (x : type) : Bool := back_type x.layers == some .array

/-- The method `is_pointer()`. -/
def type.is_pointer (x : type) : Bool := back_type x.layers == some .pointer

/-- The method `is_member_pointer()`. -/
def type.is_member_pointer (x : type) : Bool := back_type x.layers == some .member_pointer

/-- The method `is_const()`. -/
def type.is_const (x : type) : Bool :=
  match x.layers.getLast? with
  | none => false
  | some l => l.is_const

/-- The method `is_volatile()`. -/
def type.is_volatile (x : type) : Bool :=
  match x.layers.getLast? with
  | none => false
  | some l => l.is_volatile

/-- The method `is_void()`. -/
def type.is_void (x : type) : Bool :=
  match x.layers with
  | [l] => l.content == "void".toList
  | _ => false

/-! ## Serializer -/

/-- The function `need_space( char lhs , char rhs )`. -/
def need_space (lhs rhs : Char) : Bool :=
  if isalpha lhs then
    isalpha rhs || rhs == '*' || rhs == '(' || rhs == ':'
  else if lhs == '*' || lhs == ')' || lhs == ':' then
    isalpha rhs
  else
    false

/-- The table `primitive_types` of `is_primitive_type`. -/
def primitive_types : List (List Char) :=
  ["char", "char16_t", "char32_t", "wchar_t", "bool", "short", "int", "long", "signed",
    "unsigned", "float", "double", "void"].map String.toList

/-- The function `is_primitive_type( std::string& str )`. -/
def is_primitive_type (str : List Char) : Bool := primitive_types.any (fun p => str == p)

/-- The call `result.emplace( result.begin() + pos , s )`. -/
def emplace {α : Type} (result : List α) (pos : Nat) (s : α) : List α :=
  result.take pos ++ s :: result.drop pos

/-- The table `lut` of `to_string`, indexed by `(int)lr.layer_type`. -/
def lut : List (List Char) := ["", "*", "&", "&&"].map String.toList

/-- The local variables of `to_string` that its loop over the layers updates.
`last_layer` is `none` as long as it is uninitialised. -/
structure to_string_state where
  result : List (List Char)
  last_layer : Option (layer type)
  insert_pos : Nat

/-- The loop of the `layer_type::function` case over `lr.arguments.rbegin() .. rend()`,
given the text of every argument, last argument first. -/
def emplace_arguments (insert_pos : Nat) :
    List (List Char) → Bool → List (List Char) → List (List Char)
  | [], _, result => result
  | s :: rest, is_first, result =>
    let result := if !is_first then emplace result insert_pos ",".toList else result
    emplace_arguments insert_pos rest false (emplace result insert_pos s)

/-- The case `layer_type::type` of the switch in `to_string`. -/
def to_string_base (lr : layer type) (st : to_string_state) : to_string_state :=
  let st := if lr.is_const then
      { st with result := emplace st.result st.insert_pos "const".toList,
                insert_pos := st.insert_pos + 1 }
    else st
  let st := if lr.is_volatile then
      { st with result := emplace st.result st.insert_pos "volatile".toList,
                insert_pos := st.insert_pos + 1 }
    else st
  { st with result := emplace st.result st.insert_pos lr.content,
            insert_pos := st.insert_pos + 1 }

/-- The case `layer_type::array` of the switch in `to_string`. -/
def to_string_array (lr : layer type) (st : to_string_state) : to_string_state :=
  let result := emplace st.result st.insert_pos "]".toList
  let result := emplace result st.insert_pos lr.content
  let result := emplace result st.insert_pos "[".toList
  { st with result := result }

/-- The case `layer_type::function` of the switch in `to_string`, given the text
`(*it)->to_string()` of every argument in order. -/
def to_string_function (args : List (List Char)) (st : to_string_state) : to_string_state :=
  let result := emplace st.result st.insert_pos ")".toList
  let result := emplace_arguments st.insert_pos args.reverse true result
  let result := emplace result st.insert_pos "(".toList
  { st with result := result }

/-- The value of `need_parens` in the pointer and reference cases of `to_string`.  Reading
the uninitialised `last_layer`, or `result[insert_pos-1]` outside of `result`, is `none`. -/
def to_string_need_parens (lr : layer type) (st : to_string_state) : Option Bool :=
  match st.last_layer with
  | none => none
  | some last =>
    if last.layer_type = .array then some true
    else if last.layer_type = .function then some true
    else if st.insert_pos = 0 then none
    else
      match st.result.get? (st.insert_pos - 1) with
      | none => none
      | some tok => some (!is_primitive_type tok && front lr.content == ':')

/-- The cases `pointer`, `lvalue`, `rvalue` and `member_pointer` of the switch in
`to_string`. -/
def to_string_pointer (lr : layer type) (st : to_string_state) : Option to_string_state :=
  match to_string_need_parens lr st with
  | none => none
  | some need_parens =>
    let st := if need_parens then
        { st with result := emplace st.result st.insert_pos "(".toList,
                  insert_pos := st.insert_pos + 1 }
      else st
    let token := if lr.layer_type = .member_pointer then lr.content ++ "::*".toList
      else lut.getD lr.layer_type.toNat []
    let st := { st with result := emplace st.result st.insert_pos token,
                        insert_pos := st.insert_pos + 1 }
    let st := if lr.is_const then
        { st with result := emplace st.result st.insert_pos "const".toList,
                  insert_pos := st.insert_pos + 1 }
      else st
    let st := if lr.is_volatile then
        { st with result := emplace st.result st.insert_pos "volatile".toList,
                  insert_pos := st.insert_pos + 1 }
      else st
    let st := if need_parens then
        { st with result := emplace st.result st.insert_pos ")".toList }
      else st
    some st

/-- The final loop of `to_string`: the tokens of `result` are appended to `output`, with
a space in front of a token where `need_space` asks for one. -/
def join_tokens : List (List Char) → List Char → List Char
  | [], output => output
  | str :: rest, output =>
    let output := if need_space (back output) (front str) then output ++ [' '] else output
    join_tokens rest (output ++ str)

/-- The end of `to_string`, after the loop over the layers: the name is put at the
insertion point when it is not empty and the tokens are joined. -/
def to_string_finish (name : List Char) (st : to_string_state) : List Char :=
  let result := if !name.isEmpty then emplace st.result st.insert_pos name else st.result
  join_tokens result []

mutual
/-- The method `to_string( std::string name = {} )`.  It is `none` when the source reads
an uninitialised or out-of-range object, which happens only for a first layer of a
pointer or reference kind. -/
def type.to_string : type → List Char → Option (List Char)
  | .mk layers, name =>
    match to_string_layers layers { result := [], last_layer := none, insert_pos := 0 } with
    | none => none
    | some st => some (to_string_finish name st)
termination_by structural x => x
/-- The loop `for( const layer& lr : layers )` of `to_string`. -/
def to_string_layers : List (layer type) → to_string_state → Option to_string_state
  | [], st => some st
  | lr :: rest, st =>
    match to_string_layer lr st with
    | none => none
    | some st => to_string_layers rest st
termination_by structural x => x
/-- The body of the loop of `to_string`: the switch, then `last_layer = lr`. -/
def to_string_layer : layer type → to_string_state → Option to_string_state
  | ⟨kind, content, is_const, is_volatile, arguments⟩, st =>
    let lr : layer type := ⟨kind, content, is_const, is_volatile, arguments⟩
    let switched : Option to_string_state :=
      match kind with
      | .type => some (to_string_base lr st)
      | .array => some (to_string_array lr st)
      | .function =>
        match to_string_arguments arguments with
        | none => none
        | some args => some (to_string_function args st)
      | _ => to_string_pointer lr st
    match switched with
    | none => none
    | some st => some { st with last_layer := some lr }
termination_by structural x => x
/-- The text `(*it)->to_string()` of every argument of a function layer, in order. -/
def to_string_arguments : List (shared_ptr type) → Option (List (List Char))
  | [] => some []
  | a :: rest =>
    match to_string_argument a, to_string_arguments rest with
    | some s, some ss => some (s :: ss)
    | _, _ => none
termination_by structural x => x
/-- The text `(*it)->to_string()` of one argument. -/
def to_string_argument : shared_ptr type → Option (List Char)
  | ⟨_, t⟩ => type.to_string t []
termination_by structural x => x
end

/-! ## Parser -/

/-- The function `skip_spaces( const char*& input )`. -/
def skip_spaces : List Char → List Char
  | [] => []
  | c :: rest => if isspace c then skip_spaces rest else c :: rest

/-- The loop `while( std::isalpha(*input) || *input == '_' ) dest += *input++;` that ends
the `do ... while` of `node_name`; the result is the cursor and `dest`. -/
def node_name_word : List Char → List Char → List Char × List Char
  | [], dest => ([], dest)
  | c :: rest, dest =>
    if isalpha c || c == '_' then node_name_word rest (dest ++ [c]) else (c :: rest, dest)

/-- The loop of `node_name` over the template parameters,
`while( *input && ( *input != '>' || num_open_brackets > 0 ) )`; the result is the cursor
and `dest`. -/
def node_name_template : List Char → Int → List Char → List Char × List Char
  | [], _, dest => ([], dest)
  | c :: rest, num_open_brackets, dest =>
    if c != NUL && (c != '>' || num_open_brackets > 0) then
      let num_open_brackets :=
        if c == '<' then num_open_brackets + 1
        else if c == '>' then num_open_brackets - 1
        else num_open_brackets
      node_name_template rest num_open_brackets (dest ++ [c])
    else (c :: rest, dest)

/-- The function `node_name( const char*& input , std::string& dest )`; the result is the
returned value, the cursor and `dest`.  The statement `dest += input++;` that reads the
closing bracket appends the C string `input`, that is all of the text from the bracket
on, and moves the cursor by one. -/
def node_name (input dest : List Char) : Bool × List Char × List Char :=
  if !isalpha (deref input) || deref input == '_' then (false, input, dest)
  else
    let (input, dest) := node_name_word (input.drop 1) (dest ++ [deref input])
    let input := skip_spaces input
    if deref input == '<' then
      let orig_len := dest.length
      let input_backup := input
      let (input, dest) := node_name_template (input.drop 1) 0 (dest ++ [deref input])
      if deref input == NUL then (true, input_backup, dest.take orig_len)
      else (true, skip_spaces (input.drop 1), dest ++ c_str input)
    else (true, input, dest)

/-- The function `node_cv_qual( const char*& input )`; the result is the returned value,
the cursor and `layers`.  Every caller has pushed a layer before the call, so
`layers.back()` exists. -/
def node_cv_qual (input : List Char) (layers : List (layer type)) :
    Bool × List Char × List (layer type) :=
  if strncmp_eq input "const".toList then
    (true, skip_spaces (input.drop 5), update_back (fun l => { l with is_const := true }) layers)
  else if strncmp_eq input "volatile".toList then
    (true, skip_spaces (input.drop 8),
      update_back (fun l => { l with is_volatile := true }) layers)
  else (false, input, layers)

/-- The statement `while( node_cv_qual( input ) );`. -/
def node_cv_quals : Nat → List Char → List (layer type) → Option (List Char × List (layer type))
  | 0, _, _ => none
  | fuel + 1, input, layers =>
    match node_cv_qual input layers with
    | (true, input, layers) => node_cv_quals fuel input layers
    | (false, input, layers) => some (input, layers)

/-- The string `layers.back().content`. -/
def back_content (layers : List (layer type)) : List Char :=
  match layers.getLast? with
  | none => []
  | some l => l.content

/-- The body of `node_basic_type` from the label `read_word` on, with the locals `content`
and `primitive`; a `goto read_word` is a recursive call. -/
def node_basic_type_read_word :
    Nat → List Char → List (layer type) → List Char → Bool →
      Option (Bool × List Char × List (layer type))
  | 0, _, _, _, _ => none
  | fuel + 1, input, layers, content, primitive =>
    match node_cv_quals fuel input layers with
    | none => none
    | some (input, layers) =>
      let input_backup := input
      match node_name input content with
      | (true, input, content) =>
        let still_primitive := primitive && is_primitive_type content
        let layers :=
          if !(back_content layers).isEmpty && still_primitive then
            update_back (fun l => { l with content := l.content ++ [' '] }) layers
          else layers
        if (back_content layers).isEmpty || still_primitive then
          let layers := update_back (fun l => { l with content := l.content ++ content }) layers
          node_basic_type_read_word fuel input layers [] still_primitive
        else
          some (!(back_content layers).isEmpty, input_backup, layers)
      | (false, input, content) =>
        if (!primitive || (back_content layers).isEmpty)
            && peek input 0 == ':' && peek input 1 == ':'
            && (isalpha (peek input 2) || peek input 2 == '_') then
          let layers := update_back (fun l => { l with content := l.content ++ "::".toList }) layers
          let input := input.drop 2
          let (_, input, dest) := node_name input (back_content layers)
          let layers := update_back (fun l => { l with content := dest }) layers
          node_basic_type_read_word fuel input layers content primitive
        else
          some (!(back_content layers).isEmpty, input, layers)

/-- The function `node_basic_type( const char*& input )`. -/
def node_basic_type (fuel : Nat) (input : List Char) (layers : List (layer type)) :
    Option (Bool × List Char × List (layer type)) :=
  node_basic_type_read_word fuel input layers [] true

/-- The body of `node_mem_ptr` from the label `start` on, up to the test that follows the
jumps, with the local `content`; a `goto start` is a recursive call. -/
def node_mem_ptr_start : Nat → List Char → List Char → Option (List Char × List Char)
  | 0, _, _ => none
  | fuel + 1, input, content =>
    if peek input 0 == ':' && peek input 1 == ':' then
      node_mem_ptr_start fuel (skip_spaces (input.drop 2)) (content ++ "::".toList)
    else
      match node_name input content with
      | (true, input, content) => node_mem_ptr_start fuel input content
      | (false, input, content) => some (input, content)

/-- The function `node_mem_ptr( const char*& input )`. -/
def node_mem_ptr (fuel : Nat) (input : List Char) (layers : List (layer type)) :
    Option (Bool × List Char × List (layer type)) :=
  let backup := input
  match node_mem_ptr_start fuel input [] with
  | none => none
  | some (input, content) =>
    if content.isEmpty || back content != ':' || deref input != '*' then
      some (false, backup, layers)
    else
      let content := content.take (content.length - 2)
      let input := skip_spaces (input.drop 1)
      let layers := layers ++ [{ layer_type := .member_pointer, content := content }]
      match node_cv_quals fuel input layers with
      | none => none
      | some (input, layers) => some (true, input, layers)

/-- The function `node_ptr_or_ref( const char*& input )`. -/
def node_ptr_or_ref (fuel : Nat) (input : List Char) (layers : List (layer type)) :
    Option (Bool × List Char × List (layer type)) :=
  if deref input == '*' then
    let layers := layers ++ [{ layer_type := .pointer }]
    let input := skip_spaces (input.drop 1)
    match node_cv_quals fuel input layers with
    | none => none
    | some (input, layers) => some (true, input, layers)
  else if deref input == '&' then
    if peek input 1 == '&' then
      some (true, skip_spaces (input.drop 2), layers ++ [{ layer_type := .rvalue }])
    else
      some (true, skip_spaces (input.drop 1), layers ++ [{ layer_type := .lvalue }])
  else
    node_mem_ptr fuel input layers

/-- The statement `while( node_ptr_or_ref( input ) );`. -/
def node_ptr_or_refs : Nat → List Char → List (layer type) →
    Option (List Char × List (layer type))
  | 0, _, _ => none
  | fuel + 1, input, layers =>
    match node_ptr_or_ref fuel input layers with
    | none => none
    | some (true, input, layers) => node_ptr_or_refs fuel input layers
    | some (false, input, layers) => some (input, layers)

/-- The loop of `node_array_func` over the text between `[` and `]`,
`while( *input && ( *input != ']' || open_parens > 0 ) )`; the result is the cursor and
`content`. -/
def node_array_func_extent : List Char → Int → List Char → List Char × List Char
  | [], _, content => ([], content)
  | c :: rest, open_parens, content =>
    if c != NUL && (c != ']' || open_parens > 0) then
      let open_parens :=
        if c == '[' then open_parens + 1
        else if c == ']' then open_parens - 1
        else open_parens
      node_array_func_extent rest open_parens (content ++ [c])
    else (c :: rest, content)

/-- The call `layers.resize( n )`. -/
def resize (layers : List (layer type)) (n : Nat) : List (layer type) :=
  layers.take n ++ List.replicate (n - layers.length) { layer_type := .type }

/-- The call `res->arguments.push_back( p )` for the iterator `res` to `layers[pos]`. -/
def push_argument (layers : List (layer type)) (pos : Nat) (p : shared_ptr type) :
    List (layer type) :=
  layers.take pos ++
    match layers.drop pos with
    | [] => []
    | l :: rest => { l with arguments := l.arguments ++ [p] } :: rest

/-- How the inner loop of `node_array_func` ends: with a `return` of the function, or
by running to its end. -/
inductive loop_exit where
  | returned (value : Bool) (input : List Char) (layers : List (layer type)) (heap : Nat)
  | completed (input : List Char) (layers : List (layer type)) (heap : Nat)

mutual
/-- The function `node_type( const char*& input )`; the result is the returned value, the
cursor, `layers` and the next free address. -/
def node_type : Nat → List Char → List (layer type) → Nat →
    Option (Bool × List Char × List (layer type) × Nat)
  | 0, _, _, _ => none
  | fuel + 1, input, layers, heap =>
    let layers := layers ++ [{ layer_type := .type }]
    let input := skip_spaces input
    match node_basic_type fuel input layers with
    | none => none
    | some (false, input, layers) => some (false, input, layers.dropLast, heap)
    | some (true, input, layers) =>
      match node_type_qual fuel input layers heap with
      | none => none
      | some (_, input, layers, heap) => some (true, input, layers, heap)
termination_by structural fuel => fuel

/-- The function `node_type_qual( const char*& input )`. -/
def node_type_qual : Nat → List Char → List (layer type) → Nat →
    Option (Bool × List Char × List (layer type) × Nat)
  | 0, _, _, _ => none
  | fuel + 1, input, layers, heap =>
    match node_ptr_or_ref fuel input layers with
    | none => none
    | some (false, input, layers) => node_array_func fuel input layers heap
    | some (true, input, layers) =>
      match node_ptr_or_refs fuel input layers with
      | none => none
      | some (input, layers) =>
        match node_array_func fuel input layers heap with
        | none => none
        | some (_, input, layers, heap) => some (true, input, layers, heap)
termination_by structural fuel => fuel

/-- The function `node_array_func( const char*& input )`. -/
def node_array_func : Nat → List Char → List (layer type) → Nat →
    Option (Bool × List Char × List (layer type) × Nat)
  | 0, _, _, _ => none
  | fuel + 1, input, layers, heap =>
    if deref input == NUL then some (false, input, layers, heap)
    else node_array_func_tries fuel layers.length 0 input layers heap
termination_by structural fuel => fuel

/-- The loop `for( int num_tries = 0; true ; num_tries++ )` of `node_array_func`, from
the round `num_tries` on, with the local `insert_pos`. -/
def node_array_func_tries : Nat → Nat → Nat → List Char → List (layer type) → Nat →
    Option (Bool × List Char × List (layer type) × Nat)
  | 0, _, _, _, _, _ => none
  | fuel + 1, insert_pos, num_tries, input, layers, heap =>
    let input_backup := input
    match node_array_func_try fuel insert_pos num_tries 0 input_backup input layers heap with
    | none => none
    | some (.returned value input layers heap) => some (value, input, layers, heap)
    | some (.completed input layers heap) =>
      if deref input == NUL || deref input == ')' || deref input == ',' then
        some (decide (num_tries > 0), input, layers, heap)
      else
        node_array_func_tries fuel insert_pos (num_tries + 1) input_backup
          (resize layers insert_pos) heap
termination_by structural fuel => fuel

/-- The loop `for( int cur_try = 0 ; cur_try < num_tries ; cur_try++ )` of
`node_array_func`, from the round `cur_try` on. -/
def node_array_func_try : Nat → Nat → Nat → Nat → List Char → List Char →
    List (layer type) → Nat → Option loop_exit
  | 0, _, _, _, _, _, _, _ => none
  | fuel + 1, insert_pos, num_tries, cur_try, input_backup, input, layers, heap =>
    if cur_try < num_tries then
      if deref input == '[' then
        let input := skip_spaces (input.drop 1)
        let (input, content) := node_array_func_extent input 0 []
        if deref input == NUL then some (.returned false input layers heap)
        else
          let layers := emplace layers insert_pos { layer_type := .array, content := content }
          let input := skip_spaces (input.drop 1)
          node_array_func_try fuel insert_pos num_tries (cur_try + 1) input_backup input
            layers heap
      else if deref input == '(' then
        let input := skip_spaces (input.drop 1)
        let input_backup_2 := input
        let grouped :=
          if cur_try = 0 then node_type_qual fuel input layers heap
          else some (false, input, layers, heap)
        match grouped with
        | none => none
        | some (is_type_qual, input, layers, heap) =>
          if cur_try = 0 && is_type_qual && deref input == ')' then
            node_array_func_try fuel insert_pos num_tries (cur_try + 1) input_backup
              (skip_spaces (input.drop 1)) layers heap
          else
            let input := input_backup_2
            let layers := emplace layers insert_pos { layer_type := .function }
            match node_array_func_parameters fuel insert_pos input layers heap with
            | none => none
            | some (input, layers, heap) =>
              if deref input != ')' then
                some (.returned false input_backup (resize layers insert_pos) heap)
              else
                let input := skip_spaces (input.drop 1)
                match node_cv_quals fuel input layers with
                | none => none
                | some (input, layers) =>
                  node_array_func_try fuel insert_pos num_tries (cur_try + 1) input_backup
                    input layers heap
      else
        some (.returned false input_backup (resize layers insert_pos) heap)
    else
      some (.completed input layers heap)
termination_by structural fuel => fuel

/-- The loop `while(true)` of `node_array_func` that reads the parameters into the
function layer at `insert_pos`; the result is the cursor, `layers` and the next free
address. -/
def node_array_func_parameters : Nat → Nat → List Char → List (layer type) → Nat →
    Option (List Char × List (layer type) × Nat)
  | 0, _, _, _, _ => none
  | fuel + 1, insert_pos, input, layers, heap =>
    let input_backup_3 := input
    match node_type fuel input [] heap with
    | none => none
    | some (_, input, param, heap) =>
      if param.isEmpty then some (input_backup_3, layers, heap)
      else
        let layers := push_argument layers insert_pos { addr := heap, pointee := .mk param }
        let heap := heap + 1
        if deref input != ',' then some (input, layers, heap)
        else
          node_array_func_parameters fuel insert_pos (skip_spaces (input.drop 1)) layers heap
termination_by structural fuel => fuel
end

/-- The constructor `type( const char* val )` for a non-null `val`: `node_type` runs on
the empty `layers` and its returned value is dropped.  The result is the Type and the
next free address. -/
def type.parse (fuel heap : Nat) (val : List Char) : Option (type × Nat) :=
  match node_type fuel (c_str val) [] heap with
  | none => none
  | some (_, _, layers, heap) => some (.mk layers, heap)

/-! ## Definitions that follow the wording of the specification -/

/-- The function `std::isalnum` in the "C" locale. -/
def isalnum (c : Char) : Bool := isalpha c || isdigit c

/-- The spacing condition as the specification words it: the last character `l` of the left
token is alphanumeric or `:`, and the first character `r` of the right token is
alphanumeric, `*`, `(` or `:`. -/
def need_space_spec (l r : Char) : Bool :=
  (isalnum l || l == ':') && (isalnum r || r == '*' || r == '(' || r == ':')

mutual
/-- The Base-first property of a Type as the specification words it: the Type is empty, or
its first layer has the kind Base and a non-empty content and no later layer has the kind
Base; and every argument of every Function layer is a non-empty Type with the same
property. -/
def type.base_first : type → Bool
  | .mk ls => base_first_layers ls true
termination_by structural x => x
/-- The Base-first property of a layer sequence; `first` tells whether the sequence starts
at the first layer of the Type. -/
def base_first_layers : List (layer type) → Bool → Bool
  | [], _ => true
  | l :: rest, first => base_first_layer l first && base_first_layers rest false
termination_by structural x => x
/-- The condition on one layer: the first layer has the kind Base and a non-empty content,
a later layer has another kind; the arguments of a Function layer have the property. -/
def base_first_layer : layer type → Bool → Bool
  | ⟨k, c, _, _, args⟩, first =>
    (if first then decide (k = .type) && !c.isEmpty else decide (k ≠ .type))
      && (decide (k ≠ .function) || base_first_args args)
termination_by structural x => x
/-- The condition on the arguments of a Function layer. -/
def base_first_args : List (shared_ptr type) → Bool
  | [] => true
  | a :: rest => base_first_arg a && base_first_args rest
termination_by structural x => x
/-- The condition on one argument: it is not empty and has the Base-first property. -/
def base_first_arg : shared_ptr type → Bool
  | ⟨_, t⟩ => t.valid && type.base_first t
termination_by structural x => x
end

/-! ## Helper lemmas -/

theorem update_back_eq_nil {α : Type} (f : α → α) (l : List α) :
    update_back f l = [] ↔ l = [] := by
  induction l with
  | nil => simp [update_back]
  | cons a rest ih =>
    cases rest with
    | nil => simp [update_back]
    | cons b rest => simp [update_back]

theorem isEmpty_update_back {α : Type} (f : α → α) (l : List α) :
    (update_back f l).isEmpty = l.isEmpty := by
  cases l with
  | nil => simp [update_back]
  | cons a rest =>
    have h : update_back f (a :: rest) ≠ [] := by
      intro h
      exact absurd ((update_back_eq_nil f (a :: rest)).mp h) (by simp)
    cases hu : update_back f (a :: rest) with
    | nil => exact absurd hu h
    | cons b r => simp

theorem back_type_eq_none (layers : List (layer type)) :
    back_type layers = none ↔ layers = [] := by
  simp [back_type, List.getLast?_eq_none_iff]

/-- The digit that `detail::to_string` takes from its table is the decimal digit. -/
theorem detail.numbers_getD (d : Nat) (h : d < 10) :
    detail.numbers.getD d NUL = Nat.digitChar d := by
  interval_cases d <;> rfl

/-- In base 10 the loop of `detail::to_string` computes the decimal digits. -/
theorem detail.to_string_loop_eq (fuel value : Nat) (result : List Char) :
    detail.to_string_loop 10 fuel value result = Nat.toDigitsCore 10 fuel value result := by
  induction fuel generalizing value result with
  | zero => rfl
  | succ fuel ih =>
    simp only [detail.to_string_loop, Nat.toDigitsCore]
    rw [detail.numbers_getD (value % 10) (Nat.mod_lt _ (by decide))]
    by_cases hv : value / 10 = 0
    · simp [hv]
    · simp [hv, ih]

/-- For a positive value `detail::to_string` gives the decimal text. -/
theorem detail.to_string_pos (n : Int) (h : 0 < n) :
    detail.to_string n = Nat.toDigits 10 n.toNat := by
  have hneg : ¬ n < 0 := by omega
  simp [detail.to_string, hneg, Nat.toDigits, detail.to_string_loop_eq]

/-- The primitive keywords that are made of letters only. -/
theorem mem_letter_keywords (w : List Char) (hw : w ∈ primitive_types)
    (hl : w.all isalpha = true) :
    w = "char".toList ∨ w = "bool".toList ∨ w = "short".toList ∨ w = "int".toList
      ∨ w = "long".toList ∨ w = "signed".toList ∨ w = "unsigned".toList
      ∨ w = "float".toList ∨ w = "double".toList ∨ w = "void".toList := by
  have h : w ∈ primitive_types.filter (fun w => w.all isalpha) :=
    List.mem_filter.mpr ⟨hw, hl⟩
  have e : primitive_types.filter (fun w => w.all isalpha)
      = ["char", "bool", "short", "int", "long", "signed", "unsigned", "float", "double",
          "void"].map String.toList := by
    decide
  rw [e] at h
  simpa using h

/-! ### Lemmas about the parser and the serializer -/

theorem deref_cons (c : Char) (r : List Char) : deref (c :: r) = c := rfl

theorem skip_spaces_append_spaces (u r : List Char) (hu : ∀ c ∈ u, c = ' ') :
    skip_spaces (u ++ r) = skip_spaces r := by
  induction u with
  | nil => rfl
  | cons c u ih =>
    have hc : c = ' ' := hu c (List.mem_cons_self _ _)
    subst hc
    have : isspace ' ' = true := by decide
    simp only [List.cons_append, skip_spaces, this, if_true]
    exact ih (fun c hc => hu c (List.mem_cons_of_mem _ hc))

theorem skip_spaces_of_not_isspace (r : List Char) (h : isspace (deref r) = false) :
    skip_spaces r = r := by
  cases r with
  | nil => rfl
  | cons c r =>
    simp only [deref] at h
    simp [skip_spaces, h]

theorem skip_spaces_spaces (u : List Char) (hu : ∀ c ∈ u, c = ' ') : skip_spaces u = [] := by
  have := skip_spaces_append_spaces u [] hu
  simpa [skip_spaces] using this

theorem c_str_of_no_NUL (s : List Char) (h : ∀ c ∈ s, c ≠ NUL) : c_str s = s := by
  unfold c_str
  rw [List.takeWhile_eq_self_iff]
  intro c hc
  simpa using h c hc

theorem node_name_word_stop (r dest : List Char)
    (h : (isalpha (deref r) || deref r == '_') = false) : node_name_word r dest = (r, dest) := by
  cases r with
  | nil => rfl
  | cons c r =>
    simp only [deref] at h
    simp [node_name_word, h]

theorem node_name_fail (r dest : List Char) (h : isalpha (deref r) = false) :
    node_name r dest = (false, r, dest) := by
  simp [node_name, h]

theorem strncmp_eq_of_not_isalpha (r : List Char) (p : Char) (pat : List Char)
    (h : isalpha (deref r) = false) (hp : isalpha p = true) : strncmp_eq r (p :: pat) = false := by
  cases r with
  | nil => rfl
  | cons c r =>
    simp only [deref] at h
    have : c ≠ p := by
      intro hcp
      rw [hcp, hp] at h
      exact absurd h (by decide)
    simp [strncmp_eq, this]

theorem node_cv_qual_fail (r : List Char) (layers : List (layer type))
    (h : isalpha (deref r) = false) : node_cv_qual r layers = (false, r, layers) := by
  have h1 : strncmp_eq r "const".toList = false :=
    strncmp_eq_of_not_isalpha r 'c' _ h (by decide)
  have h2 : strncmp_eq r "volatile".toList = false :=
    strncmp_eq_of_not_isalpha r 'v' _ h (by decide)
  unfold node_cv_qual
  rw [h1, h2]
  rfl

theorem node_cv_quals_of_not_isalpha (k : Nat) (r : List Char) (layers : List (layer type))
    (h : isalpha (deref r) = false) : node_cv_quals (k + 1) r layers = some (r, layers) := by
  simp [node_cv_quals, node_cv_qual_fail r layers h]

theorem isalpha_deref_spaces_star (v t : List Char) (hv : ∀ c ∈ v, c = ' ') :
    isalpha (deref (v ++ '*' :: t)) = false := by
  cases v with
  | nil => rfl
  | cons c v =>
    have hc : c = ' ' := hv c (List.mem_cons_self _ _)
    subst hc
    rfl

theorem underscore_deref_spaces_star (v t : List Char) (hv : ∀ c ∈ v, c = ' ') :
    (deref (v ++ '*' :: t) == '_') = false := by
  cases v with
  | nil => rfl
  | cons c v =>
    have hc : c = ' ' := hv c (List.mem_cons_self _ _)
    subst hc
    rfl


theorem isalpha_ne_underscore (c : Char) (h : isalpha c = true) : (c == '_') = false := by
  by_contra hc
  simp at hc
  subst hc
  exact absurd h (by decide)

theorem node_name_word_letters (w rest dest : List Char) (hw : ∀ c ∈ w, isalpha c = true)
    (h1 : (isalpha (deref rest) || deref rest == '_') = false) :
    node_name_word (w ++ rest) dest = (rest, dest ++ w) := by
  induction w generalizing dest with
  | nil => simpa using node_name_word_stop rest dest h1
  | cons c w ih =>
    have hc : isalpha c = true := hw c (List.mem_cons_self _ _)
    have ih2 := ih (dest ++ [c]) (fun c hc => hw c (List.mem_cons_of_mem _ hc))
    simp only [List.cons_append, node_name_word, hc, Bool.true_or, if_true]
    simpa using ih2

theorem node_name_letters (w rest dest : List Char) (hne : w ≠ [])
    (hw : ∀ c ∈ w, isalpha c = true)
    (h1 : (isalpha (deref rest) || deref rest == '_') = false)
    (h3 : (deref (skip_spaces rest) == '<') = false) :
    node_name (w ++ rest) dest = (true, skip_spaces rest, dest ++ w) := by
  cases w with
  | nil => exact absurd rfl hne
  | cons c w =>
    have hc : isalpha c = true := hw c (List.mem_cons_self _ _)
    have hw2 := node_name_word_letters w rest (dest ++ [c])
      (fun c hc => hw c (List.mem_cons_of_mem _ hc)) h1
    simp [node_name, deref_cons, hc, isalpha_ne_underscore c hc, hw2, h3]

theorem strncmp_eq_append (w rest pat : List Char) (hp : ∀ c ∈ pat, isalpha c = true)
    (h1 : isalpha (deref rest) = false) :
    strncmp_eq (w ++ rest) pat = strncmp_eq w pat := by
  induction w generalizing pat with
  | nil =>
    cases pat with
    | nil => simp [strncmp_eq]
    | cons p pat =>
      rw [List.nil_append, strncmp_eq_of_not_isalpha rest p pat h1 (hp p (List.mem_cons_self _ _))]
      rfl
  | cons c w ih =>
    cases pat with
    | nil => simp [strncmp_eq]
    | cons p pat =>
      have ih2 := ih pat (fun c hc => hp c (List.mem_cons_of_mem _ hc))
      simp only [List.cons_append, strncmp_eq]
      simpa using congrArg (fun b => (c == p && b)) ih2

/-- Reading one word as the base type.  The word `w` is made of letters and starts with
neither `const` nor `volatile`; the text after it starts neither with a letter nor with
an underscore, and the text after the following spaces starts neither with a letter nor
with `<` nor with `:`.  Then `node_basic_type` succeeds, stores the word as the content
of the fresh layer and leaves the cursor after the spaces. -/
theorem node_basic_type_word (k : Nat) (w rest : List Char) (hne : w ≠ [])
    (hw : ∀ c ∈ w, isalpha c = true)
    (hc : strncmp_eq w "const".toList = false) (hv : strncmp_eq w "volatile".toList = false)
    (h1 : (isalpha (deref rest) || deref rest == '_') = false)
    (h2 : isalpha (deref (skip_spaces rest)) = false)
    (h3 : (deref (skip_spaces rest) == '<') = false)
    (h4 : (deref (skip_spaces rest) == ':') = false) :
    node_basic_type (k + 3) (w ++ rest) [{ layer_type := .type }]
      = some (true, skip_spaces rest, [{ layer_type := .type, content := w }]) := by
  have h1a : isalpha (deref rest) = false := by
    simp only [Bool.or_eq_false_iff] at h1
    exact h1.1
  have hcq : node_cv_qual (w ++ rest) [{ layer_type := .type }]
      = (false, w ++ rest, [{ layer_type := .type }]) := by
    unfold node_cv_qual
    rw [strncmp_eq_append w rest _ (by decide) h1a, strncmp_eq_append w rest _ (by decide) h1a,
      hc, hv]
    rfl
  have hname := node_name_letters w rest [] hne hw h1 h3
  have hfail := node_name_fail (skip_spaces rest) [] h2
  have hpeek : peek (skip_spaces rest) 0 = deref (skip_spaces rest) := rfl
  obtain ⟨c, w', rfl⟩ := List.exists_cons_of_ne_nil hne
  rw [node_basic_type, node_basic_type_read_word, node_cv_quals, hcq]
  simp only [hname, List.nil_append]
  rw [node_basic_type_read_word]
  simp [back_content, update_back, node_cv_quals_of_not_isalpha, h2, hfail, hpeek, h4]

theorem isdigit_facts (c : Char) (h : isdigit c = true) :
    isspace c = false ∧ c ≠ NUL ∧ c ≠ ']' ∧ c ≠ '[' := by
  simp only [isdigit, Bool.and_eq_true, decide_eq_true_eq] at h
  refine ⟨?_, ?_, ?_, ?_⟩
  · simp only [isspace, Bool.or_eq_false_iff, Bool.and_eq_false_iff, beq_eq_false_iff_ne,
      decide_eq_false_iff_not]
    omega
  · intro hc; subst hc; revert h; decide
  · intro hc; subst hc; revert h; decide
  · intro hc; subst hc; revert h; decide

theorem node_array_func_extent_digits (e rest content : List Char)
    (he : ∀ c ∈ e, isdigit c = true) :
    node_array_func_extent (e ++ ']' :: rest) 0 content = (']' :: rest, content ++ e) := by
  induction e generalizing content with
  | nil => simp [node_array_func_extent]
  | cons c e ih =>
    obtain ⟨_, h1, h2, h3⟩ := isdigit_facts c (he c (List.mem_cons_self _ _))
    have ih2 := ih (content ++ [c]) (fun c hc => he c (List.mem_cons_of_mem _ hc))
    simp only [List.cons_append, node_array_func_extent]
    simp [h1, h2, h3]
    simpa using ih2

theorem node_type_qual_group_step (k heap : Nat) (l : layer type) (tail : List Char) :
    node_type_qual (k + 12) ('(' :: '*' :: ')' :: '[' :: tail) [l] heap
      = node_array_func_tries (k + 8) 1 2 ('(' :: '*' :: ')' :: '[' :: tail) [l] heap := by
  rfl

theorem node_array_func_try_group (k heap : Nat) (l : layer type) (tail : List Char) :
    node_array_func_try (k + 7) 1 2 0 ('(' :: '*' :: ')' :: '[' :: tail)
        ('(' :: '*' :: ')' :: '[' :: tail) [l] heap
      = node_array_func_try (k + 6) 1 2 1 ('(' :: '*' :: ')' :: '[' :: tail) ('[' :: tail)
          [l, { layer_type := .pointer }] heap := by
  rfl

theorem node_array_func_try_array (k heap : Nat) (l p : layer type) (bk e : List Char)
    (hne : e ≠ []) (he : ∀ c ∈ e, isdigit c = true) :
    node_array_func_try (k + 2) 1 2 1 bk ('[' :: (e ++ [']'])) [l, p] heap
      = some (.completed [] [l, { layer_type := .array, content := e }, p] heap) := by
  obtain ⟨d, e', rfl⟩ := List.exists_cons_of_ne_nil hne
  obtain ⟨hd, _, _, _⟩ := isdigit_facts d (he d (List.mem_cons_self _ _))
  have hx := node_array_func_extent_digits (d :: e') [] [] he
  have hs : skip_spaces (d :: e' ++ [']']) = d :: e' ++ [']'] := by
    simp [skip_spaces, hd]
  rw [node_array_func_try]
  simp only [deref_cons, List.drop_succ_cons, List.drop_zero, hs, hx]
  rfl

theorem node_type_qual_group_array (k heap : Nat) (l : layer type) (e : List Char)
    (hne : e ≠ []) (he : ∀ c ∈ e, isdigit c = true) :
    node_type_qual (k + 12) ('(' :: '*' :: ')' :: '[' :: (e ++ [']'])) [l] heap
      = some (true, [], [l, { layer_type := .array, content := e }, { layer_type := .pointer }],
          heap) := by
  rw [node_type_qual_group_step, node_array_func_tries, node_array_func_try_group,
    node_array_func_try_array (k + 4) heap l _ _ e hne he]
  rfl

theorem isspace_of_isalpha (c : Char) (h : isalpha c = true) : isspace c = false := by
  simp only [isalpha, Bool.or_eq_true, Bool.and_eq_true, decide_eq_true_eq] at h
  simp only [isspace, Bool.or_eq_false_iff, Bool.and_eq_false_iff, beq_eq_false_iff_ne,
    decide_eq_false_iff_not]
  omega

theorem ne_NUL_of_isalpha (c : Char) (h : isalpha c = true) : c ≠ NUL := by
  intro hc; subst hc; revert h; decide

theorem skip_spaces_word (w rest : List Char) (hne : w ≠ []) (hw : ∀ c ∈ w, isalpha c = true) :
    skip_spaces (w ++ rest) = w ++ rest := by
  obtain ⟨c, w', rfl⟩ := List.exists_cons_of_ne_nil hne
  apply skip_spaces_of_not_isspace
  exact isspace_of_isalpha c (hw c (List.mem_cons_self _ _))

/-- Facts about a primitive keyword made of letters. -/
theorem letter_keyword_facts (w : List Char) (hw : w ∈ primitive_types)
    (hl : w.all isalpha = true) :
    w ≠ [] ∧ (∀ c ∈ w, isalpha c = true) ∧ strncmp_eq w "const".toList = false
      ∧ strncmp_eq w "volatile".toList = false := by
  refine ⟨?_, by simpa using hl, ?_, ?_⟩ <;>
    rcases mem_letter_keywords w hw hl with h | h | h | h | h | h | h | h | h | h <;>
    subst h <;> decide

theorem back_append_singleton (xs : List Char) (c : Char) : back (xs ++ [c]) = c := by
  simp [back]

theorem back_append_of_ne_nil (xs ys : List Char) (h : ys ≠ []) : back (xs ++ ys) = back ys := by
  simp [back, List.getLast?_append_of_ne_nil _ h]

theorem isalpha_back (w : List Char) (hne : w ≠ []) (hw : ∀ c ∈ w, isalpha c = true) :
    isalpha (back w) = true := by
  have h := List.getLast_mem hne
  simp only [back, List.getLast?_eq_getLast _ hne]
  exact hw _ h

theorem need_space_left_bracket (rhs : Char) : need_space '[' rhs = false := by
  rfl

theorem need_space_right_bracket (lhs : Char) : need_space lhs ']' = false := by
  unfold need_space
  split
  · rfl
  · split <;> rfl

theorem need_space_alpha_paren (lhs : Char) (h : isalpha lhs = true) :
    need_space lhs '(' = true := by
  simp [need_space, h]

/-- The Type with the layers Base(b), Array(e), Pointer is printed as `b (*)[e]`. -/
theorem to_string_pointer_to_array (b e : List Char) (hne : b ≠ [])
    (hb : ∀ c ∈ b, isalpha c = true) :
    (type.mk [{ layer_type := .type, content := b }, { layer_type := .array, content := e },
        { layer_type := .pointer }]).to_string []
      = some (b ++ " (*)[".toList ++ e ++ "]".toList) := by
  have h1 : (type.mk [{ layer_type := .type, content := b },
        { layer_type := .array, content := e }, { layer_type := .pointer }]).to_string []
      = some (join_tokens [b, ['('], ['*'], [')'], ['['], e, [']']] []) := by rfl
  rw [h1]
  have hb2 := need_space_alpha_paren _ (isalpha_back b hne hb)
  have e1 : need_space (back []) (front b) = false := by rfl
  have e3 : need_space (back (b ++ [' '] ++ ['('])) '*' = false := by
    rw [back_append_singleton]; rfl
  have e4 : need_space (back (b ++ [' '] ++ ['('] ++ ['*'])) ')' = false := by
    rw [back_append_singleton]; rfl
  have e5 : need_space (back (b ++ [' '] ++ ['('] ++ ['*'] ++ [')'])) '[' = false := by
    rw [back_append_singleton]; rfl
  have e6 : need_space (back (b ++ [' '] ++ ['('] ++ ['*'] ++ [')'] ++ ['['])) (front e)
      = false := by
    rw [back_append_singleton]; rfl
  have fc : ∀ (c : Char) (r : List Char), front (c :: r) = c := fun _ _ => rfl
  simp only [join_tokens, e1, List.nil_append, fc, hb2, if_true, e3, e4, e5, e6,
    need_space_right_bracket, Bool.false_eq_true, if_false]
  simp [String.toList]

theorem ne_NUL_of_isdigit (c : Char) (h : isdigit c = true) : c ≠ NUL :=
  (isdigit_facts c h).2.1

/-- With enough fuel the text `b (*)[e]`, for a primitive keyword `b` made of letters and
a non-empty decimal `e`, parses to the layers Base(b), Array(e), Pointer. -/
theorem parse_pointer_to_array (b e : List Char) (hb : b ∈ primitive_types)
    (hl : b.all isalpha = true) (hne : e ≠ []) (he : ∀ c ∈ e, isdigit c = true)
    (k heap : Nat) :
    type.parse (k + 13) heap (b ++ " (*)[".toList ++ e ++ "]".toList)
      = some (.mk [{ layer_type := .type, content := b }, { layer_type := .array, content := e },
          { layer_type := .pointer }], heap) := by
  obtain ⟨hbne, hbl, hbc, hbv⟩ := letter_keyword_facts b hb hl
  have hin : b ++ " (*)[".toList ++ e ++ "]".toList
      = b ++ (' ' :: '(' :: '*' :: ')' :: '[' :: (e ++ [']'])) := by
    simp [String.toList]
  have hnul : ∀ c ∈ b ++ (' ' :: '(' :: '*' :: ')' :: '[' :: (e ++ [']'])), c ≠ NUL := by
    intro c hc
    simp only [List.mem_append, List.mem_cons, List.mem_singleton, List.not_mem_nil,
      or_false] at hc
    rcases hc with h | h | h | h | h | h | h | h
    · exact ne_NUL_of_isalpha c (hbl c h)
    · subst h; decide
    · subst h; decide
    · subst h; decide
    · subst h; decide
    · subst h; decide
    · exact ne_NUL_of_isdigit c (he c h)
    · subst h; decide
  unfold type.parse
  rw [hin, c_str_of_no_NUL _ hnul, node_type]
  simp only [List.nil_append]
  rw [skip_spaces_word b _ hbne hbl,
    node_basic_type_word (k + 9) b _ hbne hbl hbc hbv (by rfl) (by rfl) (by rfl) (by rfl)]
  simp only []
  rw [show skip_spaces (' ' :: '(' :: '*' :: ')' :: '[' :: (e ++ [']']))
      = '(' :: '*' :: ')' :: '[' :: (e ++ [']']) from rfl,
    node_type_qual_group_array k heap _ e hne he]

theorem node_type_qual_star (k heap : Nat) (t : List Char) (layers : List (layer type))
    (ht : skip_spaces t = []) :
    node_type_qual (k + 4) ('*' :: t) layers heap
      = some (true, [], layers ++ [{ layer_type := .pointer }], heap) := by
  have h : node_ptr_or_ref (k + 3) ('*' :: t) layers
      = some (true, [], layers ++ [{ layer_type := .pointer }]) := by
    simp only [node_ptr_or_ref, deref_cons, List.drop_succ_cons, List.drop_zero, ht,
      beq_self_eq_true, if_true]
    rfl
  rw [node_type_qual, h]
  rfl

/-- With enough fuel the text of a primitive keyword `w` made of letters and a `*`, with
any spaces in front of the keyword, between the two and at the end, parses to the layers
Base(w), Pointer. -/
theorem parse_keyword_star (w u v t : List Char) (hw : w ∈ primitive_types)
    (hl : w.all isalpha = true) (hu : ∀ c ∈ u, c = ' ') (hv : ∀ c ∈ v, c = ' ')
    (ht : ∀ c ∈ t, c = ' ') (k heap : Nat) :
    type.parse (k + 5) heap (u ++ w ++ v ++ "*".toList ++ t)
      = some (.mk [{ layer_type := .type, content := w }, { layer_type := .pointer }], heap) := by
  obtain ⟨hwne, hwl, hwc, hwv⟩ := letter_keyword_facts w hw hl
  have hin : u ++ w ++ v ++ "*".toList ++ t = u ++ (w ++ (v ++ '*' :: t)) := by
    simp [String.toList]
  have hnul : ∀ c ∈ u ++ (w ++ (v ++ '*' :: t)), c ≠ NUL := by
    intro c hc
    simp only [List.mem_append, List.mem_cons] at hc
    rcases hc with h | h | h | h | h
    · rw [hu c h]; decide
    · exact ne_NUL_of_isalpha c (hwl c h)
    · rw [hv c h]; decide
    · subst h; decide
    · rw [ht c h]; decide
  have hs : skip_spaces (v ++ '*' :: t) = '*' :: t := by
    rw [skip_spaces_append_spaces v _ hv]
    rfl
  unfold type.parse
  rw [hin, c_str_of_no_NUL _ hnul, node_type]
  simp only [List.nil_append]
  rw [skip_spaces_append_spaces u _ hu, skip_spaces_word w _ hwne hwl,
    node_basic_type_word (k + 1) w _ hwne hwl hwc hwv
      (by rw [isalpha_deref_spaces_star v t hv, underscore_deref_spaces_star v t hv]; rfl)
      (by rw [hs]; rfl) (by rw [hs]; rfl) (by rw [hs]; rfl)]
  simp only []
  rw [hs, node_type_qual_star k heap t _ (skip_spaces_spaces t ht)]
  rfl

/-! ## Claims -/

/-- C2 (counterexample): the text `"int("` does not give the invalid Type; the Type built
from it has the one layer Base("int") and its validity test is true. -/
theorem C2_counterexample :
    type.parse 16 0 "int(".toList
        = some (.mk [{ layer_type := .type, content := "int".toList }], 0)
      ∧ (type.mk [{ layer_type := .type, content := "int".toList }]).valid = true
      ∧ (type.mk [{ layer_type := .type, content := "int".toList }]).layers.isEmpty = false :=
  ⟨by rfl, by rfl, by rfl⟩

/-- C2 (amended): with enough fuel, the text `"***"` gives the Type with no layers,
whose validity test is false, and the text `"int("` gives the valid Type with the single
layer Base("int"): the unterminated parameter list is undone and never reported. -/
theorem C2_malformed_input (k heap : Nat) :
    type.parse (k + 16) heap "***".toList = some (type.invalid, heap)
      ∧ type.invalid.layers = [] ∧ type.invalid.valid = false
      ∧ type.parse (k + 16) heap "int(".toList
          = some (.mk [{ layer_type := .type, content := "int".toList }], heap)
      ∧ (type.mk [{ layer_type := .type, content := "int".toList }]).valid = true :=
  ⟨by rfl, by rfl, by rfl, by rfl, by rfl⟩

/-- C5 (code at the failing input): on the Type with no layers `remove_const` and
`remove_volatile` change nothing, while `remove_reference` and `remove_pointer` read
`layers.back()` of the empty vector, which is undefined. -/
theorem C5_remove_on_empty :
    type.invalid.remove_const = type.invalid
      ∧ type.invalid.remove_volatile = type.invalid
      ∧ type.invalid.remove_reference = none
      ∧ type.invalid.remove_pointer = none :=
  ⟨by rfl, by rfl, by rfl, by rfl⟩

/-- C6 (counterexample): the layers of `"int (*)[4]"` are Base, Array, Pointer in this
order, which is not the order Base, Pointer, Array. -/
theorem C6_counterexample :
    (type.parse 16 0 "int (*)[4]".toList).map
        (fun r => r.1.layers.map (fun l => l.layer_type))
        = some [.type, .array, .pointer]
      ∧ (type.parse 16 0 "int (*)[4]".toList).map
        (fun r => r.1.layers.map (fun l => l.layer_type))
        ≠ some [.type, .pointer, .array] := by
  decide

/-- C6 (amended): with enough fuel, parsing places the array or function suffix layer
before the grouped pointer layer in the innermost-first layer sequence:
`"int (*)[4]"` has exactly the layers Base("int"), Array("4"), Pointer;
`"int (*)(int,double)"` has exactly Base("int"), Function(args = int, double), Pointer;
`"void (Class::*)(int)"` has exactly Base("void"), Function(args = int),
MemberPointer("Class"). -/
theorem C6_grouped_declarator_layers (k heap : Nat) :
    type.parse (k + 16) heap "int (*)[4]".toList
        = some (.mk [{ layer_type := .type, content := "int".toList },
                     { layer_type := .array, content := "4".toList },
                     { layer_type := .pointer }], heap)
      ∧ type.parse (k + 16) heap "int (*)(int,double)".toList
        = some (.mk [{ layer_type := .type, content := "int".toList },
                     { layer_type := .function,
                       arguments :=
                        [⟨heap, .mk [{ layer_type := .type, content := "int".toList }]⟩,
                         ⟨heap + 1, .mk [{ layer_type := .type, content := "double".toList }]⟩] },
                     { layer_type := .pointer }], heap + 2)
      ∧ type.parse (k + 16) heap "void (Class::*)(int)".toList
        = some (.mk [{ layer_type := .type, content := "void".toList },
                     { layer_type := .function,
                       arguments :=
                        [⟨heap, .mk [{ layer_type := .type, content := "int".toList }]⟩] },
                     { layer_type := .member_pointer, content := "Class".toList }],
                heap + 1) :=
  ⟨by rfl, by rfl, by rfl⟩

/-- C10: `add_array` appends exactly one Array layer.  The layers of `add_array(x, n)` are
the layers of `x` (the single layer Base("void") without cv flags when `x` is empty)
followed by one Array layer without cv flags and without arguments, whose content is the
decimal text of `n` when `n > 0` and empty when `n <= 0`; without an extent the content
is empty; `add_array(4)` on the default Type and on the invalid Type both give
Base("void"), Array("4"). -/
theorem C10_add_array (x : type) (n : Int) :
    (x.add_array n).layers
        = (if x.layers.isEmpty then
            [{ layer_type := .type, content := "void".toList, is_const := false,
               is_volatile := false, arguments := [] }]
          else x.layers)
          ++ [{ layer_type := .array,
                content := if 0 < n then Nat.toDigits 10 n.toNat else [],
                is_const := false, is_volatile := false, arguments := [] }]
      ∧ x.add_array.layers
        = (if x.layers.isEmpty then
            [{ layer_type := .type, content := "void".toList, is_const := false,
               is_volatile := false, arguments := [] }]
          else x.layers)
          ++ [{ layer_type := .array, content := [], is_const := false,
                is_volatile := false, arguments := [] }]
      ∧ (type.default.add_array 4).layers
        = [{ layer_type := .type, content := "void".toList },
           { layer_type := .array, content := "4".toList }]
      ∧ (type.invalid.add_array 4).layers
        = [{ layer_type := .type, content := "void".toList },
           { layer_type := .array, content := "4".toList }] := by
  obtain ⟨layers⟩ := x
  refine ⟨?_, ?_, by rfl, by rfl⟩
  · by_cases hn : 0 < n
    · cases layers <;> simp [type.add_array, type.layers, hn, detail.to_string_pos n hn]
    · cases layers <;> simp [type.add_array, type.layers, hn]
  · cases layers <;> simp [type.add_array, type.layers]

/-- C4 (counterexample): `set_datatype` with the invalid Type as its argument turns the
valid default Type into the invalid Type, and leaves the invalid Type invalid; applied to
the default Type after `add_array(3)` it leaves the single layer Array("3"), a valid Type
that `remove_pointer` turns into the invalid Type. -/
theorem C4_counterexample :
    type.default.valid = true
      ∧ (type.default.set_datatype type.invalid).valid = false
      ∧ (type.invalid.set_datatype type.invalid).valid = false
      ∧ ((type.default.add_array 3).set_datatype type.invalid).valid = true
      ∧ (((type.default.add_array 3).set_datatype type.invalid).remove_pointer).map type.valid
          = some false :=
  ⟨by rfl, by rfl, by rfl, by rfl, by rfl⟩

/-- C4 (amended): for every Type `x` (valid or invalid) and every argument the results of
`add_const`, `add_volatile`, `add_array` and `add_function` are valid, and so is the
result of `clear`; `set_datatype(t)` gives a valid Type whenever `t` is valid;
`remove_const` and `remove_volatile` keep a valid Type valid; `remove_reference` and
`remove_pointer` return a valid Type when applied to a valid Type whose first layer is a
Base layer. -/
theorem C4_mutation_validity (x t : type) (n : Int) (ps : List (shared_ptr type)) :
    x.add_const.valid = true
      ∧ x.add_volatile.valid = true
      ∧ (x.add_array n).valid = true
      ∧ (x.add_function ps).valid = true
      ∧ x.clear.valid = true
      ∧ (t.valid = true → (x.set_datatype t).valid = true)
      ∧ (x.valid = true → x.remove_const.valid = true ∧ x.remove_volatile.valid = true)
      ∧ (x.valid = true → x.layers.head?.map (fun l => l.layer_type) = some .type →
          (∃ y, x.remove_reference = some y ∧ y.valid = true)
          ∧ (∃ y, x.remove_pointer = some y ∧ y.valid = true)) := by
  obtain ⟨layers⟩ := x
  obtain ⟨tl⟩ := t
  refine ⟨?_, ?_, ?_, ?_, by rfl, ?_, ?_, ?_⟩
  · simp only [type.add_const, type.layers]
    split <;> simp [type.valid, type.layers, isEmpty_update_back] <;>
      cases layers <;> simp
  · simp only [type.add_volatile, type.layers]
    split <;> simp [type.valid, type.layers, isEmpty_update_back] <;>
      cases layers <;> simp
  · simp [type.add_array, type.valid, type.layers]
  · simp [type.add_function, type.valid, type.layers]
  · intro ht
    cases tl with
    | nil => simp [type.valid, type.layers] at ht
    | cons a rest => simp [type.set_datatype, type.valid, type.layers]
  · intro hx
    cases layers with
    | nil => simp [type.valid, type.layers] at hx
    | cons a rest =>
      simp [type.remove_const, type.remove_volatile, type.valid, type.layers,
        isEmpty_update_back]
  · intro hx hbase
    cases layers with
    | nil => simp [type.valid, type.layers] at hx
    | cons a rest =>
      simp only [type.layers, List.head?_cons, Option.map_some', Option.some.injEq] at hbase
      cases rest with
      | nil =>
        simp [type.remove_reference, type.remove_pointer, back_type, type.layers, hbase,
          type.valid]
      | cons b rest =>
        constructor
        · simp only [type.remove_reference, type.layers]
          split
          · rename_i h
            simp [back_type] at h
          · exact ⟨_, rfl, by simp [type.valid, type.layers]⟩
          · exact ⟨_, rfl, by simp [type.valid, type.layers]⟩
          · exact ⟨_, rfl, by simp [type.valid, type.layers]⟩
        · simp only [type.remove_pointer, type.layers]
          split
          · rename_i h
            simp [back_type] at h
          · exact ⟨_, rfl, by simp [type.valid, type.layers]⟩
          · exact ⟨_, rfl, by simp [type.valid, type.layers]⟩
          · exact ⟨_, rfl, by simp [type.valid, type.layers]⟩
          · exact ⟨_, rfl, by simp [type.valid, type.layers]⟩
          · exact ⟨_, rfl, by simp [type.valid, type.layers]⟩

/-- C4 (witness): the amended claim at the default Type with a valid argument. -/
theorem C4_mutation_validity_witness :
    type.default.valid = true
      ∧ type.default.layers.head?.map (fun l => l.layer_type) = some .type
      ∧ (type.default.set_datatype type.default).valid = true
      ∧ type.default.remove_const.valid = true
      ∧ (∃ y, type.default.remove_pointer = some y ∧ y.valid = true) :=
  have h := C4_mutation_validity type.default type.default 4 []
  ⟨by rfl, by rfl, h.2.2.2.2.2.1 (by rfl), (h.2.2.2.2.2.2.1 (by rfl)).1,
    (h.2.2.2.2.2.2.2 (by rfl) (by rfl)).2⟩

/-- C8: cv queries are layer-local.  For every primitive keyword `w` made of letters, with
enough fuel the text `"const " ++ w ++ "*"` parses to exactly the layers
Base(content `w`, const, not volatile), Pointer(not const, not volatile), so `is_pointer()`
is true and `is_const()` is false. -/
theorem C8_cv_queries_layer_local (w : List Char) (hw : w ∈ primitive_types)
    (hl : w.all isalpha = true) (k heap : Nat) :
    ∃ t, type.parse (k + 16) heap ("const ".toList ++ w ++ "*".toList) = some (t, heap)
      ∧ t.layers = [{ layer_type := .type, content := w, is_const := true,
                      is_volatile := false, arguments := [] },
                    { layer_type := .pointer, content := [], is_const := false,
                      is_volatile := false, arguments := [] }]
      ∧ t.is_pointer = true ∧ t.is_const = false := by
  rcases mem_letter_keywords w hw hl with h | h | h | h | h | h | h | h | h | h <;>
    subst h <;> exact ⟨_, rfl, rfl, rfl, rfl⟩

/-- C8 (witness): the text `"const int*"`. -/
theorem C8_cv_queries_layer_local_witness :
    "int".toList ∈ primitive_types ∧ "int".toList.all isalpha = true
      ∧ ∃ t, type.parse 16 0 "const int*".toList = some (t, 0)
        ∧ t.layers = [{ layer_type := .type, content := "int".toList, is_const := true },
                      { layer_type := .pointer }]
        ∧ t.is_pointer = true ∧ t.is_const = false :=
  ⟨by decide, by decide, C8_cv_queries_layer_local "int".toList (by decide) (by decide) 0 0⟩

/-- C3 (code at the failing input): two independent parses of `"void (int)"`, the second
one made while the first Type is alive, agree in every layer and in the value of every
argument Type, and yet `operator==` is false and `operator!=` is true: the argument lists
are compared by the addresses the `shared_ptr` hold. -/
theorem C3_independent_parses_unequal (k heap : Nat) :
    ∃ a b, type.parse (k + 16) heap "void (int)".toList = some (a, heap + 1)
      ∧ type.parse (k + 16) (heap + 1) "void (int)".toList = some (b, heap + 2)
      ∧ a.struct_eq b = true
      ∧ a.eq b = false ∧ a.ne b = true := by
  refine ⟨.mk [{ layer_type := .type, content := "void".toList },
               { layer_type := .function,
                 arguments := [⟨heap, .mk [{ layer_type := .type, content := "int".toList }]⟩] }],
          .mk [{ layer_type := .type, content := "void".toList },
               { layer_type := .function,
                 arguments :=
                  [⟨heap + 1, .mk [{ layer_type := .type, content := "int".toList }]⟩] }],
          by rfl, by rfl, by rfl, ?_, ?_⟩ <;>
    simp [type.eq, type.ne, type.layers, vector_eq, layer.eq, shared_ptr.eq]

/-- C1 (code at the failing input): `x` is the default Type after
`add_function` with one parameter, the default Type, held at the address `a`.
`to_string(x)` is `"void (void)"`; parsing that text while `x` is alive gives a Type with
the same layers and the same argument value as `x`, and yet `operator==` between it and
`x` is false, since the parsed argument lives at a new address. -/
theorem C1_round_trip_not_equal (k a heap : Nat) (h : a < heap) :
    (type.default.add_function [⟨a, type.default⟩]).to_string [] = some "void (void)".toList
      ∧ ∃ y, type.parse (k + 16) heap "void (void)".toList = some (y, heap + 1)
        ∧ y.struct_eq (type.default.add_function [⟨a, type.default⟩]) = true
        ∧ y.eq (type.default.add_function [⟨a, type.default⟩]) = false := by
  have hne : heap ≠ a := by omega
  refine ⟨by rfl,
    .mk [{ layer_type := .type, content := "void".toList },
         { layer_type := .function,
           arguments := [⟨heap, .mk [{ layer_type := .type, content := "void".toList }]⟩] }],
    by rfl, by rfl, ?_⟩
  simp [type.eq, type.layers, vector_eq, layer.eq, shared_ptr.eq, type.add_function,
    type.default, hne]

/-- C1 (witness): the parameter is held at address 0 and the parser allocates from 1. -/
theorem C1_round_trip_not_equal_witness :
    (0 : Nat) < 1
      ∧ (type.default.add_function [⟨0, type.default⟩]).to_string [] = some "void (void)".toList
      ∧ ∃ y, type.parse 16 1 "void (void)".toList = some (y, 2)
        ∧ y.struct_eq (type.default.add_function [⟨0, type.default⟩]) = true
        ∧ y.eq (type.default.add_function [⟨0, type.default⟩]) = false :=
  ⟨by decide, C1_round_trip_not_equal 0 0 1 (by decide)⟩

/-- C7: the serializer re-inserts the grouping parentheses around a pointer that follows
an array layer.  For every primitive keyword `b` made of letters and every non-empty
decimal extent text `e`, with enough fuel the text `b ++ " (*)[" ++ e ++ "]"` parses, and
`to_string` of the parsed Type is exactly that text again. -/
theorem C7_pointer_to_array_text (b e : List Char) (hb : b ∈ primitive_types)
    (hl : b.all isalpha = true) (hne : e ≠ []) (he : ∀ c ∈ e, isdigit c = true)
    (k heap : Nat) :
    ∃ t, type.parse (k + 13) heap (b ++ " (*)[".toList ++ e ++ "]".toList) = some (t, heap)
      ∧ t.to_string [] = some (b ++ " (*)[".toList ++ e ++ "]".toList) := by
  obtain ⟨hbne, hbl, _, _⟩ := letter_keyword_facts b hb hl
  exact ⟨_, parse_pointer_to_array b e hb hl hne he k heap,
    to_string_pointer_to_array b e hbne hbl⟩

/-- C7 (witness): the text `"int (*)[4]"`. -/
theorem C7_pointer_to_array_text_witness :
    "int".toList ∈ primitive_types ∧ "int".toList.all isalpha = true ∧ "4".toList ≠ []
      ∧ (∀ c ∈ "4".toList, isdigit c = true)
      ∧ ∃ t, type.parse 13 0 ("int".toList ++ " (*)[".toList ++ "4".toList ++ "]".toList)
            = some (t, 0)
          ∧ t.to_string [] = some ("int".toList ++ " (*)[".toList ++ "4".toList ++ "]".toList) :=
  ⟨by decide, by decide, by decide, by decide,
    C7_pointer_to_array_text "int".toList "4".toList (by decide) (by decide) (by decide)
      (by decide) 0 0⟩

/-- C9: parsing is insensitive to optional whitespace.  For every primitive keyword `w`
made of letters and all strings `u`, `v`, `t` of space characters, with enough fuel the
texts `u ++ w ++ v ++ "*" ++ t` and `w ++ "*"` both parse, and the two Types compare
equal with `operator==`. -/
theorem C9_whitespace_insensitive (w u v t : List Char) (hw : w ∈ primitive_types)
    (hl : w.all isalpha = true) (hu : ∀ c ∈ u, c = ' ') (hv : ∀ c ∈ v, c = ' ')
    (ht : ∀ c ∈ t, c = ' ') (k heap : Nat) :
    ∃ a b, type.parse (k + 5) heap (u ++ w ++ v ++ "*".toList ++ t) = some (a, heap)
      ∧ type.parse (k + 5) heap (w ++ "*".toList) = some (b, heap)
      ∧ a.eq b = true := by
  have h1 := parse_keyword_star w u v t hw hl hu hv ht k heap
  have h2 := parse_keyword_star w [] [] [] hw hl (by simp) (by simp) (by simp) k heap
  simp only [List.nil_append, List.append_nil] at h2
  refine ⟨_, _, h1, h2, ?_⟩
  simp [type.eq, type.layers, vector_eq, layer.eq]

/-- C9 (witness): the texts `"int *"` and `"int*"`. -/
theorem C9_whitespace_insensitive_witness :
    "int".toList ∈ primitive_types ∧ "int".toList.all isalpha = true
      ∧ (∀ c ∈ ([] : List Char), c = ' ') ∧ (∀ c ∈ " ".toList, c = ' ')
      ∧ ∃ a b, type.parse 5 0 ([] ++ "int".toList ++ " ".toList ++ "*".toList ++ []) = some (a, 0)
          ∧ type.parse 5 0 ("int".toList ++ "*".toList) = some (b, 0)
          ∧ a.eq b = true :=
  ⟨by decide, by decide, by decide, by decide,
    C9_whitespace_insensitive "int".toList [] " ".toList [] (by decide) (by decide) (by decide)
      (by decide) (by decide) 0 0⟩

theorem update_back_append_singleton {α : Type} (f : α → α) (init : List α) (l : α) :
    update_back f (init ++ [l]) = init ++ [f l] := by
  induction init with
  | nil => rfl
  | cons a init ih =>
    cases init with
    | nil => rfl
    | cons b init =>
      have h : update_back f (a :: b :: (init ++ [l])) = a :: update_back f (b :: (init ++ [l])) :=
        rfl
      simp only [List.cons_append] at ih ⊢
      rw [h, ih]

theorem back_type_append_singleton (init : List (layer type)) (l : layer type) :
    back_type (init ++ [l]) = some l.layer_type := by
  simp [back_type]

/-- C11: `add_const` and `add_volatile` touch at most one flag of the outermost layer.  A
non-empty Type has the layers `init ++ [l]`.  `add_const` (resp. `add_volatile`) keeps the
number of layers, keeps `init`, and replaces `l` by `l` with `is_const` (resp.
`is_volatile`) set when the kind of `l` is Base, Pointer or MemberPointer; when the kind
is LValueRef, RValueRef, Array or Function the Type is unchanged. -/
theorem C11_add_cv_outermost (init : List (layer type)) (l : layer type) :
    ((type.mk (init ++ [l])).add_const.layers.length = (init ++ [l]).length
        ∧ (type.mk (init ++ [l])).add_volatile.layers.length = (init ++ [l]).length)
      ∧ ((l.layer_type = .type ∨ l.layer_type = .pointer ∨ l.layer_type = .member_pointer) →
          (type.mk (init ++ [l])).add_const = .mk (init ++ [{ l with is_const := true }])
          ∧ (type.mk (init ++ [l])).add_volatile
              = .mk (init ++ [{ l with is_volatile := true }]))
      ∧ ((l.layer_type = .lvalue ∨ l.layer_type = .rvalue ∨ l.layer_type = .array
            ∨ l.layer_type = .function) →
          (type.mk (init ++ [l])).add_const = .mk (init ++ [l])
          ∧ (type.mk (init ++ [l])).add_volatile = .mk (init ++ [l])) := by
  have hne : (init ++ [l]).isEmpty = false := by simp
  have hc : ∀ k, l.layer_type = k →
      (type.mk (init ++ [l])).add_const
        = (match k with
          | .type | .pointer | .member_pointer => .mk (init ++ [{ l with is_const := true }])
          | _ => .mk (init ++ [l])) := by
    intro k hk
    simp only [type.add_const, type.layers, hne, Bool.false_eq_true, if_false,
      back_type_append_singleton, hk, update_back_append_singleton]
    cases k <;> rfl
  have hv : ∀ k, l.layer_type = k →
      (type.mk (init ++ [l])).add_volatile
        = (match k with
          | .type | .pointer | .member_pointer => .mk (init ++ [{ l with is_volatile := true }])
          | _ => .mk (init ++ [l])) := by
    intro k hk
    simp only [type.add_volatile, type.layers, hne, Bool.false_eq_true, if_false,
      back_type_append_singleton, hk, update_back_append_singleton]
    cases k <;> rfl
  refine ⟨⟨?_, ?_⟩, ?_, ?_⟩
  · rw [hc _ rfl]; cases l.layer_type <;> simp [type.layers]
  · rw [hv _ rfl]; cases l.layer_type <;> simp [type.layers]
  · rintro (h | h | h) <;> exact ⟨by rw [hc _ h], by rw [hv _ h]⟩
  · rintro (h | h | h | h) <;> exact ⟨by rw [hc _ h], by rw [hv _ h]⟩

/-- C11 (witness): the Type with the layers Base("int"), Pointer and the Type with the
layers Base("int"), Array("4"). -/
theorem C11_add_cv_outermost_witness :
    (type.mk ([{ layer_type := .type, content := "int".toList }]
        ++ [{ layer_type := .pointer }])).add_const
        = .mk ([{ layer_type := .type, content := "int".toList }]
            ++ [{ layer_type := .pointer, is_const := true }])
      ∧ (type.mk ([{ layer_type := .type, content := "int".toList }]
          ++ [{ layer_type := .array, content := "4".toList }])).add_volatile
        = .mk ([{ layer_type := .type, content := "int".toList }]
            ++ [{ layer_type := .array, content := "4".toList }]) :=
  ⟨((C11_add_cv_outermost [{ layer_type := .type, content := "int".toList }]
      { layer_type := .pointer }).2.1 (Or.inr (Or.inl rfl))).1,
   ((C11_add_cv_outermost [{ layer_type := .type, content := "int".toList }]
      { layer_type := .array, content := "4".toList }).2.2 (Or.inr (Or.inr (Or.inl rfl)))).2⟩

theorem vector_eq_refl {α : Type} (elem_eq : α → α → Bool) (l : List α)
    (h : ∀ a ∈ l, elem_eq a a = true) : vector_eq elem_eq l l = true := by
  induction l with
  | nil => rfl
  | cons a l ih =>
    simp only [vector_eq, Bool.and_eq_true]
    exact ⟨h a (List.mem_cons_self _ _), ih (fun b hb => h b (List.mem_cons_of_mem _ hb))⟩

theorem layer_eq_refl (l : layer type) : layer.eq l l = true := by
  simp [layer.eq, vector_eq_refl shared_ptr.eq l.arguments (fun a _ => by simp [shared_ptr.eq])]

/-- The comparison `operator==` of a Type with itself is true. -/
theorem type_eq_refl (x : type) : x.eq x = true :=
  vector_eq_refl layer.eq x.layers (fun l _ => layer_eq_refl l)

/-- C12: `remove_pointer` pops exactly when the outermost layer is pointer-like.  A
non-empty Type has the layers `init ++ [l]`; `remove_pointer` gives the Type with the
layers `init` when the kind of `l` is Pointer, MemberPointer, Function or Array, and the
Type unchanged otherwise.  Consequently, for every valid Type `x`,
`remove_pointer(add_array(x, n))` and `remove_pointer(add_function(x, ps))` are `x`, which
compares equal to `x` with `operator==`. -/
theorem C12_remove_pointer (init : List (layer type)) (l : layer type) (x : type) (n : Int)
    (ps : List (shared_ptr type)) :
    ((l.layer_type = .pointer ∨ l.layer_type = .member_pointer ∨ l.layer_type = .function
          ∨ l.layer_type = .array) →
        (type.mk (init ++ [l])).remove_pointer = some (.mk init))
      ∧ ((l.layer_type = .type ∨ l.layer_type = .lvalue ∨ l.layer_type = .rvalue) →
        (type.mk (init ++ [l])).remove_pointer = some (.mk (init ++ [l])))
      ∧ (x.valid = true →
        (x.add_array n).remove_pointer = some x ∧ (x.add_function ps).remove_pointer = some x
          ∧ (∃ y, (x.add_array n).remove_pointer = some y ∧ y.eq x = true)
          ∧ (∃ y, (x.add_function ps).remove_pointer = some y ∧ y.eq x = true)) := by
  have hp : ∀ k, l.layer_type = k →
      (type.mk (init ++ [l])).remove_pointer
        = (match k with
          | .pointer | .member_pointer | .function | .array => some (.mk init)
          | _ => some (.mk (init ++ [l]))) := by
    intro k hk
    simp only [type.remove_pointer, type.layers, back_type_append_singleton, hk,
      List.dropLast_concat]
    cases k <;> rfl
  refine ⟨?_, ?_, ?_⟩
  · rintro (h | h | h | h) <;> rw [hp _ h]
  · rintro (h | h | h) <;> rw [hp _ h]
  · intro hx
    obtain ⟨layers⟩ := x
    have hne : layers.isEmpty = false := by
      simpa [type.valid, type.layers] using hx
    have ha : (type.mk layers).add_array n
        = .mk (layers ++ [{ layer_type := .array,
                            content := if n > 0 then detail.to_string n else [] }]) := by
      simp [type.add_array, type.layers, hne]
    have hf : (type.mk layers).add_function ps
        = .mk (layers ++ [{ layer_type := .function, content := [], is_const := false,
                            is_volatile := false, arguments := ps }]) := by
      simp [type.add_function, type.layers, hne]
    have h1 : ((type.mk layers).add_array n).remove_pointer = some (.mk layers) := by
      rw [ha]
      simp [type.remove_pointer, type.layers, back_type_append_singleton]
    have h2 : ((type.mk layers).add_function ps).remove_pointer = some (.mk layers) := by
      rw [hf]
      simp [type.remove_pointer, type.layers, back_type_append_singleton]
    exact ⟨h1, h2, ⟨_, h1, type_eq_refl _⟩, ⟨_, h2, type_eq_refl _⟩⟩

/-- C12 (witness): the default Type, `add_array(4)` and `remove_pointer`. -/
theorem C12_remove_pointer_witness :
    type.default.valid = true
      ∧ (type.default.add_array 4).remove_pointer = some type.default
      ∧ (∃ y, (type.default.add_function []).remove_pointer = some y
          ∧ y.eq type.default = true) :=
  have h := (C12_remove_pointer [] { layer_type := .type } type.default 4 []).2.2 (by rfl)
  ⟨by rfl, h.1, h.2.2.2⟩

/-- C13 (counterexample): a digit on the left never asks for a space although it is
alphanumeric; `*` on the left asks for a space in front of a letter although it is neither
alphanumeric nor `:`; `:` on the left asks for no space in front of `*`. -/
theorem C13_counterexample :
    (need_space '1' 'a' = false ∧ need_space_spec '1' 'a' = true)
      ∧ (need_space '*' 'a' = true ∧ need_space_spec '*' 'a' = false)
      ∧ (need_space ':' '*' = false ∧ need_space_spec ':' '*' = true) := by
  decide

/-- C13 (amended): `need_space(l, r)` is true iff `l` is a letter and `r` is a letter, `*`,
`(` or `:`, or `l` is `*`, `)` or `:` and `r` is a letter.  In the output of `to_string`,
between a non-empty token `a` and the token `b` that follows it, exactly one space is put
iff `need_space` holds for the last character of `a` and the first character of `b`;
otherwise `b` follows `a` directly. -/
theorem C13_spacing_rule (l r : Char) (a b output : List Char) (rest : List (List Char))
    (ha : a ≠ []) :
    (need_space l r = true ↔
        (isalpha l = true ∧ (isalpha r = true ∨ r = '*' ∨ r = '(' ∨ r = ':'))
          ∨ ((l = '*' ∨ l = ')' ∨ l = ':') ∧ isalpha r = true))
      ∧ join_tokens (a :: b :: rest) output
        = join_tokens rest
            ((if need_space (back output) (front a) then output ++ [' '] else output) ++ a
              ++ (if need_space (back a) (front b) then [' '] else []) ++ b) := by
  constructor
  · unfold need_space
    by_cases hl : isalpha l = true
    · simp only [hl, if_true, Bool.or_eq_true, beq_iff_eq, true_and]
      tauto
    · simp only [hl, Bool.false_eq_true, if_false, false_and, false_or]
      by_cases h2 : (l == '*' || l == ')' || l == ':') = true
      · simp only [h2, if_true]
        simp only [Bool.or_eq_true, beq_iff_eq] at h2
        tauto
      · simp only [h2, Bool.false_eq_true, if_false, false_iff]
        simp only [Bool.or_eq_true, beq_iff_eq] at h2
        tauto
  · simp only [join_tokens]
    rw [back_append_of_ne_nil _ a ha]
    split <;> simp

/-- C13 (witness): the letter `t` and `*` (a space), and the tokens `int`, `*` after the
empty output. -/
theorem C13_spacing_rule_witness :
    "int".toList ≠ []
      ∧ need_space 't' '*' = true
      ∧ join_tokens ["int".toList, "*".toList] [] = "int *".toList :=
  have h := C13_spacing_rule 't' '*' "int".toList "*".toList [] [] (by decide)
  ⟨by decide, h.1.mpr (Or.inl ⟨by decide, Or.inr (Or.inl rfl)⟩), by rw [h.2]; decide⟩

theorem emplace_one {α : Type} (b s : α) (cur : List α) : emplace (b :: cur) 1 s = b :: s :: cur :=
  rfl

/-- The loop over the arguments of a function layer, after its first round: every text
is put in front, followed by a comma. -/
theorem emplace_arguments_rest (b : List Char) (rs cur : List (List Char)) :
    emplace_arguments 1 rs false (b :: cur)
      = b :: (rs.reverse.flatMap (fun s => [s, ",".toList]) ++ cur) := by
  induction rs generalizing cur with
  | nil => rfl
  | cons s rs ih =>
    simp only [emplace_arguments, Bool.not_false, if_true, emplace_one]
    rw [ih]
    simp

theorem intersperse_concat (sep : List Char) (init : List (List Char)) (last : List Char) :
    (init ++ [last]).intersperse sep = init.flatMap (fun s => [s, sep]) ++ [last] := by
  induction init with
  | nil => rfl
  | cons a init ih =>
    cases init with
    | nil => rfl
    | cons a2 init =>
      have h : (a :: a2 :: (init ++ [last])).intersperse sep
          = a :: sep :: (a2 :: (init ++ [last])).intersperse sep := rfl
      simp only [List.cons_append] at ih ⊢
      rw [h, ih]
      simp

/-- The tokens of a function layer: the texts of the arguments in order, separated by
commas. -/
theorem emplace_arguments_eq (b : List Char) (strs cur : List (List Char)) :
    emplace_arguments 1 strs.reverse true (b :: cur)
      = b :: (strs.intersperse ",".toList ++ cur) := by
  rcases List.eq_nil_or_concat strs with h | ⟨init, last, h⟩
  · subst h; rfl
  · subst h
    rw [List.concat_eq_append, List.reverse_append, List.reverse_singleton,
      List.singleton_append, emplace_arguments]
    simp only [Bool.not_true, Bool.false_eq_true, if_false, emplace_one]
    rw [emplace_arguments_rest, List.reverse_reverse, intersperse_concat]
    simp

theorem to_string_arguments_eq (args : List (shared_ptr type)) (strs : List (List Char))
    (h : args.map (fun a => a.pointee.to_string []) = strs.map some) :
    to_string_arguments args = some strs := by
  induction args generalizing strs with
  | nil =>
    cases strs with
    | nil => rfl
    | cons s strs => simp at h
  | cons a args ih =>
    cases strs with
    | nil => simp at h
    | cons s strs =>
      simp only [List.map_cons, List.cons.injEq] at h
      obtain ⟨addr, t⟩ := a
      have h1 : to_string_argument ⟨addr, t⟩ = some s := by
        rw [to_string_argument]; exact h.1
      rw [to_string_arguments, h1, ih strs h.2]

theorem need_space_comma_right (lhs : Char) : need_space lhs ',' = false := by
  unfold need_space
  split
  · rfl
  · split <;> rfl

theorem need_space_paren_right (lhs : Char) : need_space lhs ')' = false := by
  unfold need_space
  split
  · rfl
  · split <;> rfl

theorem need_space_of_back_open (out : List Char) (rhs : Char)
    (h : back out = '(' ∨ back out = ',') : need_space (back out) rhs = false := by
  rcases h with h | h <;> rw [h] <;> rfl

/-- The text of a parameter list after the opening parenthesis or after a comma: the
texts separated by commas, then the closing parenthesis, with no space anywhere. -/
theorem join_tokens_arguments (strs : List (List Char)) (out : List Char)
    (h : back out = '(' ∨ back out = ',') :
    join_tokens (strs.intersperse ",".toList ++ [")".toList]) out
      = out ++ ",".toList.intercalate strs ++ ")".toList := by
  induction strs generalizing out with
  | nil =>
    simp [join_tokens, front, deref, need_space_paren_right, List.intercalate]
  | cons s strs ih =>
    cases strs with
    | nil =>
      simp [join_tokens, front, deref, need_space_paren_right, need_space_of_back_open out _ h,
        List.intercalate]
    | cons s2 strs =>
      have hi : (s :: s2 :: strs).intersperse ",".toList
          = s :: ",".toList :: (s2 :: strs).intersperse ",".toList := rfl
      have hc : ",".toList.intercalate (s :: s2 :: strs)
          = s ++ ",".toList ++ ",".toList.intercalate (s2 :: strs) := by
        simp [List.intercalate]
      rw [hi, List.cons_append, List.cons_append, join_tokens, join_tokens,
        need_space_of_back_open out _ h]
      have hf : front ",".toList = ',' := rfl
      rw [hf, need_space_comma_right]
      simp only [Bool.false_eq_true, if_false]
      rw [ih (out ++ s ++ ",".toList) (Or.inr (by
        show back (out ++ s ++ [',']) = ','
        exact back_append_singleton _ _)), hc]
      simp

theorem isalpha_back_primitive (b : List Char) (hb : b ∈ primitive_types) :
    isalpha (back b) = true := by
  revert b
  decide

/-- C14: function layers are serialized with their parameters in declaration order.  The
Type has the layers Base(b), Function(args) with `b` a primitive keyword and no cv flags,
and `strs` are the texts `to_string()` of the arguments in order.  Then `to_string()` is
made of the tokens `b`, `(`, the texts of `strs` in that order separated by `,` tokens,
and `)`, joined by the spacing rule; this is the text `b`, a space, `(`, the texts
separated by commas, `)`; without arguments it is `b` followed by ` ()`. -/
theorem C14_function_text (b : List Char) (args : List (shared_ptr type))
    (strs : List (List Char)) (hb : b ∈ primitive_types)
    (hargs : args.map (fun a => a.pointee.to_string []) = strs.map some) :
    (type.mk [{ layer_type := .type, content := b },
        { layer_type := .function, arguments := args }]).to_string []
        = some (join_tokens
            (b :: "(".toList :: (strs.intersperse ",".toList ++ [")".toList])) [])
      ∧ (type.mk [{ layer_type := .type, content := b },
          { layer_type := .function, arguments := args }]).to_string []
        = some (b ++ " (".toList ++ ",".toList.intercalate strs ++ ")".toList)
      ∧ (args = [] →
        (type.mk [{ layer_type := .type, content := b },
          { layer_type := .function, arguments := args }]).to_string []
        = some (b ++ " ()".toList)) := by
  have hts : (type.mk [{ layer_type := .type, content := b },
        { layer_type := .function, arguments := args }]).to_string []
        = some (join_tokens
            (b :: "(".toList :: (strs.intersperse ",".toList ++ [")".toList])) []) := by
    simp only [type.to_string, to_string_layers, to_string_layer,
      to_string_arguments_eq args strs hargs, to_string_function]
    have h0 : (to_string_base { layer_type := .type, content := b }
        { result := [], last_layer := none, insert_pos := 0 })
        = { result := [b], last_layer := none, insert_pos := 1 } := rfl
    simp only [h0, emplace_one, emplace_arguments_eq, to_string_finish]
    rfl
  have htext : join_tokens
      (b :: "(".toList :: (strs.intersperse ",".toList ++ [")".toList])) []
      = b ++ " (".toList ++ ",".toList.intercalate strs ++ ")".toList := by
    have h1 : need_space (back []) (front b) = false := rfl
    have h2 : need_space (back ([] ++ b)) (front "(".toList) = true := by
      rw [List.nil_append]
      exact need_space_alpha_paren _ (isalpha_back_primitive b hb)
    rw [join_tokens, h1, join_tokens]
    simp only [Bool.false_eq_true, if_false]
    rw [h2]
    simp only [if_true]
    rw [join_tokens_arguments strs _ (Or.inl (by
      show back ([] ++ b ++ [' '] ++ ['(']) = '('
      exact back_append_singleton _ _))]
    simp
  refine ⟨hts, by rw [hts, htext], ?_⟩
  intro ha
  subst ha
  cases strs with
  | nil => rw [hts, htext]; simp [List.intercalate]
  | cons s strs => simp at hargs

/-- C14 (witness): the Type with the layers Base("void"), Function(args = int, double). -/
theorem C14_function_text_witness :
    "void".toList ∈ primitive_types
      ∧ (type.mk [{ layer_type := .type, content := "void".toList },
          { layer_type := .function,
            arguments := [⟨0, .mk [{ layer_type := .type, content := "int".toList }]⟩,
                          ⟨1, .mk [{ layer_type := .type, content := "double".toList }]⟩] }]
          ).to_string []
        = some ("void".toList ++ " (".toList
            ++ ",".toList.intercalate ["int".toList, "double".toList] ++ ")".toList) :=
  ⟨by decide,
    (C14_function_text "void".toList
      [⟨0, .mk [{ layer_type := .type, content := "int".toList }]⟩,
       ⟨1, .mk [{ layer_type := .type, content := "double".toList }]⟩]
      ["int".toList, "double".toList] (by decide) (by rfl)).2.1⟩

theorem need_space_bracket_right (lhs : Char) : need_space lhs '[' = false := by
  unfold need_space
  split
  · rfl
  · split <;> rfl

/-- The loop of `to_string` over array layers: every layer puts its three tokens right
after the first token. -/
theorem to_string_layers_arrays (b : List Char) (es : List (List Char))
    (tail : List (List Char)) (last : Option (layer type)) :
    ∃ st, to_string_layers (es.map (fun e => { layer_type := .array, content := e }))
          { result := b :: tail, last_layer := last, insert_pos := 1 } = some st
      ∧ st.result
          = b :: (es.reverse.flatMap (fun e => ["[".toList, e, "]".toList]) ++ tail)
      ∧ st.insert_pos = 1 := by
  induction es generalizing tail last with
  | nil => exact ⟨_, rfl, by simp, rfl⟩
  | cons e es ih =>
    obtain ⟨st, h1, h2, h3⟩ := ih ("[".toList :: e :: "]".toList :: tail)
      (some { layer_type := .array, content := e })
    refine ⟨st, ?_, ?_, h3⟩
    · rw [← h1]
      rfl
    · rw [h2]
      simp

/-- The text of the tokens of array layers: the brackets and the extents, with no space
anywhere. -/
theorem join_tokens_arrays (es : List (List Char)) (out : List Char) :
    join_tokens (es.flatMap (fun e => ["[".toList, e, "]".toList])) out
      = out ++ es.flatMap (fun e => "[".toList ++ e ++ "]".toList) := by
  induction es generalizing out with
  | nil => simp [join_tokens]
  | cons e es ih =>
    have h1 : need_space (back out) (front "[".toList) = false := need_space_bracket_right _
    have h2 : need_space (back (out ++ "[".toList)) (front e) = false := by
      show need_space (back (out ++ ['['])) (front e) = false
      rw [back_append_singleton]
      rfl
    have h3 : ∀ o, need_space (back o) (front "]".toList) = false :=
      fun o => need_space_right_bracket _
    rw [List.flatMap_cons, List.cons_append, List.cons_append, List.cons_append, join_tokens, h1,
      join_tokens]
    simp only [Bool.false_eq_true, if_false]
    rw [h2, join_tokens]
    simp only [Bool.false_eq_true, if_false]
    rw [h3, List.nil_append]
    simp only [Bool.false_eq_true, if_false]
    rw [ih]
    simp

/-- C15: a supplied declarator name is bound at the innermost insertion point.  The Type
has the layers Base(b), with `b` a primitive keyword and no cv flags, followed by Array
layers with the extents `es`, innermost first.  For a non-empty name `n` made of letters
`to_string(n)` is `b`, a space, `n`, and the bracketed extents, outermost first; with the
empty name, which is also the default of the parameter, it is `b` and the bracketed
extents. -/
theorem C15_name_binding (b n : List Char) (es : List (List Char)) (hb : b ∈ primitive_types)
    (hne : n ≠ []) (hn : ∀ c ∈ n, isalpha c = true) :
    (type.mk ({ layer_type := .type, content := b }
        :: es.map (fun e => { layer_type := .array, content := e }))).to_string n
        = some (b ++ " ".toList ++ n
            ++ es.reverse.flatMap (fun e => "[".toList ++ e ++ "]".toList))
      ∧ (type.mk ({ layer_type := .type, content := b }
          :: es.map (fun e => { layer_type := .array, content := e }))).to_string "".toList
        = some (b ++ es.reverse.flatMap (fun e => "[".toList ++ e ++ "]".toList)) := by
  obtain ⟨st, h1, h2, h3⟩ := to_string_layers_arrays b es []
    (some { layer_type := .type, content := b })
  have hl : ∀ name, (type.mk ({ layer_type := .type, content := b }
        :: es.map (fun e => { layer_type := .array, content := e }))).to_string name
      = some (to_string_finish name st) := by
    intro name
    rw [type.to_string, to_string_layers]
    have h0 : to_string_layer { layer_type := .type, content := b }
        { result := [], last_layer := none, insert_pos := 0 }
        = some { result := [b], last_layer := some { layer_type := .type, content := b },
                 insert_pos := 1 } := rfl
    rw [h0]
    simp only [h1]
  have hb1 : need_space (back []) (front b) = false := rfl
  constructor
  · rw [hl]
    obtain ⟨c, n', rfl⟩ := List.exists_cons_of_ne_nil hne
    have hc : isalpha c = true := hn c (List.mem_cons_self _ _)
    have hsp : need_space (back b) c = true := by
      simp [need_space, isalpha_back_primitive b hb, hc]
    have hfin : to_string_finish (c :: n') st
        = join_tokens (b :: (c :: n')
            :: es.reverse.flatMap (fun e => ["[".toList, e, "]".toList])) [] := by
      simp [to_string_finish, h2, h3, emplace_one]
    have hfr : front (c :: n') = c := rfl
    rw [hfin, join_tokens, hb1, join_tokens]
    simp only [Bool.false_eq_true, if_false, List.nil_append]
    rw [hfr, hsp]
    simp only [if_true]
    rw [join_tokens_arrays]
    simp
  · rw [hl]
    have hfin : to_string_finish "".toList st
        = join_tokens (b :: es.reverse.flatMap (fun e => ["[".toList, e, "]".toList])) [] := by
      simp [to_string_finish, h2]
    rw [hfin, join_tokens, hb1]
    simp only [Bool.false_eq_true, if_false, List.nil_append]
    rw [join_tokens_arrays]

/-- C15 (witness): the Type with the layers Base("int"), Array("4"), Array("3") and the
name `myVar`. -/
theorem C15_name_binding_witness :
    "int".toList ∈ primitive_types ∧ "myVar".toList ≠ []
      ∧ (∀ c ∈ "myVar".toList, isalpha c = true)
      ∧ (type.mk [{ layer_type := .type, content := "int".toList },
          { layer_type := .array, content := "4".toList },
          { layer_type := .array, content := "3".toList }]).to_string "myVar".toList
        = some "int myVar[3][4]".toList :=
  ⟨by decide, by decide, by decide,
    (C15_name_binding "int".toList "myVar".toList ["4".toList, "3".toList] (by decide)
      (by decide) (by decide)).1⟩

theorem node_name_word_ident (w rest dest : List Char)
    (hw : ∀ c ∈ w, (isalpha c || c == '_') = true)
    (h1 : (isalpha (deref rest) || deref rest == '_') = false) :
    node_name_word (w ++ rest) dest = (rest, dest ++ w) := by
  induction w generalizing dest with
  | nil => simpa using node_name_word_stop rest dest h1
  | cons c w ih =>
    have hc : (isalpha c || c == '_') = true := hw c (List.mem_cons_self _ _)
    have ih2 := ih (dest ++ [c]) (fun c hc => hw c (List.mem_cons_of_mem _ hc))
    simp only [List.cons_append, node_name_word, hc, if_true]
    simpa using ih2

/-- Reading an identifier: the word starts with a letter and goes on with letters and
underscores, the text after it starts with neither, and the text after the following
spaces does not start with `<`. -/
theorem node_name_ident (c : Char) (w rest dest : List Char) (hc : isalpha c = true)
    (hw : ∀ c ∈ w, (isalpha c || c == '_') = true)
    (h1 : (isalpha (deref rest) || deref rest == '_') = false)
    (h3 : (deref (skip_spaces rest) == '<') = false) :
    node_name (c :: w ++ rest) dest = (true, skip_spaces rest, dest ++ c :: w) := by
  have hw2 := node_name_word_ident w rest (dest ++ [c]) hw h1
  simp [node_name, deref_cons, hc, isalpha_ne_underscore c hc, hw2, h3]

/-- The text of the words that follow the first one: every word after its separator. -/
theorem skip_spaces_separator (s w rest : List Char) (hs : ∀ c ∈ s, c = ' ')
    (hw : isalpha (deref w) = true) : skip_spaces (s ++ (w ++ rest)) = w ++ rest := by
  rw [skip_spaces_append_spaces s _ hs]
  apply skip_spaces_of_not_isspace
  cases w with
  | nil => exact absurd hw (by decide)
  | cons c w => exact isspace_of_isalpha c hw

/-- Facts about a primitive keyword made of letters and underscores. -/
theorem ident_keyword_facts (w : List Char) (hw : w ∈ primitive_types)
    (hl : w.all (fun c => isalpha c || c == '_') = true) :
    (∃ c w', w = c :: w' ∧ isalpha c = true ∧ ∀ d ∈ w', (isalpha d || d == '_') = true)
      ∧ strncmp_eq w "const".toList = false ∧ strncmp_eq w "volatile".toList = false
      ∧ is_primitive_type w = true := by
  have hK : w ∈ primitive_types.filter (fun w => w.all (fun c => isalpha c || c == '_')) :=
    List.mem_filter.mpr ⟨hw, hl⟩
  have key : ∀ v ∈ primitive_types.filter (fun w => w.all (fun c => isalpha c || c == '_')),
      (isalpha (deref v) = true ∧ v ≠ []) ∧ strncmp_eq v "const".toList = false
        ∧ strncmp_eq v "volatile".toList = false ∧ is_primitive_type v = true := by
    decide
  obtain ⟨⟨h1, h2⟩, h3, h4, h5⟩ := key w hK
  refine ⟨?_, h3, h4, h5⟩
  obtain ⟨c, w', rfl⟩ := List.exists_cons_of_ne_nil h2
  refine ⟨c, w', rfl, h1, ?_⟩
  intro d hd
  have := List.all_eq_true.mp hl d (List.mem_cons_of_mem _ hd)
  simpa using this

theorem node_cv_qual_word (w rest : List Char) (layers : List (layer type))
    (hc : strncmp_eq w "const".toList = false) (hv : strncmp_eq w "volatile".toList = false)
    (h1 : isalpha (deref rest) = false) :
    node_cv_qual (w ++ rest) layers = (false, w ++ rest, layers) := by
  unfold node_cv_qual
  rw [strncmp_eq_append w rest _ (by decide) h1, strncmp_eq_append w rest _ (by decide) h1,
    hc, hv]
  rfl

/-- One round of `read_word` that reads a primitive word after a non-empty content: a
space and the word are added to the content. -/
theorem read_word_step (f : Nat) (input input2 acc w : List Char) (hacc : acc ≠ [])
    (hcv : node_cv_qual input [{ layer_type := .type, content := acc }]
      = (false, input, [{ layer_type := .type, content := acc }]))
    (hname : node_name input [] = (true, input2, w)) (hprim : is_primitive_type w = true) :
    node_basic_type_read_word (f + 2) input [{ layer_type := .type, content := acc }] [] true
      = node_basic_type_read_word (f + 1) input2
          [{ layer_type := .type, content := acc ++ ' ' :: w }] [] true := by
  obtain ⟨a, acc', rfl⟩ := List.exists_cons_of_ne_nil hacc
  rw [node_basic_type_read_word, node_cv_quals, hcv]
  simp only [hname, hprim, back_content, update_back, List.getLast?_singleton, Bool.and_self,
    List.isEmpty_cons, Bool.not_false, if_true, Bool.or_true]
  simp

/-- The first round of `read_word`, on the fresh layer: the word becomes the content. -/
theorem read_word_first (f : Nat) (input input2 w : List Char)
    (hcv : node_cv_qual input [{ layer_type := .type }]
      = (false, input, [{ layer_type := .type }]))
    (hname : node_name input [] = (true, input2, w)) :
    node_basic_type_read_word (f + 2) input [{ layer_type := .type }] [] true
      = node_basic_type_read_word (f + 1) input2 [{ layer_type := .type, content := w }] []
          (is_primitive_type w) := by
  rw [node_basic_type_read_word, node_cv_quals, hcv]
  simp only [hname, back_content, update_back, List.getLast?_singleton, List.isEmpty_nil,
    Bool.not_true, Bool.false_and, Bool.false_eq_true, if_false, Bool.true_or, if_true,
    Bool.true_and, List.nil_append]

/-- The last round of `read_word`, at the end of the text. -/
theorem read_word_end (f : Nat) (acc : List Char) (hacc : acc ≠ []) :
    node_basic_type_read_word (f + 2) [] [{ layer_type := .type, content := acc }] [] true
      = some (true, [], [{ layer_type := .type, content := acc }]) := by
  obtain ⟨a, acc', rfl⟩ := List.exists_cons_of_ne_nil hacc
  rfl

/-- Words after the first one, every word with the separator in front of it: the
separators are non-empty runs of spaces, the words are primitive keywords made of letters
and underscores. -/
theorem tail_text_facts (pairs : List (List Char × List Char))
    (hp : ∀ p ∈ pairs, p.1 ≠ [] ∧ (∀ c ∈ p.1, c = ' ') ∧ p.2 ∈ primitive_types
      ∧ p.2.all (fun c => isalpha c || c == '_') = true) :
    (isalpha (deref (pairs.flatMap (fun p => p.1 ++ p.2))) = false
        ∧ (deref (pairs.flatMap (fun p => p.1 ++ p.2)) == '_') = false)
      ∧ (deref (skip_spaces (pairs.flatMap (fun p => p.1 ++ p.2))) == '<') = false
      ∧ ∀ c ∈ pairs.flatMap (fun p => p.1 ++ p.2), c ≠ NUL := by
  cases pairs with
  | nil => exact ⟨⟨rfl, rfl⟩, rfl, by simp⟩
  | cons p rest =>
    obtain ⟨hs1, hs2, hw1, hw2⟩ := hp p (List.mem_cons_self _ _)
    obtain ⟨⟨c, w', hw, hc, hw'⟩, _⟩ := ident_keyword_facts p.2 hw1 hw2
    obtain ⟨s0, s', hs⟩ := List.exists_cons_of_ne_nil hs1
    have hs0 : s0 = ' ' := hs2 s0 (by rw [hs]; exact List.mem_cons_self _ _)
    refine ⟨?_, ?_, ?_⟩
    · rw [List.flatMap_cons, hs, hs0]
      exact ⟨rfl, rfl⟩
    · rw [List.flatMap_cons, List.append_assoc,
        skip_spaces_separator p.1 p.2 _ hs2 (by rw [hw]; exact hc), hw]
      show (c == '<') = false
      by_contra h
      simp only [Bool.not_eq_false, beq_iff_eq] at h
      subst h
      exact absurd hc (by decide)
    · intro d hd
      simp only [List.mem_flatMap, List.mem_append] at hd
      obtain ⟨q, hq, hd⟩ := hd
      obtain ⟨_, hq2, hq3, hq4⟩ := hp q hq
      rcases hd with hd | hd
      · rw [hq2 d hd]; decide
      · have := List.all_eq_true.mp hq4 d hd
        intro hN
        subst hN
        exact absurd this (by decide)

/-- The rounds of `read_word` over the words after the first one: every word is added to
the content after one space. -/
theorem read_word_keywords (pairs : List (List Char × List Char)) (acc : List Char) (k : Nat)
    (hacc : acc ≠ [])
    (hp : ∀ p ∈ pairs, p.1 ≠ [] ∧ (∀ c ∈ p.1, c = ' ') ∧ p.2 ∈ primitive_types
      ∧ p.2.all (fun c => isalpha c || c == '_') = true) :
    node_basic_type_read_word (k + pairs.length + 2)
        (skip_spaces (pairs.flatMap (fun p => p.1 ++ p.2)))
        [{ layer_type := .type, content := acc }] [] true
      = some (true, [],
          [{ layer_type := .type, content := acc ++ pairs.flatMap (fun p => ' ' :: p.2) }]) := by
  induction pairs generalizing acc with
  | nil =>
    simpa [skip_spaces] using read_word_end k acc hacc
  | cons p rest ih =>
    obtain ⟨hs1, hs2, hw1, hw2⟩ := hp p (List.mem_cons_self _ _)
    have hrest := fun q hq => hp q (List.mem_cons_of_mem _ hq)
    obtain ⟨⟨c, w', hw, hc, hw'⟩, hcst, hvol, hprim⟩ := ident_keyword_facts p.2 hw1 hw2
    obtain ⟨⟨t1, t2⟩, t3, _⟩ := tail_text_facts rest hrest
    have hf : k + (p :: rest).length + 2 = (k + rest.length + 1) + 2 := by
      simp only [List.length_cons]; omega
    rw [hf, List.flatMap_cons, List.append_assoc,
      skip_spaces_separator p.1 p.2 _ hs2 (by rw [hw]; exact hc),
      read_word_step (k + rest.length + 1) _ (skip_spaces (rest.flatMap (fun p => p.1 ++ p.2)))
        acc p.2 hacc (node_cv_qual_word p.2 _ _ hcst hvol t1)
        (by
          rw [hw]
          have := node_name_ident c w' (rest.flatMap (fun p => p.1 ++ p.2)) [] hc hw'
            (by rw [t1, t2]; rfl) t3
          simpa using this)
        hprim,
      ih (acc ++ ' ' :: p.2) (by simp) hrest]
    simp

theorem intercalate_space_cons (w : List Char) (ws : List (List Char)) :
    " ".toList.intercalate (w :: ws) = w ++ ws.flatMap (fun v => ' ' :: v) := by
  induction ws generalizing w with
  | nil => simp [List.intercalate]
  | cons v ws ih =>
    have h : " ".toList.intercalate (w :: v :: ws) = w ++ ' ' :: " ".toList.intercalate (v :: ws) := by
      simp [List.intercalate]
    rw [h, ih]
    simp

theorem node_type_qual_nil (k heap : Nat) (layers : List (layer type)) :
    node_type_qual (k + 3) [] layers heap = some (false, [], layers, heap) := rfl

/-- C16 (counterexample): the single keyword `char16_t` does not give Base("char16_t");
the identifier ends at the digit and the Type has the one layer Base("char"). -/
theorem C16_counterexample :
    "char16_t".toList ∈ primitive_types
      ∧ type.parse 16 0 "char16_t".toList
        = some (.mk [{ layer_type := .type, content := "char".toList }], 0)
      ∧ "char".toList ≠ "char16_t".toList := by
  refine ⟨by decide, by rfl, by decide⟩

/-- C16 (amended): primitive merging.  The words are primitive keywords made of letters
and underscores: the first word `w`, and every further word `p.2` after its separator
`p.1`, a non-empty run of spaces.  With enough fuel the text parses to a valid Type with
exactly one layer, of kind Base with both cv flags false, whose content is the words
joined by exactly one space each. -/
theorem C16_primitive_merging (w : List Char) (pairs : List (List Char × List Char))
    (hw : w ∈ primitive_types) (hl : w.all (fun c => isalpha c || c == '_') = true)
    (hp : ∀ p ∈ pairs, p.1 ≠ [] ∧ (∀ c ∈ p.1, c = ' ') ∧ p.2 ∈ primitive_types
      ∧ p.2.all (fun c => isalpha c || c == '_') = true)
    (k heap : Nat) :
    ∃ t, type.parse (k + pairs.length + 4) heap (w ++ pairs.flatMap (fun p => p.1 ++ p.2))
          = some (t, heap)
      ∧ t.valid = true
      ∧ t.layers = [{ layer_type := .type,
                      content := " ".toList.intercalate (w :: pairs.map (fun p => p.2)),
                      is_const := false, is_volatile := false, arguments := [] }] := by
  obtain ⟨⟨c, w', hwc, hc, hw'⟩, hcst, hvol, hprim⟩ := ident_keyword_facts w hw hl
  obtain ⟨⟨t1, t2⟩, t3, t4⟩ := tail_text_facts pairs hp
  have hnul : ∀ d ∈ w ++ pairs.flatMap (fun p => p.1 ++ p.2), d ≠ NUL := by
    intro d hd
    rcases List.mem_append.mp hd with hd | hd
    · have := List.all_eq_true.mp hl d hd
      intro hN
      subst hN
      exact absurd this (by decide)
    · exact t4 d hd
  have hskip : skip_spaces (w ++ pairs.flatMap (fun p => p.1 ++ p.2))
      = w ++ pairs.flatMap (fun p => p.1 ++ p.2) := by
    apply skip_spaces_of_not_isspace
    rw [hwc]
    exact isspace_of_isalpha c hc
  have hname : node_name (w ++ pairs.flatMap (fun p => p.1 ++ p.2)) []
      = (true, skip_spaces (pairs.flatMap (fun p => p.1 ++ p.2)), w) := by
    rw [hwc]
    have := node_name_ident c w' (pairs.flatMap (fun p => p.1 ++ p.2)) [] hc hw'
      (by rw [t1, t2]; rfl) t3
    simpa using this
  have hbasic : node_basic_type (k + pairs.length + 3)
      (w ++ pairs.flatMap (fun p => p.1 ++ p.2)) [{ layer_type := .type }]
      = some (true, [],
          [{ layer_type := .type, content := w ++ pairs.flatMap (fun p => ' ' :: p.2) }]) := by
    rw [node_basic_type,
      read_word_first (k + pairs.length + 1) _ _ w (node_cv_qual_word w _ _ hcst hvol t1) hname,
      hprim, read_word_keywords pairs w k (by rw [hwc]; simp) hp]
  refine ⟨.mk [{ layer_type := .type,
                 content := " ".toList.intercalate (w :: pairs.map (fun p => p.2)) }],
    ?_, rfl, rfl⟩
  unfold type.parse
  rw [c_str_of_no_NUL _ hnul, node_type]
  simp only [List.nil_append]
  rw [hskip, hbasic]
  simp only []
  rw [node_type_qual_nil (k + pairs.length) heap, intercalate_space_cons, List.flatMap_map]

/-- C16 (witness): the text `"unsigned   long"`. -/
theorem C16_primitive_merging_witness :
    "unsigned".toList ∈ primitive_types
      ∧ "unsigned".toList.all (fun c => isalpha c || c == '_') = true
      ∧ (∀ p ∈ [("   ".toList, "long".toList)],
          p.1 ≠ [] ∧ (∀ c ∈ p.1, c = ' ') ∧ p.2 ∈ primitive_types
            ∧ p.2.all (fun c => isalpha c || c == '_') = true)
      ∧ ∃ t, type.parse 5 0 "unsigned   long".toList = some (t, 0)
        ∧ t.valid = true
        ∧ t.layers = [{ layer_type := .type, content := "unsigned long".toList }] :=
  ⟨by decide, by decide, by decide,
    C16_primitive_merging "unsigned".toList [("   ".toList, "long".toList)] (by decide)
      (by decide) (by decide) 0 0⟩

/-- C17 (code at the failing input): reading the name from `vector<int>*` does not stop
after the closing bracket.  The statement that reads the `>` appends the whole rest of the
text, so the name is `vector<int>*` although the cursor is left at `*`, and the Type
parsed from `vector<int>*` has the layers Base("vector<int>*"), Pointer.  Only when
nothing follows the closing bracket is the name exact; without a closing bracket only the
identifier is kept and the cursor is back at the `<`. -/
theorem C17_template_capture (k heap : Nat) :
    node_name "vector<int>*".toList [] = (true, "*".toList, "vector<int>*".toList)
      ∧ type.parse (k + 16) heap "vector<int>*".toList
        = some (.mk [{ layer_type := .type, content := "vector<int>*".toList },
                     { layer_type := .pointer }], heap)
      ∧ node_name "vector<int>".toList [] = (true, [], "vector<int>".toList)
      ∧ node_name "vector<int".toList [] = (true, "<int".toList, "vector".toList) :=
  ⟨by rfl, by rfl, by rfl, by rfl⟩

/-- C18 (code at the failing inputs): the identifier `_foo` is not accepted, since
`node_name` rejects a first character `_`, and the Type built from it is invalid; the
identifier `constant` is not read as a name, since `node_cv_qual` takes its first five
characters as the qualifier `const`, and the Type built from it has the one layer
Base("ant") with `is_const` set.  An identifier such as `foo_bar` gives Base("foo_bar"). -/
theorem C18_identifiers (k heap : Nat) :
    type.parse (k + 16) heap "_foo".toList = some (type.invalid, heap)
      ∧ type.invalid.valid = false
      ∧ type.parse (k + 16) heap "constant".toList
        = some (.mk [{ layer_type := .type, content := "ant".toList, is_const := true }], heap)
      ∧ type.parse (k + 16) heap "foo_bar".toList
        = some (.mk [{ layer_type := .type, content := "foo_bar".toList }], heap) :=
  ⟨by rfl, by rfl, by rfl, by rfl⟩

/-- C19 (code at the failing input): the declarator `::*` with no class name is accepted
as a member pointer.  The Type parsed from `int ::*` has the layers Base("int"),
MemberPointer with the empty content.  With a class path, as in `int A::B::*`, the
content is the path without the trailing `::`. -/
theorem C19_member_pointer_content (k heap : Nat) :
    type.parse (k + 16) heap "int ::*".toList
        = some (.mk [{ layer_type := .type, content := "int".toList },
                     { layer_type := .member_pointer, content := [] }], heap)
      ∧ type.parse (k + 16) heap "int A::B::*".toList
        = some (.mk [{ layer_type := .type, content := "int".toList },
                     { layer_type := .member_pointer, content := "A::B".toList }], heap) :=
  ⟨by rfl, by rfl⟩

/-! ### More fuel never changes a result -/

theorem node_cv_quals_succ (f : Nat) (input : List Char) (layers : List (layer type))
    (r : List Char × List (layer type)) (h : node_cv_quals f input layers = some r) :
    node_cv_quals (f + 1) input layers = some r := by
  induction f generalizing input layers with
  | zero => simp [node_cv_quals] at h
  | succ f ih =>
    rw [node_cv_quals] at h ⊢
    split at h
    · exact ih _ _ h
    · exact h

theorem node_mem_ptr_start_succ (f : Nat) (input content : List Char)
    (r : List Char × List Char) (h : node_mem_ptr_start f input content = some r) :
    node_mem_ptr_start (f + 1) input content = some r := by
  induction f generalizing input content with
  | zero => simp [node_mem_ptr_start] at h
  | succ f ih =>
    rw [node_mem_ptr_start] at h ⊢
    split at h
    · rename_i hc
      rw [if_pos hc]
      exact ih _ _ h
    · rename_i hc
      rw [if_neg hc]
      split at h
      · exact ih _ _ h
      · exact h

theorem node_basic_type_read_word_succ (f : Nat) (input : List Char) (layers : List (layer type))
    (content : List Char) (primitive : Bool) (r : Bool × List Char × List (layer type))
    (h : node_basic_type_read_word f input layers content primitive = some r) :
    node_basic_type_read_word (f + 1) input layers content primitive = some r := by
  induction f generalizing input layers content primitive with
  | zero => simp [node_basic_type_read_word] at h
  | succ f ih =>
    rw [node_basic_type_read_word] at h ⊢
    split at h
    · exact absurd h (by simp)
    · rename_i i l hq
      rw [node_cv_quals_succ _ _ _ _ hq]
      dsimp only at h ⊢
      revert h
      repeat' split
      all_goals first | exact ih _ _ _ _ | exact id

theorem node_basic_type_succ (f : Nat) (input : List Char) (layers : List (layer type))
    (r : Bool × List Char × List (layer type)) (h : node_basic_type f input layers = some r) :
    node_basic_type (f + 1) input layers = some r :=
  node_basic_type_read_word_succ f input layers [] true r h

theorem node_mem_ptr_succ (f : Nat) (input : List Char) (layers : List (layer type))
    (r : Bool × List Char × List (layer type)) (h : node_mem_ptr f input layers = some r) :
    node_mem_ptr (f + 1) input layers = some r := by
  rw [node_mem_ptr] at h ⊢
  split at h
  · exact absurd h (by simp)
  · rename_i i c hq
    rw [node_mem_ptr_start_succ _ _ _ _ hq]
    dsimp only at h ⊢
    split at h
    · rename_i hc
      rw [if_pos hc]
      exact h
    · rename_i hc
      rw [if_neg hc]
      split at h
      · exact absurd h (by simp)
      · rename_i i2 l2 hq2
        rw [node_cv_quals_succ _ _ _ _ hq2]
        exact h

theorem node_ptr_or_ref_succ (f : Nat) (input : List Char) (layers : List (layer type))
    (r : Bool × List Char × List (layer type)) (h : node_ptr_or_ref f input layers = some r) :
    node_ptr_or_ref (f + 1) input layers = some r := by
  rw [node_ptr_or_ref] at h ⊢
  split at h
  · rename_i hc
    rw [if_pos hc]
    dsimp only at h ⊢
    split at h
    · exact absurd h (by simp)
    · rename_i i2 l2 hq2
      rw [node_cv_quals_succ _ _ _ _ hq2]
      exact h
  · rename_i hc
    rw [if_neg hc]
    split at h
    · rename_i hc2
      rw [if_pos hc2]
      exact h
    · rename_i hc2
      rw [if_neg hc2]
      exact node_mem_ptr_succ _ _ _ _ h

theorem node_ptr_or_refs_succ (f : Nat) (input : List Char) (layers : List (layer type))
    (r : List Char × List (layer type)) (h : node_ptr_or_refs f input layers = some r) :
    node_ptr_or_refs (f + 1) input layers = some r := by
  induction f generalizing input layers with
  | zero => simp [node_ptr_or_refs] at h
  | succ f ih =>
    rw [node_ptr_or_refs] at h ⊢
    split at h
    · exact absurd h (by simp)
    · rename_i i l hq
      rw [node_ptr_or_ref_succ _ _ _ _ hq]
      exact ih _ _ h
    · rename_i i l hq
      rw [node_ptr_or_ref_succ _ _ _ _ hq]
      exact h

theorem parser_succ (f : Nat) :
    (∀ i l hp r, node_type f i l hp = some r → node_type (f + 1) i l hp = some r)
      ∧ (∀ i l hp r, node_type_qual f i l hp = some r → node_type_qual (f + 1) i l hp = some r)
      ∧ (∀ i l hp r, node_array_func f i l hp = some r → node_array_func (f + 1) i l hp = some r)
      ∧ (∀ ip n i l hp r, node_array_func_tries f ip n i l hp = some r →
          node_array_func_tries (f + 1) ip n i l hp = some r)
      ∧ (∀ ip n c bk i l hp r, node_array_func_try f ip n c bk i l hp = some r →
          node_array_func_try (f + 1) ip n c bk i l hp = some r)
      ∧ (∀ ip i l hp r, node_array_func_parameters f ip i l hp = some r →
          node_array_func_parameters (f + 1) ip i l hp = some r) := by
  induction f with
  | zero =>
    refine ⟨?_, ?_, ?_, ?_, ?_, ?_⟩ <;> intros <;> rename_i h
    · simp [node_type] at h
    · simp [node_type_qual] at h
    · simp [node_array_func] at h
    · simp [node_array_func_tries] at h
    · simp [node_array_func_try] at h
    · simp [node_array_func_parameters] at h
  | succ f ih =>
    obtain ⟨ih1, ih2, ih3, ih4, ih5, ih6⟩ := ih
    refine ⟨?_, ?_, ?_, ?_, ?_, ?_⟩
    · intro i l hp r h
      rw [node_type] at h ⊢
      generalize hb : node_basic_type f _ _ = ob at h
      cases ob with
      | none => exact absurd h (by simp)
      | some v =>
        rw [node_basic_type_succ _ _ _ _ hb]
        revert h
        split
        · exact id
        · exact id
        · generalize hq : node_type_qual f _ _ _ = oq
          cases oq with
          | none => intro h; exact absurd h (by simp)
          | some w => rw [ih2 _ _ _ _ hq]; exact id
    · intro i l hp r h
      rw [node_type_qual] at h ⊢
      generalize hb : node_ptr_or_ref f _ _ = ob at h
      cases ob with
      | none => exact absurd h (by simp)
      | some v =>
        rw [node_ptr_or_ref_succ _ _ _ _ hb]
        revert h
        split
        · exact id
        · exact ih3 _ _ _ _
        · generalize hq : node_ptr_or_refs f _ _ = oq
          cases oq with
          | none => intro h; exact absurd h (by simp)
          | some w =>
            rw [node_ptr_or_refs_succ _ _ _ _ hq]
            dsimp only
            generalize ha : node_array_func f _ _ _ = oa
            cases oa with
            | none => intro h; exact absurd h (by simp)
            | some u => rw [ih3 _ _ _ _ ha]; exact id
    · intro i l hp r h
      rw [node_array_func] at h ⊢
      revert h
      split
      · exact id
      · exact ih4 _ _ _ _ _ _
    · intro ip n i l hp r h
      rw [node_array_func_tries] at h ⊢
      generalize hb : node_array_func_try f _ _ _ _ _ _ _ = ob at h
      cases ob with
      | none => exact absurd h (by simp)
      | some v =>
        rw [ih5 _ _ _ _ _ _ _ _ hb]
        revert h
        split
        · exact id
        · exact id
        · split
          · exact id
          · exact ih4 _ _ _ _ _ _
    · intro ip n c bk i l hp r h
      rw [node_array_func_try] at h ⊢
      revert h
      split
      · split
        · dsimp only
          split
          · exact id
          · exact ih5 _ _ _ _ _ _ _ _
        · split
          · by_cases hc0 : c = 0
            · simp only [hc0, if_true]
              generalize hq : node_type_qual f _ _ _ = oq
              cases oq with
              | none => intro h; exact absurd h (by simp)
              | some w =>
                rw [ih2 _ _ _ _ hq]
                dsimp only
                split
                · exact ih5 _ _ _ _ _ _ _ _
                · generalize hpa : node_array_func_parameters f _ _ _ _ = opa
                  cases opa with
                  | none => intro h; exact absurd h (by simp)
                  | some u =>
                    rw [ih6 _ _ _ _ _ hpa]
                    dsimp only
                    split
                    · exact id
                    · generalize hcv : node_cv_quals f _ _ = ocv
                      cases ocv with
                      | none => intro h; exact absurd h (by simp)
                      | some t =>
                        rw [node_cv_quals_succ _ _ _ _ hcv]
                        exact ih5 _ _ _ _ _ _ _ _
            · simp only [hc0, if_false]
              split
              · exact ih5 _ _ _ _ _ _ _ _
              · generalize hpa : node_array_func_parameters f _ _ _ _ = opa
                cases opa with
                | none => intro h; exact absurd h (by simp)
                | some u =>
                  rw [ih6 _ _ _ _ _ hpa]
                  dsimp only
                  split
                  · exact id
                  · generalize hcv : node_cv_quals f _ _ = ocv
                    cases ocv with
                    | none => intro h; exact absurd h (by simp)
                    | some t =>
                      rw [node_cv_quals_succ _ _ _ _ hcv]
                      exact ih5 _ _ _ _ _ _ _ _
          · exact id
      · exact id
    · intro ip i l hp r h
      rw [node_array_func_parameters] at h ⊢
      generalize hb : node_type f _ _ _ = ob at h
      cases ob with
      | none => exact absurd h (by simp)
      | some v =>
        rw [ih1 _ _ _ _ hb]
        revert h
        dsimp only
        split
        · exact id
        · split
          · exact id
          · exact ih6 _ _ _ _ _

/-- A result that one more unit of fuel keeps is kept by any larger fuel. -/
theorem fuel_mono {α : Type} (F : Nat → Option α)
    (hs : ∀ f r, F f = some r → F (f + 1) = some r) (f f' : Nat) (r : α) (hle : f ≤ f')
    (h : F f = some r) : F f' = some r := by
  induction hle with
  | refl => exact h
  | step _ ih => exact hs _ _ ih

theorem node_cv_quals_mono {f f' : Nat} {input : List Char} {layers : List (layer type)}
    {r : List Char × List (layer type)} (h : node_cv_quals f input layers = some r)
    (hle : f ≤ f') : node_cv_quals f' input layers = some r :=
  fuel_mono (fun f => node_cv_quals f input layers)
    (fun f r => node_cv_quals_succ f input layers r) f f' r hle h

theorem node_basic_type_read_word_mono {f f' : Nat} {input : List Char}
    {layers : List (layer type)} {content : List Char} {primitive : Bool}
    {r : Bool × List Char × List (layer type)}
    (h : node_basic_type_read_word f input layers content primitive = some r) (hle : f ≤ f') :
    node_basic_type_read_word f' input layers content primitive = some r :=
  fuel_mono (fun f => node_basic_type_read_word f input layers content primitive)
    (fun f r => node_basic_type_read_word_succ f input layers content primitive r) f f' r hle h

theorem node_mem_ptr_start_mono {f f' : Nat} {input content : List Char}
    {r : List Char × List Char} (h : node_mem_ptr_start f input content = some r)
    (hle : f ≤ f') : node_mem_ptr_start f' input content = some r :=
  fuel_mono (fun f => node_mem_ptr_start f input content)
    (fun f r => node_mem_ptr_start_succ f input content r) f f' r hle h

theorem node_ptr_or_ref_mono {f f' : Nat} {input : List Char} {layers : List (layer type)}
    {r : Bool × List Char × List (layer type)} (h : node_ptr_or_ref f input layers = some r)
    (hle : f ≤ f') : node_ptr_or_ref f' input layers = some r :=
  fuel_mono (fun f => node_ptr_or_ref f input layers)
    (fun f r => node_ptr_or_ref_succ f input layers r) f f' r hle h

theorem node_ptr_or_refs_mono {f f' : Nat} {input : List Char} {layers : List (layer type)}
    {r : List Char × List (layer type)} (h : node_ptr_or_refs f input layers = some r)
    (hle : f ≤ f') : node_ptr_or_refs f' input layers = some r :=
  fuel_mono (fun f => node_ptr_or_refs f input layers)
    (fun f r => node_ptr_or_refs_succ f input layers r) f f' r hle h

theorem node_type_mono {f f' : Nat} {input : List Char} {layers : List (layer type)} {heap : Nat}
    {r : Bool × List Char × List (layer type) × Nat} (h : node_type f input layers heap = some r)
    (hle : f ≤ f') : node_type f' input layers heap = some r :=
  fuel_mono (fun f => node_type f input layers heap)
    (fun f r => (parser_succ f).1 input layers heap r) f f' r hle h

theorem node_type_qual_mono {f f' : Nat} {input : List Char} {layers : List (layer type)}
    {heap : Nat} {r : Bool × List Char × List (layer type) × Nat}
    (h : node_type_qual f input layers heap = some r) (hle : f ≤ f') :
    node_type_qual f' input layers heap = some r :=
  fuel_mono (fun f => node_type_qual f input layers heap)
    (fun f r => (parser_succ f).2.1 input layers heap r) f f' r hle h

theorem node_array_func_mono {f f' : Nat} {input : List Char} {layers : List (layer type)}
    {heap : Nat} {r : Bool × List Char × List (layer type) × Nat}
    (h : node_array_func f input layers heap = some r) (hle : f ≤ f') :
    node_array_func f' input layers heap = some r :=
  fuel_mono (fun f => node_array_func f input layers heap)
    (fun f r => (parser_succ f).2.2.1 input layers heap r) f f' r hle h

theorem node_array_func_tries_mono {f f' ip n : Nat} {input : List Char}
    {layers : List (layer type)} {heap : Nat} {r : Bool × List Char × List (layer type) × Nat}
    (h : node_array_func_tries f ip n input layers heap = some r) (hle : f ≤ f') :
    node_array_func_tries f' ip n input layers heap = some r :=
  fuel_mono (fun f => node_array_func_tries f ip n input layers heap)
    (fun f r => (parser_succ f).2.2.2.1 ip n input layers heap r) f f' r hle h

theorem node_array_func_try_mono {f f' ip n c : Nat} {bk input : List Char}
    {layers : List (layer type)} {heap : Nat} {r : loop_exit}
    (h : node_array_func_try f ip n c bk input layers heap = some r) (hle : f ≤ f') :
    node_array_func_try f' ip n c bk input layers heap = some r :=
  fuel_mono (fun f => node_array_func_try f ip n c bk input layers heap)
    (fun f r => (parser_succ f).2.2.2.2.1 ip n c bk input layers heap r) f f' r hle h

theorem node_array_func_parameters_mono {f f' ip : Nat} {input : List Char}
    {layers : List (layer type)} {heap : Nat} {r : List Char × List (layer type) × Nat}
    (h : node_array_func_parameters f ip input layers heap = some r) (hle : f ≤ f') :
    node_array_func_parameters f' ip input layers heap = some r :=
  fuel_mono (fun f => node_array_func_parameters f ip input layers heap)
    (fun f r => (parser_succ f).2.2.2.2.2 ip input layers heap r) f f' r hle h

/-! ### Every function of the parser moves the cursor forward only -/

theorem length_skip_spaces (i : List Char) : (skip_spaces i).length ≤ i.length := by
  induction i with
  | nil => simp [skip_spaces]
  | cons c i ih =>
    simp only [skip_spaces]
    split
    · exact Nat.le_succ_of_le ih
    · exact Nat.le_refl _

theorem length_drop_one_lt (i : List Char) (h : deref i ≠ NUL) :
    (i.drop 1).length < i.length := by
  cases i with
  | nil => exact absurd rfl h
  | cons c i => simp

theorem length_node_name_word (i dest : List Char) :
    (node_name_word i dest).1.length ≤ i.length := by
  induction i generalizing dest with
  | nil => simp [node_name_word]
  | cons c i ih =>
    simp only [node_name_word]
    split
    · exact Nat.le_succ_of_le (ih _)
    · exact Nat.le_refl _

theorem length_node_name_template (i : List Char) (n : Int) (dest : List Char) :
    (node_name_template i n dest).1.length ≤ i.length := by
  induction i generalizing n dest with
  | nil => simp [node_name_template]
  | cons c i ih =>
    simp only [node_name_template]
    split
    · exact Nat.le_succ_of_le (ih _ _)
    · exact Nat.le_refl _

theorem length_node_array_func_extent (i : List Char) (n : Int) (content : List Char) :
    (node_array_func_extent i n content).1.length ≤ i.length := by
  induction i generalizing n content with
  | nil => simp [node_array_func_extent]
  | cons c i ih =>
    simp only [node_array_func_extent]
    split
    · exact Nat.le_succ_of_le (ih _ _)
    · exact Nat.le_refl _

theorem ne_NUL_of_beq {c d : Char} (h : (c == d) = true) (hd : d ≠ NUL) : c ≠ NUL := by
  simp only [beq_iff_eq] at h
  rw [h]
  exact hd

theorem length_node_name (i dest : List Char) :
    (node_name i dest).2.1.length ≤ i.length
      ∧ ((node_name i dest).1 = true → (node_name i dest).2.1.length < i.length) := by
  unfold node_name
  split
  · exact ⟨Nat.le_refl _, fun h => absurd h (by simp)⟩
  · rename_i hc
    have ha : isalpha (deref i) = true := by
      simp only [Bool.or_eq_true, Bool.not_eq_true', beq_iff_eq, not_or, Bool.not_eq_false] at hc
      exact hc.1
    have h1 : (i.drop 1).length < i.length :=
      length_drop_one_lt i (ne_NUL_of_isalpha _ ha)
    have h2 := length_node_name_word (i.drop 1) (dest ++ [deref i])
    rcases hw : node_name_word (i.drop 1) (dest ++ [deref i]) with ⟨i1, d1⟩
    rw [hw] at h2
    have h3 := length_skip_spaces i1
    dsimp only at h2 ⊢
    split
    · have h4 := length_node_name_template ((skip_spaces i1).drop 1) 0
        (d1 ++ [deref (skip_spaces i1)])
      rcases ht : node_name_template ((skip_spaces i1).drop 1) 0
        (d1 ++ [deref (skip_spaces i1)]) with ⟨i2, d2⟩
      rw [ht] at h4
      have h5 : ((skip_spaces i1).drop 1).length ≤ (skip_spaces i1).length := by simp
      dsimp only at h4 ⊢
      split
      · exact ⟨by dsimp only; omega, fun _ => by dsimp only; omega⟩
      · have h6 := length_skip_spaces (i2.drop 1)
        have h7 : (i2.drop 1).length ≤ i2.length := by simp
        exact ⟨by dsimp only; omega, fun _ => by dsimp only; omega⟩
    · exact ⟨by dsimp only; omega, fun _ => by dsimp only; omega⟩

theorem length_of_strncmp_eq (i pat : List Char) (h : strncmp_eq i pat = true) :
    pat.length ≤ i.length := by
  induction pat generalizing i with
  | nil => simp
  | cons p pat ih =>
    cases i with
    | nil => simp [strncmp_eq] at h
    | cons c i =>
      simp only [strncmp_eq, Bool.and_eq_true] at h
      simpa using ih i h.2

theorem length_node_cv_qual (i : List Char) (l : List (layer type)) :
    (node_cv_qual i l).2.1.length ≤ i.length
      ∧ ((node_cv_qual i l).1 = true → (node_cv_qual i l).2.1.length < i.length) := by
  unfold node_cv_qual
  split
  · rename_i hc
    have h1 := length_of_strncmp_eq _ _ hc
    have h2 := length_skip_spaces (i.drop 5)
    have h3 : (i.drop 5).length = i.length - 5 := by simp
    have h4 : "const".toList.length = 5 := rfl
    exact ⟨by dsimp only; omega, fun _ => by dsimp only; omega⟩
  · split
    · rename_i hc
      have h1 := length_of_strncmp_eq _ _ hc
      have h2 := length_skip_spaces (i.drop 8)
      have h3 : (i.drop 8).length = i.length - 8 := by simp
      have h4 : "volatile".toList.length = 8 := rfl
      exact ⟨by dsimp only; omega, fun _ => by dsimp only; omega⟩
    · exact ⟨Nat.le_refl _, fun h => absurd h (by simp)⟩

/-- The loop `while( node_cv_qual( input ) );` ends. -/
theorem node_cv_quals_total (i : List Char) (l : List (layer type)) :
    ∃ f i2 l2, node_cv_quals f i l = some (i2, l2) ∧ i2.length ≤ i.length := by
  obtain ⟨n, hn⟩ : ∃ n, i.length = n := ⟨_, rfl⟩
  induction n using Nat.strong_induction_on generalizing i l with
  | _ n ih =>
    obtain ⟨h1, h2⟩ := length_node_cv_qual i l
    rcases hq : node_cv_qual i l with ⟨b, i1, l1⟩
    rw [hq] at h1 h2
    cases b with
    | false =>
      exact ⟨1, i, l, by
        rw [node_cv_quals, hq]
        have : i1 = i ∧ l1 = l := by
          unfold node_cv_qual at hq
          split at hq
          · simp at hq
          · split at hq
            · simp at hq
            · simp at hq; exact ⟨hq.1.symm, hq.2.symm⟩
        rw [this.1, this.2], Nat.le_refl _⟩
    | true =>
      have hlt : i1.length < n := by
        have := h2 rfl
        dsimp only at this
        omega
      obtain ⟨f, i2, l2, hf, hle⟩ := ih i1.length hlt i1 l1 rfl
      refine ⟨f + 1, i2, l2, ?_, ?_⟩
      · rw [node_cv_quals, hq]
        exact hf
      · dsimp only at h1
        omega

theorem peek_zero (i : List Char) : peek i 0 = deref i := rfl

/-- The loop of `node_mem_ptr` over the `::` and the names ends. -/
theorem node_mem_ptr_start_total (i c : List Char) :
    ∃ f i2 c2, node_mem_ptr_start f i c = some (i2, c2) ∧ i2.length ≤ i.length := by
  obtain ⟨n, hn⟩ : ∃ n, i.length = n := ⟨_, rfl⟩
  induction n using Nat.strong_induction_on generalizing i c with
  | _ n ih =>
    by_cases hc : (peek i 0 == ':' && peek i 1 == ':') = true
    · have h0 : (deref i == ':') = true := by
        simp only [Bool.and_eq_true] at hc
        exact hc.1
      have h1 := length_drop_one_lt i (ne_NUL_of_beq h0 (by decide))
      have h2 := length_skip_spaces (i.drop 2)
      have h3 : (i.drop 2).length ≤ (i.drop 1).length := by simp; omega
      obtain ⟨f, i2, c2, hf, hle⟩ :=
        ih (skip_spaces (i.drop 2)).length (by omega) (skip_spaces (i.drop 2))
          (c ++ "::".toList) rfl
      exact ⟨f + 1, i2, c2, by rw [node_mem_ptr_start, if_pos hc]; exact hf, by omega⟩
    · obtain ⟨h1, h2⟩ := length_node_name i c
      rcases hq : node_name i c with ⟨b, i1, c1⟩
      rw [hq] at h1 h2
      dsimp only at h1 h2
      cases b with
      | false =>
        exact ⟨1, i1, c1, by rw [node_mem_ptr_start, if_neg hc, hq], h1⟩
      | true =>
        have hlt := h2 rfl
        obtain ⟨f, i2, c2, hf, hle⟩ := ih i1.length (by omega) i1 c1 rfl
        exact ⟨f + 1, i2, c2, by rw [node_mem_ptr_start, if_neg hc, hq]; exact hf, by omega⟩

/-- The function `node_mem_ptr` returns; on success the cursor has moved. -/
theorem node_mem_ptr_total (i : List Char) (l : List (layer type)) :
    ∃ f b i2 l2, node_mem_ptr f i l = some (b, i2, l2) ∧ i2.length ≤ i.length
      ∧ (b = true → i2.length < i.length) := by
  obtain ⟨f1, i1, c1, h1, hle1⟩ := node_mem_ptr_start_total i []
  by_cases hc : (c1.isEmpty || back c1 != ':' || deref i1 != '*') = true
  · exact ⟨f1, false, i, l, by rw [node_mem_ptr, h1]; dsimp only; rw [if_pos hc],
      Nat.le_refl _, fun h => absurd h (by simp)⟩
  · have hstar : deref i1 = '*' := by
      simp only [Bool.or_eq_true, not_or, bne_iff_ne, ne_eq, Decidable.not_not] at hc
      exact hc.2
    have h2 := length_drop_one_lt i1 (by rw [hstar]; decide)
    have h3 := length_skip_spaces (i1.drop 1)
    obtain ⟨f2, i2, l2, h4, hle2⟩ := node_cv_quals_total (skip_spaces (i1.drop 1))
      (l ++ [{ layer_type := .member_pointer, content := c1.take (c1.length - 2) }])
    refine ⟨max f1 f2, true, i2, l2, ?_, by omega, fun _ => by omega⟩
    rw [node_mem_ptr, node_mem_ptr_start_mono h1 (Nat.le_max_left _ _)]
    dsimp only
    rw [if_neg hc, node_cv_quals_mono h4 (Nat.le_max_right _ _)]

/-- The function `node_ptr_or_ref` returns; on success the cursor has moved. -/
theorem node_ptr_or_ref_total (i : List Char) (l : List (layer type)) :
    ∃ f b i2 l2, node_ptr_or_ref f i l = some (b, i2, l2) ∧ i2.length ≤ i.length
      ∧ (b = true → i2.length < i.length) := by
  by_cases hs : (deref i == '*') = true
  · have h2 := length_drop_one_lt i (ne_NUL_of_beq hs (by decide))
    have h3 := length_skip_spaces (i.drop 1)
    obtain ⟨f2, i2, l2, h4, hle2⟩ := node_cv_quals_total (skip_spaces (i.drop 1))
      (l ++ [{ layer_type := .pointer }])
    refine ⟨f2, true, i2, l2, ?_, by omega, fun _ => by omega⟩
    rw [node_ptr_or_ref, if_pos hs]
    dsimp only
    rw [h4]
  · by_cases ha : (deref i == '&') = true
    · have h2 := length_drop_one_lt i (ne_NUL_of_beq ha (by decide))
      have h3 := length_skip_spaces (i.drop 1)
      have h4 := length_skip_spaces (i.drop 2)
      have h5 : (i.drop 2).length ≤ (i.drop 1).length := by simp; omega
      by_cases hb : (peek i 1 == '&') = true
      · exact ⟨0, true, _, _, by rw [node_ptr_or_ref, if_neg hs, if_pos ha, if_pos hb],
          by omega, fun _ => by omega⟩
      · exact ⟨0, true, _, _, by rw [node_ptr_or_ref, if_neg hs, if_pos ha, if_neg hb],
          by omega, fun _ => by omega⟩
    · obtain ⟨f, b, i2, l2, h, hle, hlt⟩ := node_mem_ptr_total i l
      exact ⟨f, b, i2, l2, by rw [node_ptr_or_ref, if_neg hs, if_neg ha]; exact h, hle, hlt⟩

/-- The loop `while( node_ptr_or_ref( input ) );` ends. -/
theorem node_ptr_or_refs_total (i : List Char) (l : List (layer type)) :
    ∃ f i2 l2, node_ptr_or_refs f i l = some (i2, l2) ∧ i2.length ≤ i.length := by
  obtain ⟨n, hn⟩ : ∃ n, i.length = n := ⟨_, rfl⟩
  induction n using Nat.strong_induction_on generalizing i l with
  | _ n ih =>
    obtain ⟨f1, b, i1, l1, h1, hle1, hlt1⟩ := node_ptr_or_ref_total i l
    cases b with
    | false =>
      exact ⟨f1 + 1, i1, l1, by rw [node_ptr_or_refs, h1], hle1⟩
    | true =>
      have hlt := hlt1 rfl
      obtain ⟨f2, i2, l2, h2, hle2⟩ := ih i1.length (by omega) i1 l1 rfl
      refine ⟨max f1 f2 + 1, i2, l2, ?_, by omega⟩
      rw [node_ptr_or_refs, node_ptr_or_ref_mono h1 (Nat.le_max_left _ _)]
      exact node_ptr_or_refs_mono h2 (Nat.le_max_right _ _)

/-- The loop of `node_basic_type` from the label `read_word` on ends. -/
theorem node_basic_type_read_word_total (i : List Char) (l : List (layer type))
    (c : List Char) (p : Bool) :
    ∃ f b i2 l2, node_basic_type_read_word f i l c p = some (b, i2, l2)
      ∧ i2.length ≤ i.length := by
  obtain ⟨n, hn⟩ : ∃ n, i.length = n := ⟨_, rfl⟩
  induction n using Nat.strong_induction_on generalizing i l c p with
  | _ n ih =>
    obtain ⟨f1, i1, l1, h1, hle1⟩ := node_cv_quals_total i l
    obtain ⟨hn1, hn2⟩ := length_node_name i1 c
    rcases hq : node_name i1 c with ⟨b, i2, c2⟩
    rw [hq] at hn1 hn2
    dsimp only at hn1 hn2
    cases b with
    | true =>
      have hlt := hn2 rfl
      obtain ⟨l3, hl3⟩ : ∃ l3, l3 = (if (!(back_content l1).isEmpty
          && (p && is_primitive_type c2)) = true then
            update_back (fun l => { l with content := l.content ++ [' '] }) l1
          else l1) := ⟨_, rfl⟩
      by_cases hacc : ((back_content l3).isEmpty || (p && is_primitive_type c2)) = true
      · obtain ⟨f2, b2, i3, l4, h2, hle2⟩ := ih i2.length (by omega) i2
          (update_back (fun l => { l with content := l.content ++ c2 }) l3) []
          (p && is_primitive_type c2) rfl
        refine ⟨max f1 f2 + 1, b2, i3, l4, ?_, by omega⟩
        rw [node_basic_type_read_word, node_cv_quals_mono h1 (Nat.le_max_left _ _)]
        dsimp only
        rw [hq]
        dsimp only
        rw [← hl3, if_pos hacc]
        exact node_basic_type_read_word_mono h2 (Nat.le_max_right _ _)
      · refine ⟨f1 + 1, !(back_content l3).isEmpty, i1, l3, ?_, hle1⟩
        rw [node_basic_type_read_word, h1]
        dsimp only
        rw [hq]
        dsimp only
        rw [← hl3, if_neg hacc]
    | false =>
      by_cases hcond : ((!p || (back_content l1).isEmpty) && peek i2 0 == ':'
          && peek i2 1 == ':' && (isalpha (peek i2 2) || peek i2 2 == '_')) = true
      · have h0 : (deref i2 == ':') = true := by
          simp only [Bool.and_eq_true, peek_zero] at hcond
          exact hcond.1.1.2
        have hd1 := length_drop_one_lt i2 (ne_NUL_of_beq h0 (by decide))
        have hd2 : (i2.drop 2).length ≤ (i2.drop 1).length := by simp; omega
        obtain ⟨l3, hl3⟩ : ∃ l3, l3
            = update_back (fun l => { l with content := l.content ++ "::".toList }) l1 :=
          ⟨_, rfl⟩
        obtain ⟨hm1, _⟩ := length_node_name (i2.drop 2) (back_content l3)
        rcases hq2 : node_name (i2.drop 2) (back_content l3) with ⟨b3, i3, d3⟩
        rw [hq2] at hm1
        dsimp only at hm1
        obtain ⟨f2, b2, i4, l4, h2, hle2⟩ := ih i3.length (by omega) i3
          (update_back (fun l => { l with content := d3 }) l3) c2 p rfl
        refine ⟨max f1 f2 + 1, b2, i4, l4, ?_, by omega⟩
        rw [node_basic_type_read_word, node_cv_quals_mono h1 (Nat.le_max_left _ _)]
        dsimp only
        rw [hq]
        dsimp only
        rw [if_pos hcond, ← hl3, hq2]
        exact node_basic_type_read_word_mono h2 (Nat.le_max_right _ _)
      · refine ⟨f1 + 1, !(back_content l1).isEmpty, i2, l1, ?_, by omega⟩
        rw [node_basic_type_read_word, h1]
        dsimp only
        rw [hq]
        dsimp only
        rw [if_neg hcond]

/-- The inner loop of `node_array_func` ends, provided `node_type_qual` and the loop over
the parameters return on every shorter text.  When the loop runs to its end, every round
has moved the cursor. -/
theorem node_array_func_try_total (m : Nat)
    (H : ∀ j : List Char, j.length < m →
      (∀ l hp, ∃ f b i2 l2 hp2, node_type_qual f j l hp = some (b, i2, l2, hp2)
        ∧ i2.length ≤ j.length)
      ∧ (∀ ip l hp, ∃ f i2 l2 hp2, node_array_func_parameters f ip j l hp = some (i2, l2, hp2)
        ∧ i2.length ≤ j.length))
    (i : List Char) (hi : i.length ≤ m) (ip n c : Nat) (bk : List Char)
    (l : List (layer type)) (hp : Nat) :
    ∃ f r, node_array_func_try f ip n c bk i l hp = some r
      ∧ (∀ b i2 l2 h2, r = .returned b i2 l2 h2 → i2 = bk ∨ i2.length ≤ i.length)
      ∧ (∀ i2 l2 h2, r = .completed i2 l2 h2 → i2.length + (n - c) ≤ i.length) := by
  obtain ⟨k, hk⟩ : ∃ k, i.length = k := ⟨_, rfl⟩
  induction k using Nat.strong_induction_on generalizing i c l hp with
  | _ k ih =>
    by_cases hlt : c < n
    · by_cases hb : (deref i == '[') = true
      · -- an array
        have hd := length_drop_one_lt i (ne_NUL_of_beq hb (by decide))
        have hs := length_skip_spaces (i.drop 1)
        have he := length_node_array_func_extent (skip_spaces (i.drop 1)) 0 []
        rcases hx : node_array_func_extent (skip_spaces (i.drop 1)) 0 [] with ⟨i2, content⟩
        rw [hx] at he
        dsimp only at he
        by_cases hnul : (deref i2 == NUL) = true
        · refine ⟨1, .returned false i2 l hp, ?_, ?_, ?_⟩
          · rw [node_array_func_try, if_pos hlt, if_pos hb]
            dsimp only
            rw [hx]
            dsimp only
            rw [if_pos hnul]
          · intro b j l2 h2 hr
            cases hr
            exact Or.inr (by omega)
          · intro j l2 h2 hr
            cases hr
        · have hs2 := length_skip_spaces (i2.drop 1)
          have hd2 : (i2.drop 1).length ≤ i2.length := by simp
          obtain ⟨f, r, hf, hr1, hr2⟩ := ih (skip_spaces (i2.drop 1)).length (by omega)
            (skip_spaces (i2.drop 1)) (by omega) (c + 1)
            (emplace l ip { layer_type := .array, content := content }) hp rfl
          refine ⟨f + 1, r, ?_, ?_, ?_⟩
          · rw [node_array_func_try, if_pos hlt, if_pos hb]
            dsimp only
            rw [hx]
            dsimp only
            rw [if_neg hnul]
            exact hf
          · intro b j l2 h2 hr
            rcases hr1 b j l2 h2 hr with h | h
            · exact Or.inl h
            · exact Or.inr (by omega)
          · intro j l2 h2 hr
            have := hr2 j l2 h2 hr
            omega
      · by_cases hpar : (deref i == '(') = true
        · -- a group or a parameter list
          have hd := length_drop_one_lt i (ne_NUL_of_beq hpar (by decide))
          have hs := length_skip_spaces (i.drop 1)
          obtain ⟨HQ, HP⟩ := H (skip_spaces (i.drop 1)) (by omega)
          have hg : ∃ fq bq iq lq hq, (∀ f, fq ≤ f →
              (if c = 0 then node_type_qual f (skip_spaces (i.drop 1)) l hp
                else some (false, skip_spaces (i.drop 1), l, hp)) = some (bq, iq, lq, hq))
              ∧ iq.length ≤ (skip_spaces (i.drop 1)).length := by
            by_cases hc0 : c = 0
            · obtain ⟨fq, bq, iq, lq, hq, h1, h2⟩ := HQ l hp
              exact ⟨fq, bq, iq, lq, hq,
                fun f hf => by rw [if_pos hc0]; exact node_type_qual_mono h1 hf, h2⟩
            · exact ⟨0, false, _, l, hp, fun f _ => by rw [if_neg hc0], Nat.le_refl _⟩
          obtain ⟨fq, bq, iq, lq, hq, hg1, hg2⟩ := hg
          by_cases hgrp : (decide (c = 0) && bq && deref iq == ')') = true
          · have hiq : (deref iq == ')') = true := by
              simp only [Bool.and_eq_true] at hgrp
              exact hgrp.2
            have hd2 := length_drop_one_lt iq (ne_NUL_of_beq hiq (by decide))
            have hs2 := length_skip_spaces (iq.drop 1)
            obtain ⟨f, r, hf, hr1, hr2⟩ := ih (skip_spaces (iq.drop 1)).length (by omega)
              (skip_spaces (iq.drop 1)) (by omega) (c + 1) lq hq rfl
            refine ⟨fq + f + 1, r, ?_, ?_, ?_⟩
            · rw [node_array_func_try, if_pos hlt, if_neg hb, if_pos hpar]
              dsimp only
              rw [hg1 (fq + f) (by omega)]
              dsimp only
              rw [if_pos hgrp]
              exact node_array_func_try_mono hf (by omega)
            · intro b j l2 h2 hr
              rcases hr1 b j l2 h2 hr with h | h
              · exact Or.inl h
              · exact Or.inr (by omega)
            · intro j l2 h2 hr
              have := hr2 j l2 h2 hr
              omega
          · obtain ⟨fp, ip2, lp, hp2, hpa, hple⟩ := HP ip
              (emplace lq ip { layer_type := .function }) hq
            by_cases hclose : (deref ip2 != ')') = true
            · refine ⟨fq + fp + 1, .returned false bk (resize lp ip) hp2, ?_, ?_, ?_⟩
              · rw [node_array_func_try, if_pos hlt, if_neg hb, if_pos hpar]
                dsimp only
                rw [hg1 (fq + fp) (by omega)]
                dsimp only
                rw [if_neg hgrp, node_array_func_parameters_mono hpa (by omega)]
                dsimp only
                rw [if_pos hclose]
              · intro b j l2 h2 hr
                cases hr
                exact Or.inl rfl
              · intro j l2 h2 hr
                cases hr
            · have hip2 : (deref ip2 == ')') = true := by
                simpa using hclose
              have hd3 := length_drop_one_lt ip2 (ne_NUL_of_beq hip2 (by decide))
              have hs3 := length_skip_spaces (ip2.drop 1)
              obtain ⟨fc, i6, l6, hcv, hcle⟩ := node_cv_quals_total (skip_spaces (ip2.drop 1)) lp
              obtain ⟨f, r, hf, hr1, hr2⟩ := ih i6.length (by omega) i6 (by omega) (c + 1)
                l6 hp2 rfl
              refine ⟨fq + fp + fc + f + 1, r, ?_, ?_, ?_⟩
              · rw [node_array_func_try, if_pos hlt, if_neg hb, if_pos hpar]
                dsimp only
                rw [hg1 (fq + fp + fc + f) (by omega)]
                dsimp only
                rw [if_neg hgrp, node_array_func_parameters_mono hpa (by omega)]
                dsimp only
                rw [if_neg hclose, node_cv_quals_mono hcv (by omega)]
                exact node_array_func_try_mono hf (by omega)
              · intro b j l2 h2 hr
                rcases hr1 b j l2 h2 hr with h | h
                · exact Or.inl h
                · exact Or.inr (by omega)
              · intro j l2 h2 hr
                have := hr2 j l2 h2 hr
                omega
        · refine ⟨1, .returned false bk (resize l ip) hp, ?_, ?_, ?_⟩
          · rw [node_array_func_try, if_pos hlt, if_neg hb, if_neg hpar]
          · intro b j l2 h2 hr
            cases hr
            exact Or.inl rfl
          · intro j l2 h2 hr
            cases hr
    · refine ⟨1, .completed i l hp, ?_, ?_, ?_⟩
      · rw [node_array_func_try, if_neg hlt]
      · intro b j l2 h2 hr
        cases hr
      · intro j l2 h2 hr
        cases hr
        omega

/-- The outer loop of `node_array_func` ends: a round that asks for more suffixes than
the text has characters cannot run to its end. -/
theorem node_array_func_tries_total (m : Nat)
    (H : ∀ j : List Char, j.length < m →
      (∀ l hp, ∃ f b i2 l2 hp2, node_type_qual f j l hp = some (b, i2, l2, hp2)
        ∧ i2.length ≤ j.length)
      ∧ (∀ ip l hp, ∃ f i2 l2 hp2, node_array_func_parameters f ip j l hp = some (i2, l2, hp2)
        ∧ i2.length ≤ j.length))
    (i : List Char) (hi : i.length ≤ m) (ip n : Nat) (l : List (layer type)) (hp : Nat) :
    ∃ f b i2 l2 hp2, node_array_func_tries f ip n i l hp = some (b, i2, l2, hp2)
      ∧ i2.length ≤ i.length := by
  obtain ⟨d, hd⟩ : ∃ d, i.length + 1 - n = d := ⟨_, rfl⟩
  induction d using Nat.strong_induction_on generalizing n l hp with
  | _ d ih =>
    obtain ⟨ft, r, ht, hr1, hr2⟩ := node_array_func_try_total m H i hi ip n 0 i l hp
    cases r with
    | returned b i2 l2 h2 =>
      refine ⟨ft + 1, b, i2, l2, h2, ?_, ?_⟩
      · rw [node_array_func_tries, ht]
      · rcases hr1 b i2 l2 h2 rfl with h | h
        · rw [h]
        · exact h
    | completed i2 l2 h2 =>
      have hc := hr2 i2 l2 h2 rfl
      by_cases hstop : (deref i2 == NUL || deref i2 == ')' || deref i2 == ',') = true
      · refine ⟨ft + 1, decide (n > 0), i2, l2, h2, ?_, by omega⟩
        rw [node_array_func_tries, ht]
        dsimp only
        rw [if_pos hstop]
      · obtain ⟨f, b, i3, l3, h3, hf, hle⟩ := ih (i.length + 1 - (n + 1)) (by omega) (n + 1)
          (resize l2 ip) h2 rfl
        refine ⟨ft + f + 1, b, i3, l3, h3, ?_, hle⟩
        rw [node_array_func_tries, node_array_func_try_mono ht (by omega : ft ≤ ft + f)]
        dsimp only
        rw [if_neg hstop]
        exact node_array_func_tries_mono hf (by omega)

/-- Every function of the mutual recursion returns, and none moves the cursor back. -/
theorem parser_total (m : Nat) :
    ∀ i : List Char, i.length = m →
      (∀ l hp, ∃ f b i2 l2 hp2, node_type_qual f i l hp = some (b, i2, l2, hp2)
        ∧ i2.length ≤ i.length)
      ∧ (∀ ip l hp, ∃ f i2 l2 hp2, node_array_func_parameters f ip i l hp = some (i2, l2, hp2)
        ∧ i2.length ≤ i.length)
      ∧ (∀ l hp, ∃ f b i2 l2 hp2, node_type f i l hp = some (b, i2, l2, hp2)
        ∧ i2.length ≤ i.length)
      ∧ (∀ l hp, ∃ f b i2 l2 hp2, node_array_func f i l hp = some (b, i2, l2, hp2)
        ∧ i2.length ≤ i.length) := by
  induction m using Nat.strong_induction_on with
  | _ m ih =>
    have H : ∀ j : List Char, j.length < m →
        (∀ l hp, ∃ f b i2 l2 hp2, node_type_qual f j l hp = some (b, i2, l2, hp2)
          ∧ i2.length ≤ j.length)
        ∧ (∀ ip l hp, ∃ f i2 l2 hp2,
          node_array_func_parameters f ip j l hp = some (i2, l2, hp2)
          ∧ i2.length ≤ j.length) :=
      fun j hj => ⟨(ih j.length hj j rfl).1, (ih j.length hj j rfl).2.1⟩
    -- `node_array_func` on every text of length at most `m`
    have HA : ∀ i : List Char, i.length ≤ m → ∀ l hp, ∃ f b i2 l2 hp2,
        node_array_func f i l hp = some (b, i2, l2, hp2) ∧ i2.length ≤ i.length := by
      intro i hi l hp
      by_cases hnul : (deref i == NUL) = true
      · exact ⟨1, false, i, l, hp, by rw [node_array_func, if_pos hnul], Nat.le_refl _⟩
      · obtain ⟨f, b, i2, l2, hp2, hf, hle⟩ :=
          node_array_func_tries_total m H i hi l.length 0 l hp
        exact ⟨f + 1, b, i2, l2, hp2, by rw [node_array_func, if_neg hnul]; exact hf, hle⟩
    -- `node_type_qual` on every text of length at most `m`
    have HQ : ∀ i : List Char, i.length ≤ m → ∀ l hp, ∃ f b i2 l2 hp2,
        node_type_qual f i l hp = some (b, i2, l2, hp2) ∧ i2.length ≤ i.length := by
      intro i hi l hp
      obtain ⟨f1, b1, i1, l1, h1, hle1, _⟩ := node_ptr_or_ref_total i l
      cases b1 with
      | false =>
        obtain ⟨f2, b2, i2, l2, hp2, h2, hle2⟩ := HA i1 (by omega) l1 hp
        refine ⟨f1 + f2 + 1, b2, i2, l2, hp2, ?_, by omega⟩
        rw [node_type_qual, node_ptr_or_ref_mono h1 (by omega : f1 ≤ f1 + f2)]
        exact node_array_func_mono h2 (by omega)
      | true =>
        obtain ⟨f2, i2, l2, h2, hle2⟩ := node_ptr_or_refs_total i1 l1
        obtain ⟨f3, b3, i3, l3, hp3, h3, hle3⟩ := HA i2 (by omega) l2 hp
        refine ⟨f1 + f2 + f3 + 1, true, i3, l3, hp3, ?_, by omega⟩
        rw [node_type_qual, node_ptr_or_ref_mono h1 (by omega : f1 ≤ f1 + f2 + f3)]
        dsimp only
        rw [node_ptr_or_refs_mono h2 (by omega : f2 ≤ f1 + f2 + f3)]
        dsimp only
        rw [node_array_func_mono h3 (by omega : f3 ≤ f1 + f2 + f3)]
    -- `node_type` on every text of length at most `m`
    have HT : ∀ i : List Char, i.length ≤ m → ∀ l hp, ∃ f b i2 l2 hp2,
        node_type f i l hp = some (b, i2, l2, hp2) ∧ i2.length ≤ i.length := by
      intro i hi l hp
      have hs := length_skip_spaces i
      obtain ⟨f1, b1, i1, l1, h1, hle1⟩ := node_basic_type_read_word_total (skip_spaces i)
        (l ++ [{ layer_type := .type }]) [] true
      cases b1 with
      | false =>
        refine ⟨f1 + 1, false, i1, l1.dropLast, hp, ?_, by omega⟩
        rw [node_type, node_basic_type, h1]
      | true =>
        obtain ⟨f2, b2, i2, l2, hp2, h2, hle2⟩ := HQ i1 (by omega) l1 hp
        refine ⟨f1 + f2 + 1, true, i2, l2, hp2, ?_, by omega⟩
        rw [node_type, node_basic_type,
          node_basic_type_read_word_mono h1 (by omega : f1 ≤ f1 + f2)]
        dsimp only
        rw [node_type_qual_mono h2 (by omega : f2 ≤ f1 + f2)]
    intro i hi
    refine ⟨HQ i (by omega), ?_, HT i (by omega), HA i (by omega)⟩
    -- the loop over the parameters
    intro ip l hp
    obtain ⟨f1, b1, i1, l1, hp1, h1, hle1⟩ := HT i (by omega) [] hp
    by_cases hempty : l1.isEmpty = true
    · refine ⟨f1 + 1, i, l, hp1, ?_, Nat.le_refl _⟩
      rw [node_array_func_parameters, h1]
      dsimp only
      rw [if_pos hempty]
    · by_cases hcomma : (deref i1 != ',') = true
      · refine ⟨f1 + 1, i1, push_argument l ip { addr := hp1, pointee := .mk l1 }, hp1 + 1,
          ?_, hle1⟩
        rw [node_array_func_parameters, h1]
        dsimp only
        rw [if_neg hempty, if_pos hcomma]
      · have hc : (deref i1 == ',') = true := by simpa using hcomma
        have hd := length_drop_one_lt i1 (ne_NUL_of_beq hc (by decide))
        have hs := length_skip_spaces (i1.drop 1)
        obtain ⟨f2, i2, l2, hp2, h2, hle2⟩ :=
          (ih (skip_spaces (i1.drop 1)).length (by omega) (skip_spaces (i1.drop 1)) rfl).2.1 ip
            (push_argument l ip { addr := hp1, pointee := .mk l1 }) (hp1 + 1)
        refine ⟨f1 + f2 + 1, i2, l2, hp2, ?_, by omega⟩
        rw [node_array_func_parameters, node_type_mono h1 (by omega : f1 ≤ f1 + f2)]
        dsimp only
        rw [if_neg hempty, if_neg hcomma]
        exact node_array_func_parameters_mono h2 (by omega)

theorem node_mem_ptr_mono {f f' : Nat} {input : List Char} {layers : List (layer type)}
    {r : Bool × List Char × List (layer type)} (h : node_mem_ptr f input layers = some r)
    (hle : f ≤ f') : node_mem_ptr f' input layers = some r :=
  fuel_mono (fun f => node_mem_ptr f input layers)
    (fun f r => node_mem_ptr_succ f input layers r) f f' r hle h

theorem type.parse_mono {f f' heap : Nat} {val : List Char} {r : type × Nat}
    (h : type.parse f heap val = some r) (hle : f ≤ f') : type.parse f' heap val = some r := by
  unfold type.parse at h ⊢
  generalize hn : node_type f (c_str val) [] heap = o at h
  cases o with
  | none => exact absurd h (by simp)
  | some v => rw [node_type_mono hn hle]; exact h

/-- C20: parsing terminates on every input.  For every text and every start of the
address counter there is a fuel from which on the constructor returns one and the same
Type, and the same holds, on every text and every layer stack, for each of the
productions `node_type`, `node_basic_type`, `node_type_qual`, `node_ptr_or_ref`,
`node_mem_ptr` and `node_array_func`, with its loop over `num_tries` and its recursion
into grouped declarators and parameter types (`node_name` and `node_cv_qual` are loops
over the characters and take no fuel). -/
theorem C20_parsing_terminates (val input : List Char) (layers : List (layer type))
    (heap : Nat) :
    (∃ fuel r, ∀ fuel', fuel ≤ fuel' → type.parse fuel' heap val = some r)
      ∧ (∃ fuel r, ∀ fuel', fuel ≤ fuel' → node_type fuel' input layers heap = some r)
      ∧ (∃ fuel r, ∀ fuel', fuel ≤ fuel' → node_basic_type fuel' input layers = some r)
      ∧ (∃ fuel r, ∀ fuel', fuel ≤ fuel' → node_type_qual fuel' input layers heap = some r)
      ∧ (∃ fuel r, ∀ fuel', fuel ≤ fuel' → node_ptr_or_ref fuel' input layers = some r)
      ∧ (∃ fuel r, ∀ fuel', fuel ≤ fuel' → node_mem_ptr fuel' input layers = some r)
      ∧ (∃ fuel r, ∀ fuel', fuel ≤ fuel' → node_array_func fuel' input layers heap = some r) := by
  refine ⟨?_, ?_, ?_, ?_, ?_, ?_, ?_⟩
  · obtain ⟨f, b, i2, l2, hp2, h, _⟩ := (parser_total _ (c_str val) rfl).2.2.1 [] heap
    have hp : type.parse f heap val = some (.mk l2, hp2) := by
      unfold type.parse
      rw [h]
    exact ⟨f, _, fun f' hf => type.parse_mono hp hf⟩
  · obtain ⟨f, b, i2, l2, hp2, h, _⟩ := (parser_total _ input rfl).2.2.1 layers heap
    exact ⟨f, _, fun f' hf => node_type_mono h hf⟩
  · obtain ⟨f, b, i2, l2, h, _⟩ := node_basic_type_read_word_total input layers [] true
    exact ⟨f, _, fun f' hf => node_basic_type_read_word_mono h hf⟩
  · obtain ⟨f, b, i2, l2, hp2, h, _⟩ := (parser_total _ input rfl).1 layers heap
    exact ⟨f, _, fun f' hf => node_type_qual_mono h hf⟩
  · obtain ⟨f, b, i2, l2, h, _⟩ := node_ptr_or_ref_total input layers
    exact ⟨f, _, fun f' hf => node_ptr_or_ref_mono h hf⟩
  · obtain ⟨f, b, i2, l2, h, _⟩ := node_mem_ptr_total input layers
    exact ⟨f, _, fun f' hf => node_mem_ptr_mono h hf⟩
  · obtain ⟨f, b, i2, l2, hp2, h, _⟩ := (parser_total _ input rfl).2.2.2 layers heap
    exact ⟨f, _, fun f' hf => node_array_func_mono h hf⟩

/-! ## The layers a production adds -/

theorem base_first_layer_eq (l : layer type) (first : Bool) :
    base_first_layer l first
      = ((if first then decide (l.layer_type = .type) && !l.content.isEmpty
            else decide (l.layer_type ≠ .type))
          && (decide (l.layer_type ≠ .function) || base_first_args l.arguments)) := by
  cases l
  simp [base_first_layer]

theorem base_first_layers_append (s t : List (layer type)) :
    base_first_layers (s ++ t) false
      = (base_first_layers s false && base_first_layers t false) := by
  induction s with
  | nil => simp [base_first_layers]
  | cons a s ih => simp [base_first_layers, ih, Bool.and_assoc]

theorem base_first_args_append (as bs : List (shared_ptr type)) :
    base_first_args (as ++ bs) = (base_first_args as && base_first_args bs) := by
  induction as with
  | nil => simp [base_first_args]
  | cons a as ih => simp [base_first_args, ih, Bool.and_assoc]

theorem update_back_append {α : Type} (f : α → α) (init s : List α) (hs : s ≠ []) :
    update_back f (init ++ s) = init ++ update_back f s := by
  induction init with
  | nil => rfl
  | cons a init ih =>
    cases hi : init ++ s with
    | nil => simp at hi; exact absurd hi.2 hs
    | cons b r =>
      have h : update_back f (a :: (init ++ s)) = a :: update_back f (init ++ s) := by
        rw [hi]
        rfl
      rw [List.cons_append, h, ih, List.cons_append]

theorem update_back_id {α : Type} (l : List α) : update_back (fun x => x) l = l := by
  induction l with
  | nil => rfl
  | cons a rest ih =>
    cases rest with
    | nil => rfl
    | cons b rest =>
      have h : update_back (fun x : α => x) (a :: b :: rest)
          = a :: update_back (fun x => x) (b :: rest) := rfl
      rw [h, ih]

theorem update_back_comp {α : Type} (f g : α → α) (l : List α) :
    update_back g (update_back f l) = update_back (fun x => g (f x)) l := by
  induction l with
  | nil => rfl
  | cons a rest ih =>
    cases rest with
    | nil => rfl
    | cons b rest =>
      have h1 : update_back f (a :: b :: rest) = a :: update_back f (b :: rest) := rfl
      have h2 : update_back (fun x => g (f x)) (a :: b :: rest)
          = a :: update_back (fun x => g (f x)) (b :: rest) := rfl
      have hne : update_back f (b :: rest) ≠ [] := by
        intro h
        exact absurd ((update_back_eq_nil f (b :: rest)).mp h) (by simp)
      rw [h1, h2, ← ih]
      cases hu : update_back f (b :: rest) with
      | nil => exact absurd hu hne
      | cons c r => rfl

theorem length_update_back {α : Type} (f : α → α) (l : List α) :
    (update_back f l).length = l.length := by
  induction l with
  | nil => rfl
  | cons a rest ih =>
    cases rest with
    | nil => rfl
    | cons b rest =>
      have h : update_back f (a :: b :: rest) = a :: update_back f (b :: rest) := rfl
      rw [h, List.length_cons, ih]
      rfl

theorem base_first_layers_update_back (g : layer type → layer type)
    (hg : ∀ x, (g x).layer_type = x.layer_type ∧ (g x).arguments = x.arguments)
    (s : List (layer type)) :
    base_first_layers (update_back g s) false = base_first_layers s false := by
  induction s with
  | nil => rfl
  | cons a rest ih =>
    cases rest with
    | nil =>
      have h : update_back g [a] = [g a] := rfl
      rw [h]
      simp only [base_first_layers, base_first_layer_eq, (hg a).1, (hg a).2, Bool.false_eq_true,
        if_false]
    | cons b rest =>
      have h : update_back g (a :: b :: rest) = a :: update_back g (b :: rest) := rfl
      rw [h]
      simp only [base_first_layers] at ih ⊢
      rw [ih]

theorem emplace_append {α : Type} (init s : List α) (x : α) :
    emplace (init ++ s) init.length x = init ++ x :: s := by
  simp [emplace]

theorem resize_append (init s : List (layer type)) :
    resize (init ++ s) init.length = init := by
  simp [resize]

theorem push_argument_append (init s : List (layer type)) (p : shared_ptr type) :
    push_argument (init ++ s) init.length p
      = init ++ (match s with
          | [] => []
          | l :: rest => { l with arguments := l.arguments ++ [p] } :: rest) := by
  simp [push_argument]

theorem node_cv_qual_layers (input : List Char) (layers : List (layer type)) :
    ∃ g : layer type → layer type,
      (∀ x, (g x).layer_type = x.layer_type ∧ (g x).content = x.content
        ∧ (g x).arguments = x.arguments)
      ∧ (node_cv_qual input layers).2.2 = update_back g layers := by
  unfold node_cv_qual
  split
  · exact ⟨fun l => { l with is_const := true }, fun x => ⟨rfl, rfl, rfl⟩, rfl⟩
  · split
    · exact ⟨fun l => { l with is_volatile := true }, fun x => ⟨rfl, rfl, rfl⟩, rfl⟩
    · exact ⟨fun x => x, fun x => ⟨rfl, rfl, rfl⟩, (update_back_id layers).symm⟩

theorem node_cv_quals_layers (f : Nat) :
    ∀ (input : List Char) (layers : List (layer type)) (i2 : List Char)
      (l2 : List (layer type)), node_cv_quals f input layers = some (i2, l2) →
      ∃ g : layer type → layer type,
        (∀ x, (g x).layer_type = x.layer_type ∧ (g x).content = x.content
          ∧ (g x).arguments = x.arguments)
        ∧ l2 = update_back g layers := by
  induction f with
  | zero => intro input layers i2 l2 h; simp [node_cv_quals] at h
  | succ f ih =>
    intro input layers i2 l2 h
    rw [node_cv_quals] at h
    obtain ⟨g, hg, hl⟩ := node_cv_qual_layers input layers
    generalize hq : node_cv_qual input layers = q at h hl
    obtain ⟨b, i1, l1⟩ := q
    dsimp only at hl
    cases b with
    | true =>
      dsimp only at h
      obtain ⟨g2, hg2, hl2⟩ := ih _ _ _ _ h
      refine ⟨fun x => g2 (g x), fun x => ?_, ?_⟩
      · exact ⟨((hg2 (g x)).1).trans (hg x).1, ((hg2 (g x)).2.1).trans (hg x).2.1,
          ((hg2 (g x)).2.2).trans (hg x).2.2⟩
      · rw [hl2, hl, update_back_comp]
    | false =>
      dsimp only at h
      simp only [Option.some.injEq, Prod.mk.injEq] at h
      exact ⟨g, hg, by rw [← h.2, hl]⟩

theorem node_cv_quals_append (f : Nat) (input : List Char) (init s : List (layer type))
    (i2 : List Char) (l2 : List (layer type)) (hs : s ≠ [])
    (h : node_cv_quals f input (init ++ s) = some (i2, l2)) :
    ∃ s2, l2 = init ++ s2 ∧ s2.length = s.length
      ∧ base_first_layers s2 false = base_first_layers s false := by
  obtain ⟨g, hg, hl⟩ := node_cv_quals_layers f input _ i2 l2 h
  refine ⟨update_back g s, ?_, length_update_back g s, ?_⟩
  · rw [hl, update_back_append g init s hs]
  · exact base_first_layers_update_back g (fun x => ⟨(hg x).1, (hg x).2.2⟩) s

theorem update_back_singleton {α : Type} (f : α → α) (a : α) : update_back f [a] = [f a] := rfl

theorem back_content_singleton (l : layer type) : back_content [l] = l.content := rfl

theorem node_basic_type_read_word_singleton (f : Nat) :
    ∀ (input : List Char) (l : layer type) (content : List Char) (primitive b : Bool)
      (i2 : List Char) (l2 : List (layer type)),
      node_basic_type_read_word f input [l] content primitive = some (b, i2, l2) →
      ∃ l', l2 = [l'] ∧ l'.layer_type = l.layer_type ∧ l'.arguments = l.arguments
        ∧ b = !l'.content.isEmpty := by
  induction f with
  | zero => intro input l content primitive b i2 l2 h; simp [node_basic_type_read_word] at h
  | succ f ih =>
    intro input l content primitive b i2 l2 h
    rw [node_basic_type_read_word] at h
    generalize hq : node_cv_quals f input [l] = q at h
    cases q with
    | none => simp at h
    | some v =>
      obtain ⟨i1, l1⟩ := v
      obtain ⟨g, hg, hl⟩ := node_cv_quals_layers f input _ i1 l1 hq
      rw [update_back_singleton] at hl
      subst hl
      dsimp only at h
      generalize hn : node_name i1 content = n at h
      obtain ⟨b1, i3, c3⟩ := n
      cases b1 with
      | true =>
        dsimp only at h
        simp only [update_back_singleton, back_content_singleton] at h
        split at h
        · split at h
          · obtain ⟨l', h1, h2, h3, h4⟩ := ih _ _ _ _ _ _ _ h
            exact ⟨l', h1, h2.trans (hg l).1, h3.trans (hg l).2.2, h4⟩
          · simp only [Option.some.injEq, Prod.mk.injEq] at h
            exact ⟨_, h.2.2.symm, (hg l).1, (hg l).2.2, by rw [← h.1]; rfl⟩
        · split at h
          · obtain ⟨l', h1, h2, h3, h4⟩ := ih _ _ _ _ _ _ _ h
            exact ⟨l', h1, h2.trans (hg l).1, h3.trans (hg l).2.2, h4⟩
          · simp only [Option.some.injEq, Prod.mk.injEq] at h
            exact ⟨_, h.2.2.symm, (hg l).1, (hg l).2.2, by rw [← h.1]; rfl⟩
      | false =>
        simp only [update_back_singleton, back_content_singleton] at h
        split at h
        · generalize hm : node_name (List.drop 2 i3) _ = m at h
          obtain ⟨b4, i4, d4⟩ := m
          dsimp only at h
          obtain ⟨l', h1, h2, h3, h4⟩ := ih _ _ _ _ _ _ _ h
          exact ⟨l', h1, h2.trans (hg l).1, h3.trans (hg l).2.2, h4⟩
        · simp only [Option.some.injEq, Prod.mk.injEq] at h
          exact ⟨g l, h.2.2.symm, (hg l).1, (hg l).2.2, by rw [← h.1]⟩

theorem node_mem_ptr_appends (f : Nat) (input : List Char) (layers : List (layer type))
    (b : Bool) (i2 : List Char) (l2 : List (layer type))
    (h : node_mem_ptr f input layers = some (b, i2, l2)) :
    ∃ s, l2 = layers ++ s ∧ base_first_layers s false = true := by
  unfold node_mem_ptr at h
  dsimp only at h
  generalize hs : node_mem_ptr_start f input [] = q at h
  cases q with
  | none => simp at h
  | some v =>
    obtain ⟨i1, c1⟩ := v
    dsimp only at h
    split at h
    · simp only [Option.some.injEq, Prod.mk.injEq] at h
      exact ⟨[], by rw [← h.2.2]; simp, rfl⟩
    · generalize hq : node_cv_quals f _ _ = q at h
      cases q with
      | none => simp at h
      | some v =>
        obtain ⟨i3, l3⟩ := v
        simp only [Option.some.injEq, Prod.mk.injEq] at h
        obtain ⟨s2, h1, _, h3⟩ := node_cv_quals_append f _ layers _ i3 l3 (by simp) hq
        exact ⟨s2, by rw [← h.2.2, h1], by rw [h3]; rfl⟩

theorem node_ptr_or_ref_appends (f : Nat) (input : List Char) (layers : List (layer type))
    (b : Bool) (i2 : List Char) (l2 : List (layer type))
    (h : node_ptr_or_ref f input layers = some (b, i2, l2)) :
    ∃ s, l2 = layers ++ s ∧ base_first_layers s false = true := by
  unfold node_ptr_or_ref at h
  dsimp only at h
  split at h
  · generalize hq : node_cv_quals f _ _ = q at h
    cases q with
    | none => simp at h
    | some v =>
      obtain ⟨i3, l3⟩ := v
      simp only [Option.some.injEq, Prod.mk.injEq] at h
      obtain ⟨s2, h1, _, h3⟩ := node_cv_quals_append f _ layers _ i3 l3 (by simp) hq
      exact ⟨s2, by rw [← h.2.2, h1], by rw [h3]; rfl⟩
  · split at h
    · split at h
      · simp only [Option.some.injEq, Prod.mk.injEq] at h
        exact ⟨_, h.2.2.symm, rfl⟩
      · simp only [Option.some.injEq, Prod.mk.injEq] at h
        exact ⟨_, h.2.2.symm, rfl⟩
    · exact node_mem_ptr_appends f input layers b i2 l2 h

theorem node_ptr_or_refs_appends (f : Nat) :
    ∀ (input : List Char) (layers : List (layer type)) (i2 : List Char)
      (l2 : List (layer type)), node_ptr_or_refs f input layers = some (i2, l2) →
      ∃ s, l2 = layers ++ s ∧ base_first_layers s false = true := by
  induction f with
  | zero => intro input layers i2 l2 h; simp [node_ptr_or_refs] at h
  | succ f ih =>
    intro input layers i2 l2 h
    rw [node_ptr_or_refs] at h
    generalize hq : node_ptr_or_ref f input layers = q at h
    cases q with
    | none => simp at h
    | some v =>
      obtain ⟨b, i1, l1⟩ := v
      obtain ⟨s1, h1, g1⟩ := node_ptr_or_ref_appends f input layers b i1 l1 hq
      cases b with
      | true =>
        dsimp only at h
        obtain ⟨s2, h2, g2⟩ := ih _ _ _ _ h
        refine ⟨s1 ++ s2, by rw [h2, h1, List.append_assoc], ?_⟩
        rw [base_first_layers_append, g1, g2]
        rfl
      | false =>
        dsimp only at h
        simp only [Option.some.injEq, Prod.mk.injEq] at h
        exact ⟨s1, by rw [← h.2, h1], g1⟩

theorem base_first_layers_push (l : layer type) (rest : List (layer type)) (p : shared_ptr type)
    (hp : base_first_arg p = true) (h : base_first_layers (l :: rest) false = true) :
    base_first_layers ({ l with arguments := l.arguments ++ [p] } :: rest) false = true := by
  simp only [base_first_layers, base_first_layer_eq, base_first_args_append, base_first_args,
    hp, Bool.and_true] at h ⊢
  exact h

theorem push_argument_good (init s : List (layer type)) (p : shared_ptr type)
    (hp : base_first_arg p = true) (hg : base_first_layers s false = true) :
    ∃ s2, push_argument (init ++ s) init.length p = init ++ s2
      ∧ base_first_layers s2 false = true ∧ s.length ≤ s2.length := by
  cases s with
  | nil => exact ⟨[], by simp [push_argument], rfl, le_refl _⟩
  | cons l rest =>
    exact ⟨{ l with arguments := l.arguments ++ [p] } :: rest, by simp [push_argument],
      base_first_layers_push l rest p hp hg, le_refl _⟩

/-- What every production of the mutual block does to `layers`.  `node_type` on the empty
vector leaves a Base-first sequence.  The other productions only add layers behind the
ones they find, none of the kind Base, with Base-first arguments.  A `node_array_func`
that returns `false` has put the cursor and the layers back, unless the cursor is at the
end of the text. -/
theorem parser_layers (f : Nat) :
    (∀ i hp b i2 l2 hp2, node_type f i [] hp = some (b, i2, l2, hp2) →
        base_first_layers l2 true = true)
      ∧ (∀ i l hp b i2 l2 hp2, node_type_qual f i l hp = some (b, i2, l2, hp2) →
          ∃ s, l2 = l ++ s ∧ base_first_layers s false = true)
      ∧ (∀ i l hp b i2 l2 hp2, node_array_func f i l hp = some (b, i2, l2, hp2) →
          (∃ s, l2 = l ++ s ∧ base_first_layers s false = true)
            ∧ (b = false → (i2 = i ∧ l2 = l) ∨ deref i2 = NUL))
      ∧ (∀ ip n i l hp b i2 l2 hp2, l.length = ip →
          node_array_func_tries f ip n i l hp = some (b, i2, l2, hp2) →
          (∃ s, l2 = l ++ s ∧ base_first_layers s false = true)
            ∧ (b = false → (i2 = i ∧ l2 = l) ∨ deref i2 = NUL))
      ∧ (∀ ip n c bk i init s hp r, init.length = ip → base_first_layers s false = true →
          node_array_func_try f ip n c bk i (init ++ s) hp = some r →
          (∀ b i2 l2 hp2, r = .returned b i2 l2 hp2 →
              (∃ s2, l2 = init ++ s2 ∧ base_first_layers s2 false = true)
                ∧ b = false ∧ ((i2 = bk ∧ l2 = init) ∨ deref i2 = NUL))
            ∧ (∀ i2 l2 hp2, r = .completed i2 l2 hp2 →
              (∃ s2, l2 = init ++ s2 ∧ base_first_layers s2 false = true)
                ∧ (n ≤ c → i2 = i ∧ l2 = init ++ s)))
      ∧ (∀ ip i init s hp i2 l2 hp2, init.length = ip → base_first_layers s false = true →
          node_array_func_parameters f ip i (init ++ s) hp = some (i2, l2, hp2) →
          ∃ s2, l2 = init ++ s2 ∧ base_first_layers s2 false = true
            ∧ s.length ≤ s2.length) := by
  induction f with
  | zero =>
    refine ⟨?_, ?_, ?_, ?_, ?_, ?_⟩ <;> intros <;> rename_i h
    · simp [node_type] at h
    · simp [node_type_qual] at h
    · simp [node_array_func] at h
    · simp [node_array_func_tries] at h
    · simp [node_array_func_try] at h
    · simp [node_array_func_parameters] at h
  | succ f ih =>
    obtain ⟨ih1, ih2, ih3, ih4, ih5, ih6⟩ := ih
    refine ⟨?_, ?_, ?_, ?_, ?_, ?_⟩
    · intro i hp b i2 l2 hp2 h
      rw [node_type] at h
      rw [List.nil_append] at h
      generalize hb : node_basic_type f _ _ = ob at h
      cases ob with
      | none => simp at h
      | some v =>
        obtain ⟨b1, i1, l1⟩ := v
        obtain ⟨l', h1, h2, h3, h4⟩ := node_basic_type_read_word_singleton f _ _ _ _ _ _ _ hb
        subst h1
        cases b1 with
        | false =>
          simp only [Option.some.injEq, Prod.mk.injEq] at h
          rw [← h.2.2.1]
          rfl
        | true =>
          dsimp only at h
          generalize hq : node_type_qual f _ _ _ = oq at h
          cases oq with
          | none => simp at h
          | some w =>
            obtain ⟨b3, i3, l3, hp3⟩ := w
            simp only [Option.some.injEq, Prod.mk.injEq] at h
            obtain ⟨s, hs, hg⟩ := ih2 _ _ _ _ _ _ _ hq
            rw [← h.2.2.1, hs]
            simp only [List.singleton_append, base_first_layers, base_first_layer_eq, h2]
            simp [← h4, hg]
    · intro i l hp b i2 l2 hp2 h
      rw [node_type_qual] at h
      generalize hb : node_ptr_or_ref f _ _ = ob at h
      cases ob with
      | none => simp at h
      | some v =>
        obtain ⟨b1, i1, l1⟩ := v
        obtain ⟨s1, h1, g1⟩ := node_ptr_or_ref_appends f _ _ _ _ _ hb
        cases b1 with
        | false =>
          dsimp only at h
          obtain ⟨⟨s2, h2, g2⟩, _⟩ := ih3 _ _ _ _ _ _ _ h
          refine ⟨s1 ++ s2, by rw [h2, h1, List.append_assoc], ?_⟩
          rw [base_first_layers_append, g1, g2]
          rfl
        | true =>
          dsimp only at h
          generalize hq : node_ptr_or_refs f _ _ = oq at h
          cases oq with
          | none => simp at h
          | some w =>
            obtain ⟨i3, l3⟩ := w
            obtain ⟨s3, h3, g3⟩ := node_ptr_or_refs_appends f _ _ _ _ hq
            dsimp only at h
            generalize ha : node_array_func f _ _ _ = oa at h
            cases oa with
            | none => simp at h
            | some u =>
              obtain ⟨b4, i4, l4, hp4⟩ := u
              obtain ⟨⟨s4, h4, g4⟩, _⟩ := ih3 _ _ _ _ _ _ _ ha
              simp only [Option.some.injEq, Prod.mk.injEq] at h
              refine ⟨s1 ++ (s3 ++ s4), ?_, ?_⟩
              · rw [← h.2.2.1, h4, h3, h1, List.append_assoc, List.append_assoc]
              · rw [base_first_layers_append, base_first_layers_append, g1, g3, g4]
                rfl
    · intro i l hp b i2 l2 hp2 h
      rw [node_array_func] at h
      split at h
      · simp only [Option.some.injEq, Prod.mk.injEq] at h
        refine ⟨⟨[], by rw [← h.2.2.1]; simp, rfl⟩, fun _ => Or.inl ⟨h.2.1.symm, h.2.2.1.symm⟩⟩
      · exact ih4 _ _ _ _ _ _ _ _ _ rfl h
    · intro ip n i l hp b i2 l2 hp2 hl h
      rw [node_array_func_tries] at h
      generalize hb : node_array_func_try f _ _ _ _ _ _ _ = ob at h
      cases ob with
      | none => simp at h
      | some v =>
        have hb2 : node_array_func_try f ip n 0 i i (l ++ []) hp = some v := by
          rw [List.append_nil]
          exact hb
        obtain ⟨hr, hc⟩ := ih5 ip n 0 i i l [] hp v hl rfl hb2
        cases v with
        | returned b1 i1 l1 hp1 =>
          simp only [Option.some.injEq, Prod.mk.injEq] at h
          obtain ⟨⟨s2, h2, g2⟩, hf, hrest⟩ := hr _ _ _ _ rfl
          rw [← h.2.1, ← h.2.2.1]
          exact ⟨⟨s2, h2, g2⟩, fun _ => hrest⟩
        | completed i1 l1 hp1 =>
          obtain ⟨⟨s2, h2, g2⟩, hn⟩ := hc _ _ _ rfl
          dsimp only at h
          split at h
          · simp only [Option.some.injEq, Prod.mk.injEq] at h
            rw [← h.2.1, ← h.2.2.1]
            refine ⟨⟨s2, h2, g2⟩, fun hbf => ?_⟩
            have hn0 : n ≤ 0 := by
              rw [hbf] at h
              have := h.1
              simp only [gt_iff_lt, decide_eq_false_iff_not, not_lt] at this
              exact this
            have := hn hn0
            rw [List.append_nil] at this
            exact Or.inl this
          · have hres : resize l1 ip = l := by
              rw [h2, ← hl, resize_append]
            rw [hres] at h
            exact ih4 _ _ _ _ _ _ _ _ _ hl h
    · intro ip n c bk i init s hp r hl hg h
      rw [node_array_func_try] at h
      subst hl
      split at h
      · rename_i hcn
        split at h
        · dsimp only at h
          generalize he : node_array_func_extent _ 0 [] = e at h
          obtain ⟨i1, c1⟩ := e
          dsimp only at h
          split at h
          · rename_i hnul
            simp only [Option.some.injEq] at h
            subst h
            refine ⟨?_, ?_⟩
            · intro b i2 l2 hp2 hr
              simp only [loop_exit.returned.injEq] at hr
              rw [← hr.1, ← hr.2.1, ← hr.2.2.1]
              refine ⟨⟨s, rfl, hg⟩, rfl, Or.inr ?_⟩
              simpa using hnul
            · intro i2 l2 hp2 hr
              simp at hr
          · rw [emplace_append] at h
            obtain ⟨hr, hc⟩ := ih5 _ _ _ _ _ _ _ _ _ rfl
              (by simp only [base_first_layers, base_first_layer_eq, hg]; rfl) h
            refine ⟨hr, ?_⟩
            intro i2 l2 hp2 hx
            exact ⟨(hc _ _ _ hx).1, fun hle => absurd hcn (by omega)⟩
        · split at h
          · dsimp only at h
            generalize hgr : (if c = 0 then node_type_qual f _ _ _ else _) = gr at h
            cases gr with
            | none => simp at h
            | some w =>
              obtain ⟨b1, i1, l1, hp1⟩ := w
              have hl1 : ∃ s1, l1 = init ++ s1 ∧ base_first_layers s1 false = true := by
                split at hgr
                · obtain ⟨s1, h1, g1⟩ := ih2 _ _ _ _ _ _ _ hgr
                  refine ⟨s ++ s1, by rw [h1, List.append_assoc], ?_⟩
                  rw [base_first_layers_append, hg, g1]
                  rfl
                · simp only [Option.some.injEq, Prod.mk.injEq] at hgr
                  exact ⟨s, hgr.2.2.1.symm, hg⟩
              obtain ⟨s1, h1, g1⟩ := hl1
              subst h1
              dsimp only at h
              split at h
              · obtain ⟨hr, hc⟩ := ih5 _ _ _ _ _ _ _ _ _ rfl g1 h
                refine ⟨hr, ?_⟩
                intro i2 l2 hp2 hx
                exact ⟨(hc _ _ _ hx).1, fun hle => absurd hcn (by omega)⟩
              · rw [emplace_append] at h
                generalize hpa : node_array_func_parameters f _ _ _ _ = pa at h
                cases pa with
                | none => simp at h
                | some u =>
                  obtain ⟨i3, l3, hp3⟩ := u
                  obtain ⟨s3, h3, g3, hlen⟩ := ih6 _ _ _ _ _ _ _ _ rfl
                    (by simp only [base_first_layers, base_first_layer_eq, g1]; rfl) hpa
                  subst h3
                  dsimp only at h
                  split at h
                  · simp only [Option.some.injEq] at h
                    subst h
                    refine ⟨?_, ?_⟩
                    · intro b i2 l2 hp2 hr
                      simp only [loop_exit.returned.injEq] at hr
                      rw [← hr.1, ← hr.2.1, ← hr.2.2.1, resize_append]
                      exact ⟨⟨[], by simp, rfl⟩, rfl, Or.inl ⟨rfl, rfl⟩⟩
                    · intro i2 l2 hp2 hr
                      simp at hr
                  · generalize hq : node_cv_quals f _ _ = q at h
                    cases q with
                    | none => simp at h
                    | some v =>
                      obtain ⟨i4, l4⟩ := v
                      have hs3 : s3 ≠ [] := by
                        intro h0
                        rw [h0] at hlen
                        simp at hlen
                      obtain ⟨s4, h4, _, g4⟩ := node_cv_quals_append f _ init _ i4 l4 hs3 hq
                      subst h4
                      dsimp only at h
                      obtain ⟨hr, hc⟩ := ih5 _ _ _ _ _ _ _ _ _ rfl (by rw [g4, g3]) h
                      refine ⟨hr, ?_⟩
                      intro i2 l2 hp2 hx
                      exact ⟨(hc _ _ _ hx).1, fun hle => absurd hcn (by omega)⟩
          · simp only [Option.some.injEq] at h
            subst h
            refine ⟨?_, ?_⟩
            · intro b i2 l2 hp2 hr
              simp only [loop_exit.returned.injEq] at hr
              rw [← hr.1, ← hr.2.1, ← hr.2.2.1, resize_append]
              exact ⟨⟨[], by simp, rfl⟩, rfl, Or.inl ⟨rfl, rfl⟩⟩
            · intro i2 l2 hp2 hr
              simp at hr
      · simp only [Option.some.injEq] at h
        subst h
        refine ⟨?_, ?_⟩
        · intro b i2 l2 hp2 hr
          simp at hr
        · intro i2 l2 hp2 hr
          simp only [loop_exit.completed.injEq] at hr
          rw [← hr.1, ← hr.2.1]
          exact ⟨⟨s, rfl, hg⟩, fun _ => ⟨rfl, rfl⟩⟩
    · intro ip i init s hp i2 l2 hp2 hl hg h
      rw [node_array_func_parameters] at h
      subst hl
      dsimp only at h
      generalize hb : node_type f _ _ _ = ob at h
      cases ob with
      | none => simp at h
      | some v =>
        obtain ⟨b1, i1, l1, hp1⟩ := v
        have hbf := ih1 _ _ _ _ _ _ hb
        dsimp only at h
        split at h
        · simp only [Option.some.injEq, Prod.mk.injEq] at h
          exact ⟨s, h.2.1.symm, hg, le_refl _⟩
        · rename_i hne
          have harg : base_first_arg { addr := hp1, pointee := type.mk l1 } = true := by
            simp only [base_first_arg, type.valid, type.layers, type.base_first, hbf,
              Bool.and_true]
            simpa using hne
          obtain ⟨s2, hs2, g2, len2⟩ := push_argument_good init s _ harg hg
          rw [hs2] at h
          split at h
          · simp only [Option.some.injEq, Prod.mk.injEq] at h
            exact ⟨s2, h.2.1.symm, g2, len2⟩
          · obtain ⟨s3, h3, g3, len3⟩ := ih6 _ _ _ _ _ _ _ _ rfl g2 h
            exact ⟨s3, h3, g3, le_trans len2 len3⟩

/-- C21: a failed array or function suffix is not always undone.  On the text `[4][`, with
the layers `[Base("int")]`, `node_array_func` returns `false` with the cursor at the end of
the text and the layer `Array("4")` added, so that `type("int[4][")` has the two layers
`Base("int")`, `Array("4")`.  What holds for every text and every layer stack: a
`node_array_func` that returns `false` has put the cursor and the layers back, or has left
the cursor at the end of the text (the exit through an unterminated `[`). -/
theorem C21_failed_suffix_not_undone :
    (∀ k heap : Nat,
        node_array_func (k + 6) "[4][".toList [{ layer_type := .type, content := "int".toList }]
            heap
          = some (false, [],
              [{ layer_type := .type, content := "int".toList },
                { layer_type := .array, content := "4".toList }], heap))
      ∧ (∀ k heap : Nat,
          type.parse (k + 8) heap "int[4][".toList
            = some (.mk [{ layer_type := .type, content := "int".toList },
                    { layer_type := .array, content := "4".toList }], heap))
      ∧ (∀ (fuel : Nat) (input : List Char) (layers : List (layer type)) (heap : Nat)
          (i2 : List Char) (l2 : List (layer type)) (heap2 : Nat),
          node_array_func fuel input layers heap = some (false, i2, l2, heap2) →
            (i2 = input ∧ l2 = layers) ∨ deref i2 = NUL) := by
  refine ⟨fun k heap => by rfl, fun k heap => by rfl, ?_⟩
  intro fuel input layers heap i2 l2 heap2 h
  exact ((parser_layers fuel).2.2.1 input layers heap false i2 l2 heap2 h).2 rfl

/-- C22: a failed grouping attempt leaves its layers behind.  On `int (C::*, int)` the text
after the bracket is first read as a type_qual, which adds `MemberPointer("C")`; the comma
that follows makes the parser read a parameter list from the same place, and the layer
stays.  The Type has three layers, `Base("int")`, the Function layer with the two arguments
`C ::*` and `int`, and `MemberPointer("C")` outermost. -/
theorem C22_failed_grouping_leaks (k heap : Nat) :
    type.parse (k + 13) heap "int (C::*, int)".toList
      = some (.mk [{ layer_type := .type, content := "int".toList },
              { layer_type := .function,
                arguments :=
                  [{ addr := heap,
                     pointee := .mk [{ layer_type := .type, content := "C".toList },
                                     { layer_type := .member_pointer, content := [] }] },
                   { addr := heap + 1,
                     pointee := .mk [{ layer_type := .type, content := "int".toList }] }] },
              { layer_type := .member_pointer, content := "C".toList }], heap + 2) := by
  rfl

/-- C23: the output of the parser is Base-first.  On every text the constructor returns a
Type, and every Type it returns is empty or has a first layer of the kind Base with a
non-empty content and no later layer of the kind Base; every argument of every Function
layer is a non-empty Type with the same property. -/
theorem C23_base_first (val : List Char) (heap : Nat) :
    (∃ fuel r, ∀ fuel2, fuel ≤ fuel2 → type.parse fuel2 heap val = some r)
      ∧ (∀ (fuel : Nat) (t : type) (heap2 : Nat),
          type.parse fuel heap val = some (t, heap2) → t.base_first = true) := by
  refine ⟨?_, ?_⟩
  · obtain ⟨f, b, i2, l2, hp2, h, _⟩ := (parser_total _ (c_str val) rfl).2.2.1 [] heap
    have hp : type.parse f heap val = some (.mk l2, hp2) := by
      unfold type.parse
      rw [h]
    exact ⟨f, _, fun f2 hf => type.parse_mono hp hf⟩
  · intro fuel t heap2 h
    unfold type.parse at h
    generalize hn : node_type fuel (c_str val) [] heap = o at h
    cases o with
    | none => simp at h
    | some v =>
      obtain ⟨b, i2, l2, hp2⟩ := v
      simp only [Option.some.injEq, Prod.mk.injEq] at h
      rw [← h.1]
      exact (parser_layers fuel).1 _ _ _ _ _ _ hn

theorem C23_base_first_witness :
    type.base_first (.mk [{ layer_type := .type, content := "int".toList },
        { layer_type := .function,
          arguments :=
            [{ addr := 0,
               pointee := .mk [{ layer_type := .type, content := "C".toList },
                               { layer_type := .member_pointer, content := [] }] },
             { addr := 1,
               pointee := .mk [{ layer_type := .type, content := "int".toList }] }] },
        { layer_type := .member_pointer, content := "C".toList }]) = true :=
  (C23_base_first "int (C::*, int)".toList 0).2 13 _ 2 (by rfl)

/-- C24: the serialized form is not a fixed point of parse-then-print.  `type("vector<int>*")`
is valid and prints as `vector<int>**`: the Base content is `vector<int>*`, because
`node_name` appends all of the text from the closing bracket on, and the Pointer layer adds
a star.  `type("vector<int>**")` prints as `vector<int>****`.  Without a template:
`type("foo_ C::*")` is valid and prints as `foo_C::*`, with no space after the underscore,
and `type("foo_C::*")` prints as `foo_C ::*`. -/
theorem C24_not_fixed_point (k heap : Nat) :
    (type.parse (k + 4) heap "vector<int>*".toList
        = some (.mk [{ layer_type := .type, content := "vector<int>*".toList },
                     { layer_type := .pointer }], heap)
      ∧ (type.mk [{ layer_type := .type, content := "vector<int>*".toList },
                  { layer_type := .pointer }]).to_string [] = some "vector<int>**".toList
      ∧ type.parse (k + 5) heap "vector<int>**".toList
        = some (.mk [{ layer_type := .type, content := "vector<int>**".toList },
                     { layer_type := .pointer }, { layer_type := .pointer }], heap)
      ∧ (type.mk [{ layer_type := .type, content := "vector<int>**".toList },
                  { layer_type := .pointer }, { layer_type := .pointer }]).to_string []
        = some "vector<int>****".toList)
      ∧ (type.parse (k + 5) heap "foo_ C::*".toList
          = some (.mk [{ layer_type := .type, content := "foo_".toList },
                       { layer_type := .member_pointer, content := "C".toList }], heap)
        ∧ (type.mk [{ layer_type := .type, content := "foo_".toList },
                    { layer_type := .member_pointer, content := "C".toList }]).to_string []
          = some "foo_C::*".toList
        ∧ type.parse (k + 4) heap "foo_C::*".toList
          = some (.mk [{ layer_type := .type, content := "foo_C".toList },
                       { layer_type := .member_pointer, content := [] }], heap)
        ∧ (type.mk [{ layer_type := .type, content := "foo_C".toList },
                    { layer_type := .member_pointer, content := [] }]).to_string []
          = some "foo_C ::*".toList) := by
  refine ⟨⟨?_, ?_, ?_, ?_⟩, ?_, ?_, ?_, ?_⟩ <;> rfl

end parser
